import Mathlib

/-!
Verification of the SQL lineage extraction engine (`sqlParser.ts`) and the
graph assembler (`flowLayoutEngine.ts`).

SQL text is modelled as `List Char`.  The JavaScript regular expressions used
by the engine are modelled by explicit scanners that mirror the engine's
matching behaviour (leftmost match, greedy / lazy quantifiers, resumption
after a failed candidate) on the patterns that actually occur.  The mutable
parser state (subquery collector, id counter, body cache) is threaded
explicitly; the recursion of `processSQL` is presented with an explicit fuel
parameter, and fuel sufficiency is proved separately (termination).
-/

abbrev Str := List Char

/-- Character class of the JavaScript regex `\s` (ASCII part). -/
def isSpaceChar (c : Char) : Bool :=
  c = ' ' || c = '\t' || c = '\n' || c = '\r' || c = '\x0b' || c = '\x0c'

/-- Character class of the JavaScript regex `\w`. -/
def isWordChar (c : Char) : Bool :=
  ('a' ≤ c && c ≤ 'z') || ('A' ≤ c && c ≤ 'Z') || ('0' ≤ c && c ≤ '9') || c = '_'

/-- Lower-casing of a text, as `String.prototype.toLowerCase` on ASCII. -/
def lcStr (l : Str) : Str := l.map Char.toLower

/-- Upper-casing of a text, as `String.prototype.toUpperCase` on ASCII. -/
def ucStr (l : Str) : Str := l.map Char.toUpper

/-- Case-insensitive character comparison. -/
def eqCI (a b : Char) : Bool := a.toLower = b.toLower

/-- Case-insensitive prefix test (the anchored part of a `/.../i` regex). -/
def startsWithCI : Str → Str → Bool
  | [], _ => true
  | _ :: _, [] => false
  | p :: ps, c :: cs => eqCI p c && startsWithCI ps cs

/-- Substring containment (JavaScript `String.prototype.includes`). -/
def containsSub (pat : Str) : Str → Bool
  | [] => pat.isEmpty
  | c :: rest => pat.isPrefixOf (c :: rest) || containsSub pat rest

/-- Case-insensitive substring containment. -/
def containsSubCI (pat : Str) : Str → Bool
  | [] => pat.isEmpty
  | c :: rest => startsWithCI pat (c :: rest) || containsSubCI pat rest

/-- Both-ends whitespace trim (JavaScript `String.prototype.trim`). -/
def trimStr (l : Str) : Str :=
  ((l.dropWhile isSpaceChar).reverse.dropWhile isSpaceChar).reverse

/-- Decimal digit character. -/
def digitChar (n : Nat) : Char := Char.ofNat (48 + n)

/-- Decimal printing of a natural number (JavaScript number-to-string in a
template literal), accumulator form; the fuel dominates the digit count. -/
def natToStrGo : Nat → Nat → Str → Str
  | 0, n, acc => digitChar n :: acc
  | fuel + 1, n, acc =>
    if n < 10 then digitChar n :: acc
    else natToStrGo fuel (n / 10) (digitChar (n % 10) :: acc)

/-- Decimal printing of a natural number. -/
def natToStr (n : Nat) : Str := natToStrGo n n []

/-- Insertion-ordered map update (JavaScript `Map.prototype.set`): replace the
value at an existing key in place, otherwise append. -/
def mapSet {α : Type} : List (Str × α) → Str → α → List (Str × α)
  | [], k, v => [(k, v)]
  | (k0, v0) :: rest, k, v =>
    if k0 = k then (k, v) :: rest else (k0, v0) :: mapSet rest k v

/-- Map lookup (JavaScript `Map.prototype.get`), first matching key. -/
def mapGet {α : Type} : List (Str × α) → Str → Option α
  | [], _ => none
  | (k0, v0) :: rest, k => if k0 = k then some v0 else mapGet rest k

/-- Run of whitespace at the head of a text (greedy `\s*` / `\s+`). -/
def wsRun (l : Str) : Str := l.takeWhile isSpaceChar

/-- Run of word characters at the head of a text (greedy `\w+`). -/
def wordRun (l : Str) : Str := l.takeWhile isWordChar

/-- Count of opening parentheses, the measure that decreases when a
parenthesised subquery is replaced by a placeholder. -/
def opens (l : Str) : Nat := l.count '('

/-! Data model (`sqlParser.ts` interfaces). `type` on a `TableRef` is the
optional fact/dimension classification; `isTempTable` is optional in the
source and modelled with default `false`. -/

structure TableRef where
  name : Str
  schema : Str
  tableName : Str
  aliasName : Str
  type : Option Str
deriving DecidableEq

structure FieldInfo where
  expression : Str
  aliasName : Str
  originalName : Str
  displayText : Str
  transformation : Str
deriving DecidableEq

structure JoinInfo where
  type : Str
  table : TableRef
  condition : Str
deriving DecidableEq

structure FilterInfo where
  clause : Str
  condition : Str
deriving DecidableEq

structure UnionInfo where
  type : Str
  sources : List Str
deriving DecidableEq

structure SubQuery where
  id : Str
  name : Str
  isCTE : Bool
  isSubQuery : Bool
  isTempTable : Bool := false
  tables : List TableRef
  fields : List FieldInfo
  joins : List JoinInfo
  filters : List FilterInfo
  groupBy : List Str
  orderBy : List Str
  dependsOn : List Str
  unionInfo : Option UnionInfo
deriving DecidableEq

structure ParsedSQL where
  ctes : List SubQuery
  mainQuery : SubQuery
  subQueries : List SubQuery
  allQueries : List SubQuery
deriving DecidableEq

/-! Keyword and label constants (shared string literals). -/

def kwUNION : Str := "UNION".data
def kwALL : Str := "ALL".data
def kwUNIONALL : Str := "UNION ALL".data
def kwSELECT : Str := "SELECT".data
def kwFROM : Str := "FROM".data
def kwJOIN : Str := "JOIN".data
def kwINNER : Str := "INNER".data
def kwLEFT : Str := "LEFT".data
def kwRIGHT : Str := "RIGHT".data
def kwFULL : Str := "FULL".data
def kwCROSS : Str := "CROSS".data
def kwON : Str := "ON".data
def kwWHERE : Str := "WHERE".data
def kwGROUP : Str := "GROUP".data
def kwBY : Str := "BY".data
def kwHAVING : Str := "HAVING".data
def kwORDER : Str := "ORDER".data
def kwLIMIT : Str := "LIMIT".data
def kwAS : Str := "AS".data
def kwWITH : Str := "WITH".data
def kwCREATE : Str := "CREATE".data
def kwTABLE : Str := "TABLE".data
def kwIF : Str := "IF".data
def kwNOT : Str := "NOT".data
def kwEXISTS : Str := "EXISTS".data
def kwDISTINCT : Str := "DISTINCT".data
def kwLATERAL : Str := "LATERAL".data
def kwVIEW : Str := "VIEW".data
def kwEXPLODE : Str := "EXPLODE".data
def kwUNNEST : Str := "UNNEST".data
def strJoinSuffix : Str := " JOIN".data
def strInnerDefault : Str := "INNER".data
def strFact : Str := "fact".data
def strDimension : Str := "dimension".data
def strDollarBrace : Str := "$\x7b".data
def strSubqPrefix : Str := "__SUBQ_".data
def strSubqSuffix : Str := "__".data
def strUnderscore : Str := "_".data
def strUnionMid : Str := "_union_".data
def strDual : Str := "dual".data
def strSelectStarFrom : Str := "SELECT * FROM ".data
def strMainId : Str := "main".data
def strMainName : Str := "最终查询".data
def strCtePrefix : Str := "cte_".data
def strTempPrefix : Str := "temp_".data
def strTempNodePrefix : Str := "temp_node_".data
def strSubqueryId : Str := "subquery_".data
def strSubqNameAlias1 : Str := "子查询 (".data
def strSubqNameAlias2 : Str := ")".data
def strSubqNameNum : Str := "子查询_".data
def strBranchName1 : Str := " (分支 ".data
def strBranchName2 : Str := ")".data
def strStarSlash : Str := "*/".data
def strSemiNl : Str := ";\n".data
def backquoteChar : Char := Char.ofNat 96

/-! Lexical utilities (`sqlParser.ts`). -/

/-- Name matcher `getMatchName`: lower-case, then strip a `${...}` wrapper. -/
def getMatchName (name : Str) : Str :=
  let cleaned := lcStr name
  if strDollarBrace.isPrefixOf cleaned && cleaned.getLast? == some '\x7d' then
    (cleaned.drop 2).dropLast
  else cleaned

/-- Table classifier `classifyTable`. -/
def classifyTable (fullName : Str) : Str :=
  let lowerName := lcStr fullName
  if containsSub ( "app".data) lowerName || containsSub ( "dm".data) lowerName ||
     containsSub ( "dwd".data) lowerName || containsSub ( "dws".data) lowerName then
    strFact
  else strDimension

/-- Split of a (possibly schema-qualified) raw table name at its first dot
(`parseTableName`): returns (fullName, schema, tableName). -/
def splitAtFirstDot : Str → Option (Str × Str)
  | [] => none
  | c :: rest =>
    if c = '.' then some ([], rest)
    else (splitAtFirstDot rest).map (fun p => (c :: p.1, p.2))

def parseTableName (raw : Str) : Str × Str × Str :=
  match splitAtFirstDot raw with
  | some (s, t) => (raw, s, t)
  | none => (raw, [], raw)

/-- Name cleaning `cleanName`: trim, then strip one pair of matching quotes. -/
def cleanName (name : Str) : Str :=
  if name.isEmpty then name
  else
    let trimmed := trimStr name
    if 2 ≤ trimmed.length &&
       ((trimmed.head? == some '"' && trimmed.getLast? == some '"') ||
        (trimmed.head? == some '\'' && trimmed.getLast? == some '\'') ||
        (trimmed.head? == some backquoteChar && trimmed.getLast? == some backquoteChar)) then
      (trimmed.drop 1).dropLast
    else trimmed

/-- Invalid alias keywords checked inside `createTableRef`. -/
def invalidAliasList : List Str :=
  [kwWHERE, kwGROUP, kwHAVING, kwORDER, kwLIMIT, kwUNION, kwLEFT, kwRIGHT,
   kwINNER, kwFULL, kwCROSS, kwJOIN, kwON, kwLATERAL, kwVIEW, kwEXPLODE, kwUNNEST]

/-- Table reference construction `createTableRef` (with known names given, as
at every call site). -/
def createTableRef (rawName alias0 : Str) (knownNames : List Str) : TableRef :=
  let cleanedRawName := cleanName rawName
  let p := parseTableName cleanedRawName
  let fullName := p.1
  let schema := p.2.1
  let tableName := p.2.2
  let finalAlias :=
    if !alias0.isEmpty && !(invalidAliasList.contains (ucStr alias0)) then alias0
    else fullName
  let lookupName := getMatchName tableName
  let lookupFull := getMatchName fullName
  let isKnown := knownNames.any (fun k =>
    getMatchName k = lookupName || getMatchName k = lookupFull)
  let ty : Option Str := if isKnown then none else some (classifyTable fullName)
  { name := fullName, schema := schema, tableName := tableName,
    aliasName := finalAlias, type := ty }

/-- Comment stripping, line-comment pass (regex `--.*$` with the g and m
flags): each `--` removed up to (not including) the end of its line. -/
def stripLineGo : Nat → Str → Str
  | 0, _ => []
  | _ + 1, [] => []
  | fuel + 1, '-' :: '-' :: rest =>
    stripLineGo fuel (rest.dropWhile (fun c => !(c = '\n')))
  | fuel + 1, c :: rest => c :: stripLineGo fuel rest

def stripLineComments (l : Str) : Str := stripLineGo (l.length + 1) l

/-- Position just after the closing `*/` of a block comment, if any. -/
def blockEndIdx : Str → Option Nat
  | [] => none
  | '*' :: '/' :: _ => some 2
  | _ :: rest => (blockEndIdx rest).map (· + 1)

/-- Comment stripping, block-comment pass (lazy block-comment regex with the
g flag): each block comment removed up to the nearest closing `*/`; an
unterminated opener is left unchanged. -/
def stripBlockGo : Nat → Str → Str
  | 0, _ => []
  | _ + 1, [] => []
  | fuel + 1, '/' :: '*' :: rest =>
    (match blockEndIdx rest with
     | some n => stripBlockGo fuel (rest.drop n)
     | none => '/' :: '*' :: rest)
  | fuel + 1, c :: rest => c :: stripBlockGo fuel rest

def stripBlockComments (l : Str) : Str := stripBlockGo (l.length + 1) l

/-- Comment removal `removeComments`: line comments, then block comments. -/
def removeComments (sql : Str) : Str := stripBlockComments (stripLineComments sql)

/-- Whitespace collapse: every maximal whitespace run becomes one space. -/
def collapseWsGo : Nat → Str → Str
  | 0, _ => []
  | _ + 1, [] => []
  | fuel + 1, c :: rest =>
    if isSpaceChar c then ' ' :: collapseWsGo fuel (rest.dropWhile isSpaceChar)
    else c :: collapseWsGo fuel rest

def collapseWs (l : Str) : Str := collapseWsGo (l.length + 1) l

/-- Whitespace normalization `normalizeWhitespace`. -/
def normalizeWhitespace (sql : Str) : Str := trimStr (collapseWs sql)

/-- Balanced-parenthesis scan from just after an opening parenthesis
(`findMatchingParen` with the scan started at the `(`): returns the inner
text and the text after the matching `)`, or `none` when unbalanced. -/
def findCloseAux : Str → Int → Str → Option (Str × Str)
  | [], _, _ => none
  | c :: rest, depth, acc =>
    let d1 : Int := if c = '(' then depth + 1 else depth
    if c = ')' then
      if d1 = 1 then some (acc.reverse, rest)
      else findCloseAux rest (d1 - 1) (c :: acc)
    else findCloseAux rest d1 (c :: acc)

def findClose (l : Str) : Option (Str × Str) := findCloseAux l 1 []

/-- Top-level split on a delimiter (`splitTopLevel`). -/
def splitTopLevelAux (delim : Char) : Str → Int → Str → List Str → List Str
  | [], _, current, acc =>
    if (trimStr current).isEmpty then acc else acc ++ [current]
  | c :: rest, depth, current, acc =>
    let d1 : Int := if c = '(' then depth + 1 else depth
    let d2 : Int := if c = ')' then d1 - 1 else d1
    if c = delim && d2 = 0 then splitTopLevelAux delim rest d2 [] (acc ++ [current])
    else splitTopLevelAux delim rest d2 (current ++ [c]) acc

def splitTopLevel (l : Str) (delim : Char) : List Str :=
  splitTopLevelAux delim l 0 [] []

/-! Union splitting (`splitByUnion`) and union detection. -/

/-- Match of `^UNION\s+ALL\s` (case-insensitive) at the head of a text,
returning the number of characters consumed. -/
def uaMatchLen (l : Str) : Option Nat :=
  if startsWithCI kwUNION l then
    let rest := l.drop 5
    let w := wsRun rest
    if w.isEmpty then none
    else
      let rest2 := rest.drop w.length
      if startsWithCI kwALL rest2 then
        match rest2.drop 3 with
        | c :: _ => if isSpaceChar c then some (5 + w.length + 3 + 1) else none
        | [] => none
      else none
  else none

/-- Match of `^UNION\s(?!ALL)` (case-insensitive) at the head of a text,
returning the number of characters consumed. -/
def uMatchLen (l : Str) : Option Nat :=
  if startsWithCI kwUNION l then
    match l.drop 5 with
    | c :: rest2 =>
      if isSpaceChar c && !(startsWithCI kwALL rest2) then some 6 else none
    | [] => none
  else none

/-- Depth update for one scanned character. -/
def stepDepth (c : Char) (depth : Int) : Int :=
  let d1 : Int := if c = '(' then depth + 1 else depth
  if c = ')' then d1 - 1 else d1

/-- Scan state of `splitByUnion`: a positive `skip` means the scanner is
inside an already-matched union keyword whose characters are consumed
without further processing. -/
def splitByUnionGo : Str → Nat → Int → Str → List Str → Option Str →
    List Str × Option Str
  | [], _, _, current, parts, detected =>
    (if (trimStr current).isEmpty then parts else parts ++ [trimStr current],
     detected)
  | _ :: rest, skip + 1, depth, current, parts, detected =>
    splitByUnionGo rest skip depth current parts detected
  | c :: rest, 0, depth, current, parts, detected =>
    if stepDepth c depth = 0 then
      match uaMatchLen (c :: rest) with
      | some n =>
        splitByUnionGo rest (n - 1) (stepDepth c depth) []
          (parts ++ [trimStr current]) (some kwUNIONALL)
      | none =>
        match uMatchLen (c :: rest) with
        | some n =>
          splitByUnionGo rest (n - 1) (stepDepth c depth) []
            (parts ++ [trimStr current]) (some kwUNION)
        | none =>
          splitByUnionGo rest 0 (stepDepth c depth) (current ++ [c]) parts
            detected
    else splitByUnionGo rest 0 (stepDepth c depth) (current ++ [c]) parts
      detected

structure UnionSplit where
  parts : List Str
  unionType : Option Str
deriving DecidableEq

/-- Top-level union split `splitByUnion`. -/
def splitByUnion (sql : Str) : UnionSplit :=
  let r := splitByUnionGo sql 0 0 [] [] none
  { parts := r.1, unionType := if 1 < r.1.length then r.2 else none }

/-- Maximal-munch match of the table-name pattern `\w+(?:\.\w+)*`. -/
def tableNameDotsGo : Nat → Str → Str
  | 0, _ => []
  | fuel + 1, l =>
    match l with
    | '.' :: rest =>
      let w := wordRun rest
      if w.isEmpty then []
      else '.' :: (w ++ tableNameDotsGo fuel (rest.drop w.length))
    | _ => []

def tableNameDots (l : Str) : Str := tableNameDotsGo (l.length + 1) l

def tableNameRun (l : Str) : Str :=
  let w := wordRun l
  if w.isEmpty then [] else w ++ tableNameDots (l.drop w.length)

/-- First match of `FROM\s+(\w+(?:\.\w+)*)` (case-insensitive), returning the
captured table name. -/
def findFromTable : Str → Option Str
  | [] => none
  | c :: rest =>
    let l := c :: rest
    let cand :=
      if startsWithCI kwFROM l then
        let after := l.drop 4
        let w := wsRun after
        if w.isEmpty then []
        else tableNameRun (after.drop w.length)
      else []
    if cand.isEmpty then findFromTable rest else some cand

/-- Union detection at top level (`detectUnionAllTopLevel`). -/
def detectUnionAllTopLevel (sql : Str) (knownNames : List Str) :
    Option UnionInfo :=
  let s := splitByUnion sql
  if s.parts.length ≤ 1 then none
  else
    match s.unionType with
    | none => none
    | some ut =>
      let sources := s.parts.foldl (fun acc part =>
        match findFromTable (trimStr part) with
        | some tn =>
          let lower := getMatchName tn
          match knownNames.find? (fun k => getMatchName k == lower) with
          | some km => acc ++ [km]
          | none => acc ++ [tn]
        | none => acc) []
      if sources.isEmpty then none else some { type := ut, sources := sources }

/-- Union detection inside a `FROM (...)` subquery
(`detectUnionAllInSubquery`); the scan resumes just after the opening
parenthesis of each candidate, as the `g`-flagged regex does. -/
def detectUAInSubqGo : Nat → Str → List Str → Option UnionInfo
  | 0, _, _ => none
  | _ + 1, [], _ => none
  | fuel + 1, c :: rest, kn =>
    if startsWithCI kwFROM (c :: rest) then
      match ((c :: rest).drop 4).drop (wsRun ((c :: rest).drop 4)).length with
      | '(' :: afterOpen =>
        (match findClose afterOpen with
         | some (inner, _) =>
           (match detectUnionAllTopLevel (trimStr inner) kn with
            | some info => some info
            | none => detectUAInSubqGo fuel afterOpen kn)
         | none => detectUAInSubqGo fuel afterOpen kn)
      | _ => detectUAInSubqGo fuel rest kn
    else detectUAInSubqGo fuel rest kn

def detectUnionAllInSubquery (sql : Str) (knownNames : List Str) :
    Option UnionInfo :=
  detectUAInSubqGo (sql.length + 1) sql knownNames

/-- Union detection `detectUnionAll`. -/
def detectUnionAll (sql : Str) (knownNames : List Str) : Option UnionInfo :=
  let n := normalizeWhitespace sql
  match detectUnionAllTopLevel n knownNames with
  | some i => some i
  | none => detectUnionAllInSubquery n knownNames

/-! Statement splitting and temp-table extraction. -/

/-- Quote-aware statement split `splitStatements`; `prev` is the previous
character (for the backslash-escape look-back). -/
def splitStatementsAux : Str → Char → Int → Str → Bool → Char → List Str →
    List Str
  | [], _, _, current, _, _, acc =>
    if (trimStr current).isEmpty then acc else acc ++ [trimStr current]
  | c :: rest, prev, depth, current, inQuote, quoteChar, acc =>
    if inQuote then
      if c = quoteChar && !(prev = '\\') then
        splitStatementsAux rest c depth (current ++ [c]) false quoteChar acc
      else splitStatementsAux rest c depth (current ++ [c]) true quoteChar acc
    else if c = '\'' || c = '"' || c = backquoteChar then
      splitStatementsAux rest c depth (current ++ [c]) true c acc
    else
      let d1 : Int := if c = '(' then depth + 1 else depth
      let d2 : Int := if c = ')' then d1 - 1 else d1
      if c = ';' && d2 = 0 then
        if (trimStr current).isEmpty then
          splitStatementsAux rest c d2 [] false quoteChar acc
        else
          splitStatementsAux rest c d2 [] false quoteChar
            (acc ++ [trimStr current])
      else splitStatementsAux rest c d2 (current ++ [c]) false quoteChar acc

def splitStatements (sql : Str) : List Str :=
  splitStatementsAux sql ' ' 0 [] false ' ' []

/-- Match of the temp-table statement pattern (the `createTableRegex`):
`^\s*CREATE\s+TABLE\s+(?:IF\s+NOT\s+EXISTS\s+)?([^\s(]+)(?:\s+AS)?\s+`
followed by a captured body that starts with `SELECT` or `WITH` and has at
least one further character.  Returns the raw table name and the body. -/
def bodyKeywordOk (b : Str) : Bool :=
  (startsWithCI kwSELECT b && 6 < b.length) ||
  (startsWithCI kwWITH b && 4 < b.length)

def matchCreateTable (stmt : Str) : Option (Str × Str) :=
  let s1 := stmt.drop (wsRun stmt).length
  if startsWithCI kwCREATE s1 then
    let s2 := s1.drop 6
    let w2 := wsRun s2
    if w2.isEmpty then none
    else
      let s3 := s2.drop w2.length
      if startsWithCI kwTABLE s3 then
        let s4 := s3.drop 5
        let w4 := wsRun s4
        if w4.isEmpty then none
        else
          let s5 := s4.drop w4.length
          -- optional IF NOT EXISTS (all or nothing)
          let s6 :=
            if startsWithCI kwIF s5 then
              let t1 := s5.drop 2
              let v1 := wsRun t1
              if v1.isEmpty then s5
              else
                let t2 := t1.drop v1.length
                if startsWithCI kwNOT t2 then
                  let t3 := t2.drop 3
                  let v3 := wsRun t3
                  if v3.isEmpty then s5
                  else
                    let t4 := t3.drop v3.length
                    if startsWithCI kwEXISTS t4 then
                      let t5 := t4.drop 6
                      let v5 := wsRun t5
                      if v5.isEmpty then s5 else t5.drop v5.length
                    else s5
                else s5
            else s5
          let nm := s6.takeWhile (fun c => !(isSpaceChar c) && !(c = '('))
          if nm.isEmpty then none
          else
            let s7 := s6.drop nm.length
            let w7 := wsRun s7
            if w7.isEmpty then none
            else
              let s8 := s7.drop w7.length
              -- path A: the optional `\s+AS` was taken, then `\s+` and body
              let pathA :=
                if startsWithCI kwAS s8 then
                  let s9 := s8.drop 2
                  let w9 := wsRun s9
                  if w9.isEmpty then none
                  else
                    let s10 := s9.drop w9.length
                    if bodyKeywordOk s10 then some s10 else none
                else none
              match pathA with
              | some body => some (nm, body)
              | none => if bodyKeywordOk s8 then some (nm, s8) else none
      else none
  else none

/-- Temp-table preprocessing `preprocessTempTables`: every matching
`CREATE TABLE` statement is removed; the rest are rejoined with `;\n`. -/
def preprocessTempTables (sql : Str) :
    List (Str × Str) × Str :=
  let statements := splitStatements sql
  let step := fun (acc : List (Str × Str) × List Str) (stmt : Str) =>
    match matchCreateTable stmt with
    | some (raw, body) =>
      let tableName := cleanName raw
      let cleanedBody := trimStr body
      let stripped :=
        match cleanedBody with
        | '(' :: restB =>
          match findClose restB with
          | some (inner, after) => if after.isEmpty then inner else cleanedBody
          | none => cleanedBody
        | _ => cleanedBody
      (acc.1 ++ [(tableName, stripped)], acc.2)
    | none =>
      if (trimStr stmt).isEmpty then acc else (acc.1, acc.2 ++ [stmt])
  let r := statements.foldl step ([], [])
  (r.1, List.intercalate strSemiNl r.2)

/-! CTE extraction (`extractCTEs`). -/

/-- One `<name> AS ( <body> )` group match at the head of the current text:
`^\s*(\w+)\s+AS\s*\(` (case-insensitive), returning the name and the text
starting right after the opening parenthesis. -/
def cteHeadMatch (cur : Str) : Option (Str × Str) :=
  let w0 := wsRun cur
  let s1 := cur.drop w0.length
  let nm := wordRun s1
  if nm.isEmpty then none
  else
    let s2 := s1.drop nm.length
    let w2 := wsRun s2
    if w2.isEmpty then none
    else
      let s3 := s2.drop w2.length
      if startsWithCI kwAS s3 then
        let s4 := (s3.drop 2).drop (wsRun (s3.drop 2)).length
        match s4 with
        | '(' :: afterOpen => some (nm, afterOpen)
        | _ => none
      else none

/-- CTE group loop; the fuel bounds the number of groups (each consumes at
least one character, so the initial text length suffices).  The second
result is the remaining main-query text, `none` meaning the source's
"`remaining` was never assigned" exit where the whole input is kept. -/
def extractCTEsLoop : Nat → Str → List (Str × Str) →
    List (Str × Str) × Option Str
  | 0, _, acc => (acc, none)
  | fuel + 1, cur, acc =>
    if cur.isEmpty then (acc, none)
    else
      match cteHeadMatch cur with
      | none => (acc, none)
      | some (nm, afterOpen) =>
        match findClose afterOpen with
        | none => (acc, none)
        | some (inner, after) =>
          let acc2 := acc ++ [(cleanName nm, trimStr inner)]
          let wc := wsRun after
          match after.drop wc.length with
          | ',' :: tail =>
            extractCTEsLoop fuel (tail.drop (wsRun tail).length) acc2
          | _ => (acc2, some (trimStr after))

/-- CTE extraction `extractCTEs`. -/
def extractCTEs (sql : Str) : List (Str × Str) × Str :=
  let w0 := wsRun sql
  let s1 := sql.drop w0.length
  if startsWithCI kwWITH s1 && !(wsRun (s1.drop 4)).isEmpty then
    let afterWith := (s1.drop 4).drop (wsRun (s1.drop 4)).length
    let r := extractCTEsLoop (afterWith.length + 1) afterWith []
    (r.1, match r.2 with | none => sql | some rem => rem)
  else ([], sql)

/-! Field parsing (`parseField`) and transformation tagging
(`detectTransformation`). -/

def kwSUM : Str := "SUM".data
def kwCOUNT : Str := "COUNT".data
def kwAVG : Str := "AVG".data
def kwMAX : Str := "MAX".data
def kwMIN : Str := "MIN".data
def kwGROUPCONCAT : Str := "GROUP_CONCAT".data
def kwSTRINGAGG : Str := "STRING_AGG".data
def kwARRAYAGG : Str := "ARRAY_AGG".data
def kwLISTAGG : Str := "LISTAGG".data
def kwCOLLECTLIST : Str := "COLLECT_LIST".data
def kwCOLLECTSET : Str := "COLLECT_SET".data
def kwROWNUMBER : Str := "ROW_NUMBER".data
def kwRANK : Str := "RANK".data
def kwDENSERANK : Str := "DENSE_RANK".data
def kwNTILE : Str := "NTILE".data
def kwLAG : Str := "LAG".data
def kwLEAD : Str := "LEAD".data
def kwFIRSTVALUE : Str := "FIRST_VALUE".data
def kwLASTVALUE : Str := "LAST_VALUE".data
def kwOVER : Str := "OVER".data
def kwCASE : Str := "CASE".data
def kwWHEN : Str := "WHEN".data
def kwTHEN : Str := "THEN".data
def kwEND : Str := "END".data
def kwUNNESTKW : Str := "UNNEST".data
def kwEXPLODEKW : Str := "EXPLODE".data
def kwFLATTEN : Str := "FLATTEN".data
def kwCONCAT : Str := "CONCAT".data
def kwCONCATWS : Str := "CONCAT_WS".data
def kwCAST : Str := "CAST".data
def kwCONVERT : Str := "CONVERT".data
def kwTODATE : Str := "TO_DATE".data
def kwTOCHAR : Str := "TO_CHAR".data
def kwTONUMBER : Str := "TO_NUMBER".data
def kwDATEFORMAT : Str := "DATE_FORMAT".data
def kwCOALESCE : Str := "COALESCE".data
def kwNVL : Str := "NVL".data
def kwIFNULL : Str := "IFNULL".data
def kwISNULL : Str := "ISNULL".data
def kwSUBSTR : Str := "SUBSTR".data
def kwSUBSTRING : Str := "SUBSTRING".data
def kwTRIMKW : Str := "TRIM".data
def kwLTRIM : Str := "LTRIM".data
def kwRTRIM : Str := "RTRIM".data
def kwUPPER : Str := "UPPER".data
def kwLOWER : Str := "LOWER".data
def kwREPLACE : Str := "REPLACE".data
def kwREGEXP : Str := "REGEXP".data
def kwDATEADD : Str := "DATEADD".data
def kwDATEDIFF : Str := "DATEDIFF".data
def kwDATEADD2 : Str := "DATE_ADD".data
def kwDATESUB : Str := "DATE_SUB".data
def kwEXTRACT : Str := "EXTRACT".data
def kwYEAR : Str := "YEAR".data
def kwMONTH : Str := "MONTH".data
def kwDAY : Str := "DAY".data
def strPipePipe : Str := "||".data
def strSpaceAsSpace : Str := " AS ".data
def strSpaceOnSpace : Str := " ON ".data
def strFromSpace : Str := "FROM ".data
def lblAgg : Str := "聚合:".data
def lblWindowPrefix : Str := "开窗:".data
def lblWindowFn : Str := "开窗函数".data
def lblExplode : Str := "炸开(展开)".data
def lblConcat : Str := "拼接".data
def lblCase : Str := "条件判断(CASE)".data
def lblCast : Str := "类型转换".data
def lblNull : Str := "空值处理".data
def lblString : Str := "字符串处理".data
def lblDate : Str := "日期处理".data
def lblRaw : Str := "原始字段".data
def lblArith : Str := "算术运算".data

def aggKws : List Str :=
  [kwSUM, kwCOUNT, kwAVG, kwMAX, kwMIN, kwGROUPCONCAT, kwSTRINGAGG,
   kwARRAYAGG, kwLISTAGG, kwCOLLECTLIST, kwCOLLECTSET]

def winKws : List Str :=
  [kwROWNUMBER, kwRANK, kwDENSERANK, kwNTILE, kwLAG, kwLEAD, kwFIRSTVALUE,
   kwLASTVALUE, kwSUM, kwCOUNT, kwAVG, kwMAX, kwMIN]

def concatKws : List Str := [kwCONCAT, kwCONCATWS]

def castKws : List Str :=
  [kwCAST, kwCONVERT, kwTODATE, kwTOCHAR, kwTONUMBER, kwDATEFORMAT]

def nullKws : List Str := [kwCOALESCE, kwNVL, kwIFNULL, kwISNULL]

def stringKws : List Str :=
  [kwSUBSTR, kwSUBSTRING, kwLEFT, kwRIGHT, kwTRIMKW, kwLTRIM, kwRTRIM,
   kwUPPER, kwLOWER, kwREPLACE, kwREGEXP]

def dateKws : List Str :=
  [kwDATEADD, kwDATEDIFF, kwDATEADD2, kwDATESUB, kwEXTRACT, kwYEAR, kwMONTH,
   kwDAY]

def implicitKwList : List Str :=
  [kwCASE, kwWHEN, kwTHEN, kwEND, kwOVER, kwSUM, kwCOUNT, kwAVG, kwMAX,
   kwMIN, kwCONCAT, kwCOALESCE, kwNVL, kwROWNUMBER, kwRANK, kwCOLLECTLIST,
   kwCONCATWS, kwCAST]

/-- Position scan with optional word-boundary requirement before the match;
`prev` is the previous character (initially a non-word dummy). -/
def scanPos {α : Type} (reqB : Bool) (m : Str → Option α) : Char → Str →
    Option α
  | _, [] => none
  | prev, c :: rest =>
    match (if !reqB || !(isWordChar prev) then m (c :: rest) else none) with
    | some r => some r
    | none => scanPos reqB m c rest

/-- Test for `\s*\(` at the head of a text. -/
def parenAfter (l : Str) : Bool :=
  match l.drop (wsRun l).length with
  | '(' :: _ => true
  | _ => false

/-- Matcher for `(KW1|KW2|...)\s*\(` at the head of a text (alternatives in
list order), returning the keyword matched. -/
def kwParenM (kws : List Str) (l : Str) : Option Str :=
  kws.find? (fun kw => startsWithCI kw l && parenAfter (l.drop kw.length))

/-- Matcher for `(KW1|...)\b` at the head of a text. -/
def wordBoundMatch (kws : List Str) (l : Str) : Option Str :=
  kws.find? (fun kw =>
    startsWithCI kw l &&
    (match l.drop kw.length with
     | [] => true
     | c :: _ => !(isWordChar c)))

/-- Containment test for `\bKW\b` over a whole text. -/
def containsWordsCI (kws : List Str) (l : Str) : Bool :=
  (scanPos true (wordBoundMatch kws) ' ' l).isSome

/-- Lazy tail of the windowed-call pattern: a `)` followed by `\s*OVER`,
anywhere ahead (the regex backtracks past a `)` whose continuation fails). -/
def closeThenOver : Str → Bool
  | [] => false
  | c :: rest =>
    if c = ')' then
      startsWithCI kwOVER (rest.drop (wsRun rest).length) || closeThenOver rest
    else closeThenOver rest

/-- Matcher for the window-function capture
`(ROW_NUMBER|...)\s*\([\s\S]*?\)\s*OVER`. -/
def windowFnM (l : Str) : Option Str :=
  winKws.find? (fun kw =>
    startsWithCI kw l &&
    (match (l.drop kw.length).drop (wsRun (l.drop kw.length)).length with
     | '(' :: content => closeThenOver content
     | _ => false))

/-- Matcher for `(UNNEST|EXPLODE|LATERAL\s+FLATTEN)\s*\(`. -/
def explodeM (l : Str) : Option Unit :=
  if startsWithCI kwUNNESTKW l && parenAfter (l.drop 6) then some ()
  else if startsWithCI kwEXPLODEKW l && parenAfter (l.drop 7) then some ()
  else if startsWithCI kwLATERAL l then
    let r := l.drop 7
    let w := wsRun r
    if !w.isEmpty && startsWithCI kwFLATTEN (r.drop w.length) &&
       parenAfter ((r.drop w.length).drop 7) then some ()
    else none
  else none

/-- Matcher for `OVER\s*\(`. -/
def overParenM (l : Str) : Option Unit :=
  if startsWithCI kwOVER l && parenAfter (l.drop 4) then some () else none

/-- Field-transformation tagging `detectTransformation`: ordered pattern
categories, first match wins. -/
def detectTransformation (expr : Str) : Str :=
  let upper := ucStr expr
  match scanPos true (kwParenM aggKws) ' ' upper with
  | some kw => lblAgg ++ kw
  | none =>
    if (scanPos true overParenM ' ' upper).isSome then
      match scanPos true windowFnM ' ' upper with
      | some kw => lblWindowPrefix ++ kw
      | none => lblWindowFn
    else if (scanPos true explodeM ' ' upper).isSome then lblExplode
    else if (scanPos true (kwParenM concatKws) ' ' upper).isSome ||
            containsSub strPipePipe expr then lblConcat
    else if containsWordsCI [kwCASE] upper then lblCase
    else if (scanPos true (kwParenM castKws) ' ' upper).isSome then lblCast
    else if (scanPos true (kwParenM nullKws) ' ' upper).isSome then lblNull
    else if (scanPos true (kwParenM stringKws) ' ' upper).isSome then
      lblString
    else if (scanPos false (kwParenM dateKws) ' ' upper).isSome then lblDate
    else if expr = ['*'] then lblRaw
    else if expr.any (fun c => c = '+' || c = '-' || c = '*' || c = '/') &&
            !(expr.any (fun c => c = '(')) then lblArith
    else lblRaw

/-- Minimal-split scan for `^([\s\S]+?)\s+AS\s+(\w+)$`. -/
def asSplitFrom : Str → Str → Option (Str × Str)
  | _, [] => none
  | acc, c :: rest =>
    let attempt :=
      if acc.isEmpty then none
      else
        let w1 := wsRun (c :: rest)
        if w1.isEmpty then none
        else
          let r1 := (c :: rest).drop w1.length
          if startsWithCI kwAS r1 then
            let r2 := r1.drop 2
            let w2 := wsRun r2
            if w2.isEmpty then none
            else
              let r3 := r2.drop w2.length
              if !r3.isEmpty && r3.all isWordChar then some (acc, r3) else none
          else none
    match attempt with
    | some res => some res
    | none => asSplitFrom (acc ++ [c]) rest

/-- Minimal-split scan for `^([\s\S]+?)\s+(\w+)$`. -/
def implicitSplitFrom : Str → Str → Option (Str × Str)
  | _, [] => none
  | acc, c :: rest =>
    let attempt :=
      if acc.isEmpty then none
      else
        let w1 := wsRun (c :: rest)
        if w1.isEmpty then none
        else
          let r1 := (c :: rest).drop w1.length
          if !r1.isEmpty && r1.all isWordChar then some (acc, r1) else none
    match attempt with
    | some res => some res
    | none => implicitSplitFrom (acc ++ [c]) rest

/-- Test for `^\w+\.\w+$`. -/
def isDotRef (l : Str) : Bool :=
  let w := wordRun l
  if w.isEmpty then false
  else
    match l.drop w.length with
    | '.' :: rest => !rest.isEmpty && rest.all isWordChar
    | _ => false

/-- Test for an arithmetic or concatenation operator `[+\-*/|]`. -/
def hasOpChar (l : Str) : Bool :=
  l.any (fun c => c = '+' || c = '-' || c = '*' || c = '/' || c = '|')

/-- Trailing `\.(\w+)$` capture. -/
def dotTailAlias (l : Str) : Option Str :=
  let revW := l.reverse.takeWhile isWordChar
  if revW.isEmpty then none
  else
    match l.reverse.drop revW.length with
    | '.' :: _ => some revW.reverse
    | _ => none

/-- Projected-field parsing `parseField`. -/
def parseField (fieldStr : Str) : FieldInfo :=
  let trimmed := trimStr fieldStr
  match asSplitFrom [] trimmed with
  | some (g1, al) =>
    let expression := trimStr g1
    { expression := expression, aliasName := al, originalName := expression,
      displayText := expression ++ strSpaceAsSpace ++ al,
      transformation := detectTransformation expression }
  | none =>
    let fallback :=
      let transformation := detectTransformation trimmed
      let simpleAlias :=
        match dotTailAlias trimmed with
        | some w => w
        | none =>
          if !trimmed.isEmpty && trimmed.all isWordChar then trimmed else []
      { expression := trimmed, aliasName := simpleAlias,
        originalName := trimmed, displayText := trimmed,
        transformation := transformation : FieldInfo }
    match implicitSplitFrom [] trimmed with
    | some (g1, al) =>
      let potentialExpr := trimStr g1
      if potentialExpr.getLast? == some ')' || hasOpChar potentialExpr ||
         containsWordsCI implicitKwList potentialExpr ||
         isDotRef potentialExpr then
        { expression := potentialExpr, aliasName := al,
          originalName := potentialExpr,
          displayText := potentialExpr ++ strSpaceAsSpace ++ al,
          transformation := detectTransformation potentialExpr }
      else fallback
    | none => fallback

/-! Subquery replacement (`replaceSubqueries`). -/

inductive SubCtx
  | fromCtx
  | joinCtx
deriving DecidableEq

structure SubInfo where
  body : Str
  aliasName : Str
  ctx : SubCtx
  joinType : Str := []
  joinCondition : Str := []
deriving DecidableEq

/-- Body admission test `/^\s*SELECT\s/i` (applied to the trimmed body). -/
def isSelectBody (body : Str) : Bool :=
  let b := body.drop (wsRun body).length
  startsWithCI kwSELECT b &&
  (match b.drop 6 with
   | c :: _ => isSpaceChar c
   | [] => false)

/-- Alias match `/^\s*(?:AS\s+)?(\w+)/i`, returning the alias and the number
of characters consumed. -/
def aliasMatchAfter (l : Str) : Option (Str × Nat) :=
  let w := wsRun l
  let r := l.drop w.length
  let pathA :=
    if startsWithCI kwAS r then
      let r2 := r.drop 2
      let w2 := wsRun r2
      if w2.isEmpty then none
      else
        let al := wordRun (r2.drop w2.length)
        if al.isEmpty then none
        else some (al, w.length + 2 + w2.length + al.length)
    else none
  match pathA with
  | some res => some res
  | none =>
    let al := wordRun r
    if al.isEmpty then none else some (al, w.length + al.length)

/-- Test for `KW\s` at the head of a text (one whitespace required). -/
def kwThenWs (kw : Str) (l : Str) : Bool :=
  startsWithCI kw l &&
  (match l.drop kw.length with
   | c :: _ => isSpaceChar c
   | [] => false)

/-- Lookahead alternative `(?:(?:INNER|LEFT|RIGHT|FULL|CROSS)\s+)?JOIN\s`. -/
def joinKwLookahead (l : Str) : Bool :=
  kwThenWs kwJOIN l ||
  ([kwINNER, kwLEFT, kwRIGHT, kwFULL, kwCROSS].any (fun kw =>
    startsWithCI kw l &&
    (let r := l.drop kw.length
     let w := wsRun r
     !w.isEmpty && kwThenWs kwJOIN (r.drop w.length))))

/-- Clause-boundary lookahead of the join-condition patterns. -/
def clauseLookahead (l : Str) : Bool :=
  match l with
  | [] => true
  | _ =>
    joinKwLookahead l || kwThenWs kwWHERE l || kwThenWs kwGROUP l ||
    kwThenWs kwHAVING l || kwThenWs kwORDER l || kwThenWs kwLIMIT l ||
    kwThenWs kwUNION l

/-- Lazy `[\s\S]*?` up to the first position where `p` holds (`p` holds at
the empty text, matching the `$` alternative). -/
def lazyUntil (p : Str → Bool) : Str → Str × Str
  | [] => ([], [])
  | c :: rest =>
    if p (c :: rest) then ([], c :: rest)
    else
      let r := lazyUntil p rest
      (c :: r.1, r.2)

/-- Alias-and-ON match
`/^\s*(?:AS\s+)?(\w+)\s+ON\s+([\s\S]*?)(?=...)/i`, returning the alias, the
trimmed condition, and the rest at the lookahead position. -/
def aliasOnRequire (al : Str) (rest2 : Str) : Option (Str × Str × Str) :=
  let w3 := wsRun rest2
  if w3.isEmpty then none
  else
    let r3 := rest2.drop w3.length
    if startsWithCI kwON r3 then
      let r4 := r3.drop 2
      let w4 := wsRun r4
      if w4.isEmpty then none
      else
        let r5 := r4.drop w4.length
        let lz := lazyUntil clauseLookahead r5
        some (al, trimStr lz.1, lz.2)
    else none

def aliasOnMatch (l : Str) : Option (Str × Str × Str) :=
  let w := wsRun l
  let r := l.drop w.length
  let pathA :=
    if startsWithCI kwAS r then
      let r2 := r.drop 2
      let w2 := wsRun r2
      if w2.isEmpty then none
      else
        let al := wordRun (r2.drop w2.length)
        if al.isEmpty then none
        else aliasOnRequire al ((r2.drop w2.length).drop al.length)
    else none
  match pathA with
  | some res => some res
  | none =>
    let al := wordRun r
    if al.isEmpty then none else aliasOnRequire al (r.drop al.length)

/-- One `FROM ( SELECT ... ) alias` replacement attempt: leftmost candidate of
`FROM\s*\(` whose body is balanced and starts with `SELECT`; a failed
candidate resumes just after its opening parenthesis (the regex `lastIndex`).
Returns the rewritten text, the placeholder and the recorded entry. -/
def fromStepGo : Nat → Str → Str → Nat → Option (Str × Str × SubInfo)
  | 0, _, _, _ => none
  | _ + 1, _, [], _ => none
  | fuel + 1, pre, c :: rest, counter =>
    if startsWithCI kwFROM (c :: rest) then
      match ((c :: rest).drop 4).drop (wsRun ((c :: rest).drop 4)).length with
      | '(' :: afterOpen =>
        let consumed :=
          (c :: rest).take (4 + (wsRun ((c :: rest).drop 4)).length + 1)
        (match findClose afterOpen with
         | some (inner, after) =>
           let body := trimStr inner
           if isSelectBody body then
             let ph := strSubqPrefix ++ natToStr counter ++ strSubqSuffix
             let am := (aliasMatchAfter after).getD ([], 0)
             some (pre ++ strFromSpace ++ ph ++ [' '] ++ am.1 ++
                     after.drop am.2,
                   ph,
                   { body := body, aliasName := am.1, ctx := SubCtx.fromCtx })
           else fromStepGo fuel (pre ++ consumed) afterOpen counter
         | none => fromStepGo fuel (pre ++ consumed) afterOpen counter)
      | _ => fromStepGo fuel (pre ++ [c]) rest counter
    else fromStepGo fuel (pre ++ [c]) rest counter

def fromStep (pre l : Str) (counter : Nat) : Option (Str × Str × SubInfo) :=
  fromStepGo (l.length + 1) pre l counter

/-- Match of `((?:INNER|LEFT|RIGHT|FULL|CROSS)\s+)?JOIN\s*\(` at the head of
a text, returning the prefix length (0 when absent) and the total length
minus one (the total includes the opening parenthesis, hence is positive). -/
def startsWithJoinParen (l : Str) : Option Nat :=
  if startsWithCI kwJOIN l then
    let w := wsRun (l.drop 4)
    match (l.drop 4).drop w.length with
    | '(' :: _ => some (4 + w.length + 1)
    | _ => none
  else none

def joinMatchAt (l : Str) : Option (Nat × Nat) :=
  let withPref := [kwINNER, kwLEFT, kwRIGHT, kwFULL, kwCROSS].findSome?
    (fun kw =>
      if startsWithCI kw l then
        let w := wsRun (l.drop kw.length)
        if w.isEmpty then none
        else
          match startsWithJoinParen ((l.drop kw.length).drop w.length) with
          | some jlen => some (kw.length + w.length,
                               kw.length + w.length + jlen - 1)
          | none => none
      else none)
  match withPref with
  | some r => some r
  | none => (startsWithJoinParen l).map (fun jlen => (0, jlen - 1))

/-- One `JOIN ( SELECT ... ) alias ON cond` replacement attempt. -/
def joinStepGo : Nat → Str → Str → Nat → Option (Str × Str × SubInfo)
  | 0, _, _, _ => none
  | _ + 1, _, [], _ => none
  | fuel + 1, pre, c :: rest, counter =>
    match joinMatchAt (c :: rest) with
    | some (plen, tlenM1) =>
      let afterOpen := rest.drop tlenM1
      let consumed := (c :: rest).take (tlenM1 + 1)
      let prefChars := (c :: rest).take plen
      let joinKeyword := prefChars ++ ((c :: rest).drop plen).take 4
      let joinType :=
        (if plen = 0 then strInnerDefault else trimStr prefChars) ++
        strJoinSuffix
      (match findClose afterOpen with
       | some (inner, after) =>
         let body := trimStr inner
         if isSelectBody body then
           let ph := strSubqPrefix ++ natToStr counter ++ strSubqSuffix
           match aliasOnMatch after with
           | some (al, cond, restAfter) =>
             some (pre ++ joinKeyword ++ [' '] ++ ph ++ [' '] ++ al ++
                     strSpaceOnSpace ++ cond ++ restAfter,
                   ph,
                   { body := body, aliasName := al, ctx := SubCtx.joinCtx,
                     joinType := joinType, joinCondition := cond })
           | none =>
             some (pre ++ joinKeyword ++ [' '] ++ ph ++ after, ph,
                   { body := body, aliasName := [], ctx := SubCtx.joinCtx,
                     joinType := joinType, joinCondition := [] })
         else joinStepGo fuel (pre ++ consumed) afterOpen counter
       | none => joinStepGo fuel (pre ++ consumed) afterOpen counter)
    | none => joinStepGo fuel (pre ++ [c]) rest counter

def joinStep (pre l : Str) (counter : Nat) : Option (Str × Str × SubInfo) :=
  joinStepGo (l.length + 1) pre l counter

/-- Rewrite loop for the `FROM (...)` pass: each successful step removes at
least one opening parenthesis, so a fuel of the text length suffices for the
loop to reach its fixpoint. -/
def replaceFromLoop : Nat → Str → Nat → List (Str × SubInfo) →
    Str × Nat × List (Str × SubInfo)
  | 0, s, counter, subs => (s, counter, subs)
  | fuel + 1, s, counter, subs =>
    match fromStep [] s counter with
    | none => (s, counter, subs)
    | some (s2, ph, info) =>
      replaceFromLoop fuel s2 (counter + 1) (subs ++ [(ph, info)])

/-- Rewrite loop for the `JOIN (...)` pass. -/
def replaceJoinLoop : Nat → Str → Nat → List (Str × SubInfo) →
    Str × Nat × List (Str × SubInfo)
  | 0, s, counter, subs => (s, counter, subs)
  | fuel + 1, s, counter, subs =>
    match joinStep [] s counter with
    | none => (s, counter, subs)
    | some (s2, ph, info) =>
      replaceJoinLoop fuel s2 (counter + 1) (subs ++ [(ph, info)])

/-- Subquery replacement `replaceSubqueries`: the `FROM` pass, then the
`JOIN` pass, entries recorded in insertion order. -/
def replaceSubqueries (sql : Str) : Str × List (Str × SubInfo) :=
  let r1 := replaceFromLoop (sql.length + 1) sql 0 []
  let r2 := replaceJoinLoop (r1.1.length + 1) r1.1 r1.2.1 r1.2.2
  (r2.1, r2.2.2)

/-! Flat SELECT parsing (`parseFlatSelect`). -/

/-- Test for `\s+FROM\s` at the head of a text. -/
def wsFromMatch (l : Str) : Bool :=
  let w := wsRun l
  !w.isEmpty && kwThenWs kwFROM (l.drop w.length)

/-- Lazy scan for the minimal group followed by `\s+FROM\s`. -/
def lazyFindFromAux : Str → Str → Option Str
  | acc, [] => if wsFromMatch [] then some acc else none
  | acc, c :: rest =>
    if wsFromMatch (c :: rest) then some acc
    else lazyFindFromAux (acc ++ [c]) rest

def lazyFindFrom (t : Str) : Option Str := lazyFindFromAux [] t

def distinctTryWs (t2 : Str) : Nat → Option Str
  | 0 => none
  | k + 1 =>
    match lazyFindFrom (t2.drop (k + 1)) with
    | some g => some g
    | none => distinctTryWs t2 k

/-- Group match after `SELECT\s+`: optional greedy `DISTINCT\s+` (with its
own whitespace backtracking), then the lazy field group. -/
def selectAfterWs (t : Str) : Option Str :=
  let withD :=
    if startsWithCI kwDISTINCT t then
      let t2 := t.drop 8
      distinctTryWs t2 (wsRun t2).length
    else none
  match withD with
  | some g => some g
  | none => lazyFindFrom t

/-- Backtracking over the amount of whitespace consumed by a greedy `\s+`
before the lazily-matched group. -/
def selectTryWs (afterSel : Str) : Nat → Option Str
  | 0 => none
  | k + 1 =>
    match selectAfterWs (afterSel.drop (k + 1)) with
    | some g => some g
    | none => selectTryWs afterSel k

/-- Match of `SELECT\s+(DISTINCT\s+)?([\s\S]*?)\s+FROM\s` anchored at the
current position, returning the captured field group. -/
def selectMatchAt (l : Str) : Option Str :=
  if startsWithCI kwSELECT l then
    let afterSel := l.drop 6
    selectTryWs afterSel (wsRun afterSel).length
  else none

/-- Optional alias tail `(\s+(?:AS\s+)?(\w+))?` after a table name. -/
def aliasTailOpt (rest : Str) : Str :=
  let w1 := wsRun rest
  if w1.isEmpty then []
  else
    let r := rest.drop w1.length
    let pathA :=
      if startsWithCI kwAS r then
        let r2 := r.drop 2
        let w2 := wsRun r2
        if w2.isEmpty then []
        else wordRun (r2.drop w2.length)
      else []
    if pathA.isEmpty then wordRun r else pathA

/-- Match of `FROM\s+(\w+(?:\.\w+)*)(\s+(?:AS\s+)?(\w+))?` anchored at the
current position, returning the table name and the (possibly empty) alias. -/
def fromTableMatchAt (l : Str) : Option (Str × Str) :=
  if startsWithCI kwFROM l then
    let after := l.drop 4
    let w := wsRun after
    if w.isEmpty then none
    else
      let nm := tableNameRun (after.drop w.length)
      if nm.isEmpty then none
      else some (nm, aliasTailOpt ((after.drop w.length).drop nm.length))
  else none

/-- The alias keyword filter
`/^(WHERE|GROUP|HAVING|ORDER|LIMIT|UNION|LEFT|RIGHT|INNER|FULL|CROSS|JOIN)$/i`. -/
def keyword12 : List Str :=
  [kwWHERE, kwGROUP, kwHAVING, kwORDER, kwLIMIT, kwUNION, kwLEFT, kwRIGHT,
   kwINNER, kwFULL, kwCROSS, kwJOIN]

def filterAlias12 (al : Str) : Str :=
  if keyword12.contains (ucStr al) then [] else al

/-- Match of one join clause of the global `joinRegex`, anchored at the
current position: optional join-type prefix, `JOIN\s+`, table name, optional
alias, `\s+ON\s+`, lazy condition up to the clause lookahead.  Returns
(join type, table name, alias, trimmed condition, rest after the match). -/
def joinClauseFinish (joinType nm al : Str) (rest2 : Str) :
    Option (Str × Str × Str × Str × Str) :=
  let w3 := wsRun rest2
  if w3.isEmpty then none
  else
    let r3 := rest2.drop w3.length
    if startsWithCI kwON r3 then
      let r4 := r3.drop 2
      let w4 := wsRun r4
      if w4.isEmpty then none
      else
        let r5 := r4.drop w4.length
        let lz := lazyUntil clauseLookahead r5
        some (joinType, nm, al, trimStr lz.1, lz.2)
    else none

def joinTableAfterKw (joinType : Str) (afterJoin : Str) :
    Option (Str × Str × Str × Str × Str) :=
  let w := wsRun afterJoin
  if w.isEmpty then none
  else
    let nm := tableNameRun (afterJoin.drop w.length)
    if nm.isEmpty then none
    else
      let rest := (afterJoin.drop w.length).drop nm.length
      -- optional alias (greedy, AS path first), then the mandatory ON part;
      -- a failing alias path backtracks to the alias-absent parse
      let w1 := wsRun rest
      let pathAS :=
        if w1.isEmpty then none
        else
          let r := rest.drop w1.length
          if startsWithCI kwAS r then
            let r2 := r.drop 2
            let w2 := wsRun r2
            if w2.isEmpty then none
            else
              let al := wordRun (r2.drop w2.length)
              if al.isEmpty then none
              else joinClauseFinish joinType nm al
                     ((r2.drop w2.length).drop al.length)
          else none
      match pathAS with
      | some res => some res
      | none =>
        let pathPlain :=
          if w1.isEmpty then none
          else
            let al := wordRun (rest.drop w1.length)
            if al.isEmpty then none
            else joinClauseFinish joinType nm al
                   ((rest.drop w1.length).drop al.length)
        match pathPlain with
        | some res => some res
        | none => joinClauseFinish joinType nm [] rest

def joinTableMatchAt (l : Str) : Option (Str × Str × Str × Str × Str) :=
  let withPref := [kwINNER, kwLEFT, kwRIGHT, kwFULL, kwCROSS].findSome?
    (fun kw =>
      if startsWithCI kw l then
        let w := wsRun (l.drop kw.length)
        if w.isEmpty then none
        else
          let r := (l.drop kw.length).drop w.length
          if startsWithCI kwJOIN r then
            joinTableAfterKw (trimStr (l.take (kw.length + w.length)) ++
              strJoinSuffix) (r.drop 4)
          else none
      else none)
  match withPref with
  | some res => some res
  | none =>
    if startsWithCI kwJOIN l then
      joinTableAfterKw (strInnerDefault ++ strJoinSuffix) (l.drop 4)
    else none

/-- Global scan of `joinRegex`: matches collected left to right, the scan
resuming after each match. -/
def joinScanAux : Nat → Str → List (Str × Str × Str × Str) →
    List (Str × Str × Str × Str)
  | 0, _, acc => acc
  | _ + 1, [], acc => acc
  | fuel + 1, c :: rest, acc =>
    match joinTableMatchAt (c :: rest) with
    | some (jt, nm, al, cond, restAfter) =>
      joinScanAux fuel restAfter (acc ++ [(jt, nm, al, cond)])
    | none => joinScanAux fuel rest acc

def joinScan (l : Str) : List (Str × Str × Str × Str) :=
  joinScanAux (l.length + 1) l []

/-- Stop-keyword lookahead `(?=KW1\s|...|$)`. -/
def stopLook (stopKws : List Str) (l : Str) : Bool :=
  match l with
  | [] => true
  | _ => stopKws.any (fun kw => kwThenWs kw l)

/-- Match of `KW1\s+(KW2\s+)?([\s\S]*?)(?=stop)` anchored at the current
position (`kw2` present for GROUP BY / ORDER BY). -/
def clauseMatchAt (kw1 : Str) (kw2 : Option Str) (stopKws : List Str)
    (l : Str) : Option Str :=
  if startsWithCI kw1 l then
    let r := l.drop kw1.length
    let w := wsRun r
    if w.isEmpty then none
    else
      let r2 := r.drop w.length
      match kw2 with
      | none => some (lazyUntil (stopLook stopKws) r2).1
      | some k2 =>
        if startsWithCI k2 r2 then
          let r3 := r2.drop k2.length
          let w3 := wsRun r3
          if w3.isEmpty then none
          else some (lazyUntil (stopLook stopKws) (r3.drop w3.length)).1
        else none
  else none

/-- The complex-union branch test
`/GROUP\s+BY|JOIN|WHERE|HAVING|\(SELECT/i`. -/
def partComplexTest (part : Str) : Bool :=
  (scanPos false (fun l =>
    if (startsWithCI kwGROUP l &&
        (let r := l.drop 5
         let w := wsRun r
         !w.isEmpty && startsWithCI kwBY (r.drop w.length))) ||
       startsWithCI kwJOIN l || startsWithCI kwWHERE l ||
       startsWithCI kwHAVING l ||
       (match l with
        | '(' :: r => startsWithCI kwSELECT r
        | _ => false) then some () else none) ' ' part).isSome

/-- Known-name resolution against a table reference (both the unqualified
and the full name are probed). -/
def findKnown (knownNames : List Str) (tref : TableRef) : Option Str :=
  let lookupName := getMatchName tref.tableName
  let lookupFull := getMatchName tref.name
  knownNames.find? (fun n =>
    getMatchName n == lookupName || getMatchName n == lookupFull)

/-- First-occurrence dedup (`[...new Set(xs)]`). -/
def dedupFirst (xs : List Str) : List Str :=
  xs.foldl (fun acc d => if acc.contains d then acc else acc ++ [d]) []

/-- Flat SELECT parsing `parseFlatSelect`, on placeholder-substituted text. -/
def parseFlatSelect (sql : Str) (id name : Str) (isCTE isSubQuery : Bool)
    (knownNames : List Str) : SubQuery :=
  let normalized := normalizeWhitespace sql
  let unionInfo := detectUnionAll normalized knownNames
  let unionParts := (splitByUnion normalized).parts
  let isComplex := unionParts.any partComplexTest
  -- union sources resolved into dependencies (simple unions only)
  let dependsOn0 : List Str :=
    match unionInfo with
    | some ui =>
      if isComplex then []
      else
        ui.sources.foldl (fun acc src =>
          let srcMatch := getMatchName src
          match knownNames.find? (fun k => getMatchName k == srcMatch) with
          | some km => if acc.contains km then acc else acc ++ [km]
          | none => acc) []
    | none => []
  -- per-branch FROM extraction for simple unions
  let st1 : List TableRef × List Str :=
    if 1 < unionParts.length && !isComplex then
      unionParts.foldl (fun (st : List TableRef × List Str) part =>
        match scanPos false fromTableMatchAt ' ' part with
        | some (raw, al) =>
          if strSubqPrefix.isPrefixOf raw then st
          else
            let tref := createTableRef raw (filterAlias12 al) knownNames
            let tables2 :=
              if st.1.any (fun t => t.name = tref.name) then st.1
              else st.1 ++ [tref]
            let deps2 :=
              match findKnown knownNames tref with
              | some km =>
                if st.2.contains km then st.2 else st.2 ++ [km]
              | none => st.2
            (tables2, deps2)
        | none => st) ([], dependsOn0)
    else ([], dependsOn0)
  -- SELECT field list
  let fields : List FieldInfo :=
    match scanPos false selectMatchAt ' ' normalized with
    | some g =>
      (splitTopLevel g ',').foldl (fun acc f =>
        let t := trimStr f
        if t.isEmpty then acc else acc ++ [parseField t]) []
    | none => []
  -- FROM table (non-union case)
  let st2 : List TableRef × List Str :=
    if unionParts.length ≤ 1 then
      match scanPos false fromTableMatchAt ' ' normalized with
      | some (raw, al) =>
        if strSubqPrefix.isPrefixOf raw then st1
        else
          let al2 := filterAlias12 al
          let tref := createTableRef raw (if al2.isEmpty then raw else al2)
            knownNames
          let tables2 :=
            if st1.1.any (fun t => t.name = tref.name) then st1.1
            else st1.1 ++ [tref]
          let deps2 :=
            match findKnown knownNames tref with
            | some km =>
              if st1.2.contains km then st1.2 else st1.2 ++ [km]
            | none => st1.2
          (tables2, deps2)
      | none => st1
    else st1
  -- JOIN clauses
  let st3 : List TableRef × List Str × List JoinInfo :=
    (joinScan normalized).foldl (fun st j =>
      if strSubqPrefix.isPrefixOf j.2.1 then st
      else
        let al2 := filterAlias12 j.2.2.1
        let tref := createTableRef j.2.1 (if al2.isEmpty then j.2.1 else al2)
          knownNames
        let tables2 :=
          if st.1.any (fun t => t.name = tref.name) then st.1
          else st.1 ++ [tref]
        let joins2 := st.2.2 ++
          [{ type := j.1, table := tref, condition := j.2.2.2 : JoinInfo }]
        let deps2 :=
          match findKnown knownNames tref with
          | some km =>
            if st.2.1.contains km then st.2.1 else st.2.1 ++ [km]
          | none => st.2.1
        (tables2, deps2, joins2)) (st2.1, st2.2, [])
  -- WHERE / HAVING
  let filters : List FilterInfo :=
    (match scanPos false
        (clauseMatchAt kwWHERE none [kwGROUP, kwHAVING, kwORDER, kwLIMIT, kwUNION])
        ' ' normalized with
     | some cond => [{ clause := kwWHERE, condition := trimStr cond }]
     | none => []) ++
    (match scanPos false
        (clauseMatchAt kwHAVING none [kwORDER, kwLIMIT, kwUNION])
        ' ' normalized with
     | some cond => [{ clause := kwHAVING, condition := trimStr cond }]
     | none => [])
  -- GROUP BY / ORDER BY
  let groupBy : List Str :=
    match scanPos false
        (clauseMatchAt kwGROUP (some kwBY) [kwHAVING, kwORDER, kwLIMIT, kwUNION])
        ' ' normalized with
    | some g =>
      (g.splitOn ',').foldl (fun acc s =>
        let t := trimStr s
        if t.isEmpty then acc else acc ++ [t]) []
    | none => []
  let orderBy : List Str :=
    match scanPos false
        (clauseMatchAt kwORDER (some kwBY) [kwLIMIT, kwUNION])
        ' ' normalized with
    | some g =>
      (g.splitOn ',').foldl (fun acc s =>
        let t := trimStr s
        if t.isEmpty then acc else acc ++ [t]) []
    | none => []
  { id := id, name := name, isCTE := isCTE, isSubQuery := isSubQuery,
    tables := st3.1, fields := fields, joins := st3.2.2, filters := filters,
    groupBy := groupBy, orderBy := orderBy,
    dependsOn := dedupFirst st3.2.1, unionInfo := unionInfo }

/-! Recursive processing (`processSQL`) and top-level parsing (`parseSQL`).
The mutable context (subquery collector, id counter, body cache) is the
threaded state; the recursion carries explicit fuel, whose sufficiency is
proved separately. -/

structure PState where
  collector : List SubQuery
  counter : Nat
  bodies : List (Str × Str)
deriving DecidableEq

/-- Removal of the first table entry matching a placeholder. -/
def removeFirstTable (ph : Str) : List TableRef → List TableRef
  | [] => []
  | t :: rest =>
    if t.name = ph || t.tableName = ph then rest
    else t :: removeFirstTable ph rest

/-- Removal of the first join entry matching a placeholder. -/
def removeFirstJoin (ph : Str) : List JoinInfo → List JoinInfo
  | [] => []
  | j :: rest =>
    if j.table.name = ph || j.table.tableName = ph then rest
    else j :: removeFirstJoin ph rest

/-- One placeholder fix-up after flat parsing: drop the placeholder from
tables/joins/dependsOn, record the resolved subquery id, and re-insert the
reference according to its FROM/JOIN context. -/
def fixupOne (bodies : List (Str × Str)) (kn : List Str) (fq : SubQuery)
    (ph : Str) (info : SubInfo) : SubQuery :=
  let bodyKey := normalizeWhitespace info.body
  let subId := (mapGet bodies bodyKey).getD []
  let tables1 := removeFirstTable ph fq.tables
  let joins1 := removeFirstJoin ph fq.joins
  let deps1 := fq.dependsOn.filter (fun d => !(d = lcStr ph))
  let deps2 := if deps1.contains subId then deps1 else deps1 ++ [subId]
  if info.ctx = SubCtx.joinCtx && !info.joinType.isEmpty &&
     !info.joinCondition.isEmpty then
    let subQueryRef := createTableRef subId
      (if info.aliasName.isEmpty then subId else info.aliasName) kn
    let tables2 :=
      if tables1.any (fun t => t.name = subQueryRef.name) then tables1
      else tables1 ++ [subQueryRef]
    { fq with
      tables := tables2,
      joins := joins1 ++ [{ type := info.joinType, table := subQueryRef,
                            condition := info.joinCondition }],
      dependsOn := deps2 }
  else if info.ctx = SubCtx.fromCtx then
    let subQueryRef := createTableRef subId
      (if info.aliasName.isEmpty then subId else info.aliasName) kn
    let tables2 :=
      if tables1.any (fun t => t.name = subQueryRef.name) then tables1
      else tables1 ++ [subQueryRef]
    { fq with tables := tables2, joins := joins1, dependsOn := deps2 }
  else
    { fq with tables := tables1, joins := joins1, dependsOn := deps2 }

/-- The non-union tail of `processSQL`: flat parsing of the
placeholder-substituted text, then the placeholder fix-ups. -/
def processFlat (replaced : Str) (subs : List (Str × SubInfo))
    (id name : Str) (isCTE isSubQuery : Bool) (kn : List Str) (st : PState) :
    SubQuery × PState :=
  let flatQuery := parseFlatSelect replaced id name isCTE isSubQuery kn
  (subs.foldl (fun fq e => fixupOne st.bodies kn fq e.1 e.2) flatQuery, st)

abbrev RecFn :=
  Str → Str → Str → Bool → Bool → List Str → PState →
  Option (SubQuery × PState)

/-- The loop over extracted subquery entries: cache lookup, recursive
processing of new bodies (`rec` is the recursive call at the smaller fuel),
collector/cache update, known-name extension. -/
def subsLoopG (rec : RecFn) : List (Str × SubInfo) → List Str → PState →
    Option (List Str × PState)
  | [], kn, st => some (kn, st)
  | (_, info) :: rest, kn, st =>
    let bodyKey := normalizeWhitespace info.body
    match mapGet st.bodies bodyKey with
    | some existingId =>
      let kn2 := if kn.contains existingId then kn else kn ++ [existingId]
      subsLoopG rec rest kn2 st
    | none =>
      let subId := strSubqueryId ++ natToStr st.counter
      let newCount := st.counter + 1
      let subName :=
        if !info.aliasName.isEmpty then
          strSubqNameAlias1 ++ info.aliasName ++ strSubqNameAlias2
        else strSubqNameNum ++ natToStr newCount
      match rec info.body subId subName false true kn
          { collector := st.collector, counter := newCount,
            bodies := st.bodies } with
      | none => none
      | some (subQuery, st2) =>
        let st3 : PState :=
          { collector := st2.collector ++ [subQuery],
            counter := st2.counter,
            bodies := mapSet st2.bodies bodyKey subId }
        let kn2 := if kn.contains subId then kn else kn ++ [subId]
        subsLoopG rec rest kn2 st3

/-- The loop over complex-union branches: each branch is recursively
processed and pushed to the collector; branch ids are returned in order. -/
def branchLoopG (rec : RecFn) : List Str → Nat → Str → Str → List Str →
    PState → Option (List Str × PState)
  | [], _, _, _, _, st => some ([], st)
  | part :: rest, i, parentId, parentName, kn, st =>
    let branchId := parentId ++ strUnionMid ++ natToStr i
    let branchName :=
      parentName ++ strBranchName1 ++ natToStr (i + 1) ++ strBranchName2
    match rec part branchId branchName false true kn st with
    | none => none
    | some (branchQuery, st2) =>
      match branchLoopG rec rest (i + 1) parentId parentName kn
          { collector := st2.collector ++ [branchQuery],
            counter := st2.counter, bodies := st2.bodies } with
      | none => none
      | some (ids, st4) => some (branchId :: ids, st4)

/-- Recursive SQL-body processing `processSQL` (fueled). -/
def processSQLF : Nat → Str → Str → Str → Bool → Bool → List Str → PState →
    Option (SubQuery × PState)
  | 0, _, _, _, _, _, _, _ => none
  | fuel + 1, sql, id, name, isCTE, isSubQuery, knownNames, st =>
    let normalized := normalizeWhitespace sql
    let rs := replaceSubqueries normalized
    match subsLoopG (fun a b c d e f g => processSQLF fuel a b c d e f g)
        rs.2 knownNames st with
    | none => none
    | some (kn2, st2) =>
      let us := splitByUnion normalized
      let isComplexUnion := 1 < us.parts.length && us.parts.any partComplexTest
      if isComplexUnion then
        match us.unionType with
        | some ut =>
          match branchLoopG
              (fun a b c d e f g => processSQLF fuel a b c d e f g)
              us.parts 0 id name kn2 st2 with
          | none => none
          | some (ids, st3) =>
            some ({ id := id, name := name, isCTE := isCTE,
                    isSubQuery := isSubQuery, tables := [], fields := [],
                    joins := [], filters := [], groupBy := [], orderBy := [],
                    dependsOn := ids,
                    unionInfo := some { type := ut, sources := ids } }, st3)
        | none =>
          some (processFlat rs.1 rs.2 id name isCTE isSubQuery kn2 st2)
      else some (processFlat rs.1 rs.2 id name isCTE isSubQuery kn2 st2)


/-- Temp-table processing loop of `parseSQL` (scope: earlier temp tables). -/
def tempLoopF (fuel : Nat) : List (Str × Str) → List Str → Nat →
    List SubQuery → PState → Option (List SubQuery × PState)
  | [], _, _, acc, st => some (acc, st)
  | (nm, body) :: rest, tempNames, i, acc, st =>
    match processSQLF fuel body (strTempPrefix ++ nm) nm false false
        (tempNames.take i) st with
    | none => none
    | some (parsed, st2) =>
      let parsed2 := { parsed with
        isTempTable := true,
        id := strTempNodePrefix ++ nm }
      tempLoopF fuel rest tempNames (i + 1) (acc ++ [parsed2]) st2

/-- CTE processing loop of `parseSQL` (scope: temp tables and earlier CTEs). -/
def cteLoopF (fuel : Nat) : List (Str × Str) → List Str → List Str → Nat →
    List SubQuery → PState → Option (List SubQuery × PState)
  | [], _, _, _, acc, st => some (acc, st)
  | (nm, body) :: rest, tempNames, cteNames, i, acc, st =>
    match processSQLF fuel body (strCtePrefix ++ natToStr i) nm true false
        (tempNames ++ cteNames.take i) st with
    | none => none
    | some (parsed, st2) =>
      cteLoopF fuel rest tempNames cteNames (i + 1) (acc ++ [parsed]) st2

/-- Top-level parsing `parseSQL` (fueled), also returning the final parser
state (collector, counter, body cache). -/
def parseSQLAuxF (fuel : Nat) (sql : Str) : Option (ParsedSQL × PState) :=
  let cleaned := removeComments sql
  let pt := preprocessTempTables cleaned
  let tempTables := pt.1
  let normalized := normalizeWhitespace pt.2
  let ec := extractCTEs normalized
  let rawCTEs := ec.1
  let remainingSQL := ec.2
  let tempTableNames := tempTables.map (fun t => lcStr t.1)
  let cteNames := rawCTEs.map (fun c => lcStr c.1)
  let st0 : PState := { collector := [], counter := 0, bodies := [] }
  match tempLoopF fuel tempTables tempTableNames 0 [] st0 with
  | none => none
  | some (tempQs, st1) =>
    match cteLoopF fuel rawCTEs tempTableNames cteNames 0 [] st1 with
    | none => none
    | some (cteQs, st2) =>
      let ctes := tempQs ++ cteQs
      let allKnown := tempTableNames ++ cteNames ++
        st2.collector.map (fun sq => lcStr sq.id)
      let lastTemp := (tempTableNames.getLast?).getD []
      let finalSQL :=
        if (trimStr remainingSQL).isEmpty then
          strSelectStarFrom ++ (if lastTemp.isEmpty then strDual else lastTemp)
        else remainingSQL
      match processSQLF fuel finalSQL strMainId strMainName false false
          allKnown st2 with
      | none => none
      | some (mainQuery, st3) =>
        some ({ ctes := ctes, mainQuery := mainQuery,
                subQueries := st3.collector,
                allQueries := ctes ++ st3.collector ++ [mainQuery] }, st3)

/-- Top-level parsing `parseSQL` (fueled). -/
def parseSQLF (fuel : Nat) (sql : Str) : Option ParsedSQL :=
  (parseSQLAuxF fuel sql).map (fun r => r.1)

/-! Graph assembly (`flowLayoutEngine.ts`, `buildFlowElements`).  Geometry
(node sizes, dagre layout, positions) and styling colours are presentation
data outside the claims; nodes keep id/label/kind, edges keep source/target,
the union styling discriminator with its label, and the terminal emphasis. -/

structure FNode where
  id : Str
  label : Str
  kind : Str
deriving DecidableEq

structure FEdge where
  source : Str
  target : Str
  isUnion : Bool
  label : Str
  emphasized : Bool
deriving DecidableEq

structure BState where
  nodes : List FNode
  edges : List FEdge
  added : List (Str × Str)
  joinCounter : Nat
deriving DecidableEq

def kSource : Str := "source".data
def kCte : Str := "cte".data
def kTemp : Str := "temp".data
def kSubquery : Str := "subquery".data
def kMain : Str := "main".data
def kOutput : Str := "output".data
def kJoin : Str := "join".data
def strOutputId : Str := "output".data
def strOutputName : Str := "输出结果".data
def strJoinIdPrefix : Str := "join_".data
def strSourcePrefix : Str := "source_".data
def strArrow : Str := "->".data

/-- Source-node id normalization: lower-case, dots to underscores, then only
`[a-z0-9_]` kept. -/
def sourceIdOf (tableName : Str) : Str :=
  strSourcePrefix ++
  (((lcStr tableName).map (fun c => if c = '.' then '_' else c)).filter
    (fun c => ('a' ≤ c && c ≤ 'z') || ('0' ≤ c && c ≤ '9') || c = '_'))

/-- Lazy source-node creation `ensureSourceNode`. -/
def ensureSourceNode (tableName : Str) (st : BState) : Str × BState :=
  let sourceId := sourceIdOf tableName
  if st.nodes.any (fun n => n.id = sourceId) then (sourceId, st)
  else
    let p := parseTableName tableName
    let label := if p.2.1.isEmpty then tableName else p.2.1
    (sourceId,
     { st with nodes := st.nodes ++
        [{ id := sourceId, label := label, kind := kSource }] })

/-- Guarded edge insertion `addEdge` (also the inline guarded insertions of
the join pass, which follow the same added-set discipline). -/
def addEdgeB (st : BState) (src tgt : Str) (isUnion : Bool)
    (unionLabel : Str) : BState :=
  if st.added.contains (src, tgt) then st
  else
    { st with
      added := st.added ++ [(src, tgt)],
      edges := st.edges ++
        [{ source := src, target := tgt, isUnion := isUnion,
           label := if isUnion then
               (if unionLabel.isEmpty then kwUNIONALL else unionLabel)
             else [],
           emphasized := false }] }

def edgeKey (a b : Str) : Str := a ++ strArrow ++ b

/-- Fuzzy lookup in the name/id map (first entry whose normalized key equals
one of the probes). -/
def lookupNode1 (map : List (Str × Str)) (m1 : Str) : Option Str :=
  (map.find? (fun kv => getMatchName kv.1 == m1)).map (fun kv => kv.2)

def lookupNode2 (map : List (Str × Str)) (m1 m2 : Str) : Option Str :=
  (map.find? (fun kv =>
    getMatchName kv.1 == m1 || getMatchName kv.1 == m2)).map (fun kv => kv.2)

/-- The per-query union label `sq.unionInfo?.type || 'UNION ALL'`. -/
def unionLabelOf (sq : SubQuery) : Str :=
  match sq.unionInfo with
  | some ui => ui.type
  | none => []

/-- FROM-table determination: the first table not referenced by a join,
resolved to a known node or a lazily created source node. -/
def determineFrom (map : List (Str × Str)) (jtn : List Str) :
    List TableRef → BState → Option Str × BState
  | [], st => (none, st)
  | t :: rest, st =>
    let tableLower := getMatchName t.name
    let tableNameLower := getMatchName t.tableName
    let isJoin := jtn.any (fun j => getMatchName j == tableLower)
    match lookupNode2 map tableLower tableNameLower with
    | some knownId =>
      if isJoin then determineFrom map jtn rest st else (some knownId, st)
    | none =>
      if isJoin then determineFrom map jtn rest st
      else
        let r := ensureSourceNode t.name st
        (some r.1, r.2)

/-- The first table of the unit that is not among the join table names (the
per-join FROM-table marking of the join pass). -/
def firstNonJoinTable (jtn : List Str) (tables : List TableRef) :
    Option TableRef :=
  tables.find? (fun t => !(jtn.contains (lcStr t.name)))

/-- The join pass: one diamond node per join, with its three guarded edges
and the handled-name marking. -/
def joinPass (map : List (Str × Str)) (jtn : List Str)
    (fromTableNodeId : Option Str) (sq : SubQuery) :
    List JoinInfo → List Str → BState → List Str × BState
  | [], handled, st => (handled, st)
  | j :: rest, handled, st =>
    let tableLower := getMatchName j.table.name
    let tableNameLower := getMatchName j.table.tableName
    let r1 :=
      match lookupNode2 map tableLower tableNameLower with
      | some v => (v, st)
      | none => ensureSourceNode j.table.name st
    let joinSourceNodeId := r1.1
    let st1 := r1.2
    let joinId := strJoinIdPrefix ++ natToStr st1.joinCounter
    let st2 := { st1 with
      joinCounter := st1.joinCounter + 1,
      nodes := st1.nodes ++ [{ id := joinId, label := j.type, kind := kJoin }] }
    let st3 :=
      match fromTableNodeId with
      | some f => addEdgeB st2 f joinId false []
      | none => st2
    let st4 := addEdgeB st3 joinSourceNodeId joinId false []
    let st5 := addEdgeB st4 joinId sq.id false []
    let handled1 := handled ++ [tableLower, tableNameLower]
    let handled2 :=
      if fromTableNodeId.isSome then
        match firstNonJoinTable jtn sq.tables with
        | some t => handled1 ++ [lcStr t.name, lcStr t.tableName]
        | none => handled1
      else handled1
    joinPass map jtn fromTableNodeId sq rest handled2 st5

/-- The union pass: a union-styled edge from each physical union source. -/
def unionPass (sq : SubQuery) :
    List Str → List Str → BState → List Str × BState
  | [], handled, st => (handled, st)
  | tn :: rest, handled, st =>
    let r := ensureSourceNode tn st
    let st2 := addEdgeB r.2 r.1 sq.id true (unionLabelOf sq)
    unionPass sq rest (handled ++ [lcStr tn]) st2

/-- The dependsOn pass. -/
def depsPass (map : List (Str × Str)) (unionDeps : List Str) (sq : SubQuery) :
    List Str → List Str → BState → List Str × BState
  | [], handled, st => (handled, st)
  | dep :: rest, handled, st =>
    let depMatch := getMatchName dep
    if handled.any (fun h => getMatchName h == depMatch) then
      depsPass map unionDeps sq rest handled st
    else
      match lookupNode1 map depMatch with
      | none => depsPass map unionDeps sq rest handled st
      | some depNodeId =>
        if depNodeId = sq.id then depsPass map unionDeps sq rest handled st
        else if st.added.contains (depNodeId, sq.id) then
          depsPass map unionDeps sq rest handled st
        else
          let isU := unionDeps.contains (edgeKey depNodeId sq.id)
          let st2 := addEdgeB st depNodeId sq.id isU (unionLabelOf sq)
          depsPass map unionDeps sq rest (handled ++ [dep]) st2

/-- The remaining-tables pass. -/
def tablesPass (map : List (Str × Str)) (sq : SubQuery) :
    List TableRef → List Str → BState → List Str × BState
  | [], handled, st => (handled, st)
  | t :: rest, handled, st =>
    let tableMatch := getMatchName t.name
    let tableNameMatch := getMatchName t.tableName
    if handled.any (fun h =>
        getMatchName h == tableMatch || getMatchName h == tableNameMatch) then
      tablesPass map sq rest handled st
    else
      match lookupNode2 map tableMatch tableNameMatch with
      | some depNodeId =>
        let st2 :=
          if depNodeId = sq.id then st
          else if st.added.contains (depNodeId, sq.id) then st
          else addEdgeB st depNodeId sq.id false []
        tablesPass map sq rest (handled ++ [t.name]) st2
      | none =>
        let r := ensureSourceNode t.name st
        let st2 := addEdgeB r.2 r.1 sq.id false []
        tablesPass map sq rest (handled ++ [t.name]) st2

/-- The orphan-rescue pass (run when the unit has no incoming edge yet):
force-connect every table of the unit. -/
def rescuePass (map : List (Str × Str)) (incoming : List FEdge)
    (sq : SubQuery) : List TableRef → BState → BState
  | [], st => st
  | t :: rest, st =>
    let tableMatch := getMatchName t.name
    let tableNameMatch := getMatchName t.tableName
    let alreadyConnected := incoming.any (fun e =>
      match st.nodes.find? (fun n => n.id = e.source) with
      | some n =>
        getMatchName n.label == tableMatch ||
        getMatchName n.label == tableNameMatch
      | none => false)
    if alreadyConnected then rescuePass map incoming sq rest st
    else
      let r :=
        match lookupNode2 map tableMatch tableNameMatch with
        | some v => (v, st)
        | none => ensureSourceNode t.name st
      rescuePass map incoming sq rest (addEdgeB r.2 r.1 sq.id false [])

/-- Processing of one query unit: the fixed edge-precedence pipeline. -/
def processUnit (map : List (Str × Str)) (unionDeps : List Str)
    (unionPhysical : List (Str × List Str)) (st : BState) (sq : SubQuery) :
    BState :=
  let jtn : List Str := sq.joins.map (fun j => lcStr j.table.name)
  let df := determineFrom map jtn sq.tables st
  let fromTableNodeId := df.1
  let r2 := joinPass map jtn fromTableNodeId sq sq.joins [] df.2
  let r3 :=
    match mapGet unionPhysical sq.id with
    | some phys => unionPass sq phys r2.1 r2.2
    | none => r2
  let r4 := depsPass map unionDeps sq sq.dependsOn r3.1 r3.2
  let r5 := tablesPass map sq sq.tables r4.1 r4.2
  let incoming := r5.2.edges.filter (fun e => e.target = sq.id)
  if incoming.isEmpty && (sq.isCTE || sq.isTempTable || sq.isSubQuery) then
    rescuePass map incoming sq sq.tables r5.2
  else r5.2

/-- Terminal-edge emphasis applied to the first main-to-output edge. -/
def emphasizeFirst (src tgt : Str) : List FEdge → List FEdge
  | [] => []
  | e :: rest =>
    if e.source = src && e.target = tgt then
      { e with emphasized := true } :: rest
    else e :: emphasizeFirst src tgt rest

/-- Union bookkeeping over all units: known-unit union edges (for styling)
and per-unit physical union sources. -/
def unionMaps (map : List (Str × Str)) (qs : List SubQuery) :
    List Str × List (Str × List Str) :=
  qs.foldl (fun acc sq =>
    match sq.unionInfo with
    | none => acc
    | some ui =>
      let r := ui.sources.foldl (fun (r : List Str × List Str) src =>
        let srcMatch := getMatchName src
        match lookupNode1 map srcMatch with
        | some v => (r.1 ++ [edgeKey v sq.id], r.2)
        | none => (r.1, r.2 ++ [src])) (acc.1, [])
      if r.2.isEmpty then (r.1, acc.2)
      else (r.1, acc.2 ++ [(sq.id, r.2)])) ([], [])

/-- Graph assembly `buildFlowElements` (geometry omitted). -/
def buildFlowElements (parsed : ParsedSQL) : List FNode × List FEdge :=
  let map0 : List (Str × Str) := parsed.ctes.foldl (fun m cte =>
    mapSet (mapSet m (lcStr cte.name) cte.id) cte.id cte.id) []
  let map1 : List (Str × Str) := parsed.subQueries.foldl (fun m sq =>
    mapSet m sq.id sq.id) map0
  let cteNodes : List FNode := parsed.ctes.map (fun cte =>
    { id := cte.id, label := cte.name,
      kind := if cte.isTempTable then kTemp else kCte })
  let sqNodes : List FNode := parsed.subQueries.map (fun sq =>
    { id := sq.id, label := sq.name, kind := kSubquery })
  let mainId := parsed.mainQuery.id
  let mainNode : FNode :=
    { id := mainId, label := parsed.mainQuery.name, kind := kMain }
  let outputNode : FNode :=
    { id := strOutputId, label := strOutputName, kind := kOutput }
  let um := unionMaps map1 parsed.allQueries
  let st0 : BState :=
    { nodes := cteNodes ++ sqNodes ++ [mainNode, outputNode],
      edges := [], added := [], joinCounter := 0 }
  let stAll := parsed.allQueries.foldl (processUnit map1 um.1 um.2) st0
  let stFin := addEdgeB stAll mainId strOutputId false []
  (stFin.nodes, emphasizeFirst mainId strOutputId stFin.edges)

/-! Spec-side comparison definitions and claim-specific inputs. -/

/-- Modelled from the spec: `matchKey(name)` lowercases the identifier and,
if the lowered string is wrapped as a dollar-brace template, strips that
wrapper. -/
def specMatchKey (name : Str) : Str :=
  let lowered := lcStr name
  if strDollarBrace.isPrefixOf lowered && lowered.getLast? == some '\x7d' then
    (lowered.drop 2).dropLast
  else lowered

/-- Modelled from the spec: the ordered list of union operators encountered
by the depth-0 scan of `splitByUnion` (word-pattern, case-insensitive), used
to state which single operator the split reports. -/
def specUnionOpsGo : Str → Nat → Int → List Str
  | [], _, _ => []
  | _ :: rest, skip + 1, depth => specUnionOpsGo rest skip depth
  | c :: rest, 0, depth =>
    if stepDepth c depth = 0 then
      match uaMatchLen (c :: rest) with
      | some n => kwUNIONALL :: specUnionOpsGo rest (n - 1) (stepDepth c depth)
      | none =>
        match uMatchLen (c :: rest) with
        | some n => kwUNION :: specUnionOpsGo rest (n - 1) (stepDepth c depth)
        | none => specUnionOpsGo rest 0 (stepDepth c depth)
    else specUnionOpsGo rest 0 (stepDepth c depth)

def unionOps (sql : Str) : List Str := specUnionOpsGo sql 0 0

/-- Modelled from the spec: the operator of the first encountered union
keyword. -/
def specFirstUnionOperator (sql : Str) : Option Str := (unionOps sql).head?

/-- The operator of the last encountered union keyword (what the code
actually reports for a chain with more than one branch). -/
def specLastUnionOperator (sql : Str) : Option Str := (unionOps sql).getLast?

def c5input : Str :=
  "SELECT 1 FROM a UNION SELECT 2 FROM b UNION ALL SELECT 3 FROM c".data

def c6input : Str :=
  "CREATE TABLE t AS SELECT a FROM x; CREATE TABLE t AS SELECT b FROM y".data

def c6dupId : Str := "temp_node_t".data

def c7input : Str := "SELECT a FROM (SELECT b FROM tt) x".data

def c8input : Str := "SELECT a FROM t WHERE b = 1 UNION ALL SELECT c FROM u".data

def c2input : Str :=
  "SELECT a FROM (SELECT z FROM tt) x JOIN (SELECT z FROM tt) y ON x.z = y.z".data

def c3input : Str := "WITH c AS (SELECT x FROM t1) SELECT x FROM c".data

/-- Ordered (source, target) pairs of an edge list. -/
def edgePairs (es : List FEdge) : List (Str × Str) :=
  es.map (fun e => (e.source, e.target))

/-- Internal consistency of the assembler state: the added-edge key set is
exactly the ordered pair list of the pushed edges, without duplicates. -/
def BInv (st : BState) : Prop :=
  st.added = edgePairs st.edges ∧ st.added.Nodup

/-- A collector/branch id with at least two underscores (every complex-union
branch id has this shape; no cache-allocated subquery id does). -/
def twoUnderscores (s : Str) : Prop := 2 ≤ s.count '_'

/-- Shape of a cache-allocated subquery id. -/
def subqId (j : Nat) : Str := strSubqueryId ++ natToStr j

/-- Parser-state invariant: cache keys are distinct; every cache value is a
subquery id allocated below the counter and owns exactly one collector
entry; every collector entry is either a cache-shaped id below the counter
or a branch id with two underscores; every collector entry is a promoted
subquery unit. -/
def PsiInv (st : PState) : Prop :=
  (st.bodies.map (fun kv => kv.1)).Nodup ∧
  (∀ kv ∈ st.bodies, ∃ j < st.counter, kv.2 = subqId j) ∧
  (∀ kv ∈ st.bodies,
    (st.collector.filter (fun u => u.id = kv.2)).length = 1) ∧
  (∀ u ∈ st.collector,
    (∃ j < st.counter, u.id = subqId j) ∨ twoUnderscores u.id) ∧
  (∀ u ∈ st.collector, u.isSubQuery = true)

/-- Flagged units (the rescue condition of the assembler). -/
def flagged (sq : SubQuery) : Prop :=
  sq.isCTE = true ∨ sq.isTempTable = true ∨ sq.isSubQuery = true

/-- The name/id map of the assembler, as built by `buildFlowElements`. -/
def nodeIdMapOf (parsed : ParsedSQL) : List (Str × Str) :=
  parsed.subQueries.foldl (fun m sq => mapSet m sq.id sq.id)
    (parsed.ctes.foldl (fun m cte =>
      mapSet (mapSet m (lcStr cte.name) cte.id) cte.id cte.id) [])

instance : Inhabited SubQuery :=
  ⟨{ id := [], name := [], isCTE := false, isSubQuery := false,
     tables := [], fields := [], joins := [], filters := [], groupBy := [],
     orderBy := [], dependsOn := [], unionInfo := none }⟩

instance : Inhabited ParsedSQL :=
  ⟨{ ctes := [], mainQuery := default, subQueries := [], allQueries := [] }⟩

/-- Decimal decoding of a reversed digit string (proof support for the
injectivity of the id counter's decimal printing). -/
def decodeRev : Str → Nat
  | [] => 0
  | c :: rest => (c.toNat - 48) + 10 * decodeRev rest

/-- Extension relation between parser states across one processing call:
the collector is only appended to, the counter only grows, cache keys are
never lost, and every new cache value / collector entry is either an id
allocated in this call's counter window or a branch id. -/
def PExt (st st2 : PState) : Prop :=
  st.collector <+: st2.collector ∧
  st.counter ≤ st2.counter ∧
  (∀ k v, mapGet st.bodies k = some v → mapGet st2.bodies k = some v) ∧
  (∀ kv ∈ st2.bodies, kv ∈ st.bodies ∨
    ∃ j, st.counter ≤ j ∧ j < st2.counter ∧ kv.2 = subqId j) ∧
  (∀ u ∈ st2.collector, u ∈ st.collector ∨
    (∃ j, st.counter ≤ j ∧ j < st2.counter ∧ u.id = subqId j) ∨
    (twoUnderscores u.id ∧ u.isSubQuery = true))

/-- Contract of the recursive call threaded through the processing loops. -/
def RecOk (rec : RecFn) : Prop :=
  ∀ sql id name c b kn st r st2, rec sql id name c b kn st = some (r, st2) →
    (PExt st st2 ∧ (PsiInv st → PsiInv st2)) ∧
    r.id = id ∧ r.isCTE = c ∧ r.isSubQuery = b ∧ r.isTempTable = false

instance : Inhabited PState :=
  ⟨{ collector := [], counter := 0, bodies := [] }⟩

/-- Concrete processing result used to instantiate union-promotion. -/
def c8res : SubQuery × PState :=
  (processSQLF 10 c8input strMainId strMainName false false []
    { collector := [], counter := 0, bodies := [] }).getD default

/-- Concrete parse result used to instantiate the dedup-cache claim. -/
def c2res : ParsedSQL × PState := (parseSQLAuxF 20 c2input).getD default

/-- An incoming edge for a unit id in the assembler state. -/
def hasIncoming (sqid : Str) (st : BState) : Prop :=
  ∃ e ∈ st.edges, e.target = sqid

/-- Concrete parse result used to instantiate the incoming-edge claim. -/
def c3p : ParsedSQL := (parseSQLF 20 c3input).getD default

/-! Claim theorems. -/

/-- C9: the name matcher lowercases, strips a dollar-brace wrapper, and makes
a templated reference match its literal counterpart:
`matchKey("${base_table}") = matchKey("base_table") = matchKey("BASE_TABLE")`,
and on every identifier it computes exactly the spec's normalization. -/
theorem claim_C9 :
    getMatchName ( "$\x7bbase_table\x7d".data) =
      getMatchName ( "base_table".data) ∧
    getMatchName ( "base_table".data) = getMatchName ( "BASE_TABLE".data) ∧
    ∀ s, getMatchName s = specMatchKey s :=
  ⟨by decide, by decide, fun _ => rfl⟩


theorem sbu_detected : ∀ (l : Str) (skip : Nat) (depth : Int) (cur : Str)
    (parts : List Str) (det : Option Str),
    (splitByUnionGo l skip depth cur parts det).2 =
      match (specUnionOpsGo l skip depth).getLast? with
      | some x => some x
      | none => det := by
  intro l skip depth cur parts det
  induction l, skip, depth, cur, parts, det using splitByUnionGo.induct with
  | case1 => simp [splitByUnionGo, specUnionOpsGo]
  | case2 head rest skip depth cur parts det ih =>
    simpa [splitByUnionGo, specUnionOpsGo] using ih
  | case3 c rest depth cur parts det hd2 n hua ih =>
    rw [splitByUnionGo, specUnionOpsGo]
    simp only [hd2, if_pos, hua]
    rw [hd2] at ih
    rw [ih, List.getLast?_cons]
    cases hX : (specUnionOpsGo rest (n - 1) 0).getLast? with
    | none => simp
    | some x => simp
  | case4 c rest depth cur parts det hd2 hua n hu ih =>
    rw [splitByUnionGo, specUnionOpsGo]
    simp only [hd2, if_pos, hua, hu]
    rw [hd2] at ih
    rw [ih, List.getLast?_cons]
    cases hX : (specUnionOpsGo rest (n - 1) 0).getLast? with
    | none => simp
    | some x => simp
  | case5 c rest depth cur parts det hd2 hua hu ih =>
    rw [splitByUnionGo, specUnionOpsGo]
    simp only [hd2, if_pos, hua, hu]
    rw [hd2] at ih
    exact ih
  | case6 c rest depth cur parts det hd2 ih =>
    rw [splitByUnionGo, specUnionOpsGo]
    simp only [if_neg hd2]
    exact ih

/-- C5 (amended): for texts whose top-level chain contains union operators,
`splitByUnion` reports the operator of the LAST encountered union keyword
(not the first) as the single operator of the whole split; with at most one
branch it reports none. -/
theorem claim_C5 : ∀ sql : Str,
    (splitByUnion sql).unionType =
      if 1 < (splitByUnion sql).parts.length then specLastUnionOperator sql
      else none := by
  intro sql
  show (if 1 < (splitByUnionGo sql 0 0 [] [] none).1.length
        then (splitByUnionGo sql 0 0 [] [] none).2 else none) =
      if 1 < (splitByUnionGo sql 0 0 [] [] none).1.length
      then specLastUnionOperator sql else none
  rw [sbu_detected]
  unfold specLastUnionOperator unionOps
  cases hx : (specUnionOpsGo sql 0 0).getLast? <;> simp [hx]

/-- C5 counterexample: on a chain mixing `UNION` then `UNION ALL`, the first
encountered operator is `UNION`, yet `splitByUnion` returns `UNION ALL` —
the claim as stated (first operator wins) is false. -/
theorem claim_C5_counterexample :
    specFirstUnionOperator c5input = some kwUNION ∧
    1 < (splitByUnion c5input).parts.length ∧
    (splitByUnion c5input).unionType = some kwUNIONALL ∧
    ¬(kwUNIONALL = kwUNION) :=
  ⟨by decide, by decide, by decide, by decide⟩

/-- C7 (amended): `allQueries` is the concatenation ctes, then subQueries,
then the main query (the main query comes last, not between the two lists). -/
theorem claim_C7 : ∀ fuel sql p, parseSQLF fuel sql = some p →
    p.allQueries = p.ctes ++ p.subQueries ++ [p.mainQuery] := by
  intro fuel sql p h
  unfold parseSQLF parseSQLAuxF at h
  rw [Option.map_eq_some'] at h
  obtain ⟨a, ha, hp⟩ := h
  subst hp
  dsimp only at ha
  split at ha
  · exact Option.noConfusion ha
  · split at ha
    · exact Option.noConfusion ha
    · split at ha
      · exact Option.noConfusion ha
      · obtain rfl := Option.some.inj ha
        simp

/-- C7 counterexample: on a script with one nested subquery the parse
succeeds and `allQueries` is NOT ctes ++ mainQuery :: subQueries (the order
the claim asserts) — the main query comes after the subqueries. -/
theorem claim_C7_counterexample :
    (parseSQLF 20 c7input).map (fun p =>
      decide (p.allQueries = p.ctes ++ p.mainQuery :: p.subQueries)) =
      some false := by decide

/-- C7 witness: the amended order, instantiated on the same script. -/
theorem claim_C7_witness :
    parseSQLF 20 c7input = some ((parseSQLF 20 c7input).getD default) ∧
    ((parseSQLF 20 c7input).getD default).allQueries =
      ((parseSQLF 20 c7input).getD default).ctes ++
        ((parseSQLF 20 c7input).getD default).subQueries ++
        [((parseSQLF 20 c7input).getD default).mainQuery] :=
  ⟨by decide, claim_C7 20 c7input _ (by decide)⟩

/-- C6: evaluation at the failing input — two temp tables declared with the
same name both receive the id `temp_node_t`, so the ids of one parse are not
pairwise distinct. -/
theorem claim_C6_eval :
    (parseSQLF 20 c6input).map (fun p => p.ctes.map (fun q => q.id)) =
      some [ c6dupId, c6dupId ] ∧
    (parseSQLF 20 c6input).map (fun p =>
      decide ((p.allQueries.map (fun q => q.id)).Nodup)) = some false :=
  ⟨by decide, by decide⟩

theorem ensureSourceNode_added (tn : Str) (st : BState) :
    (ensureSourceNode tn st).2.added = st.added ∧
    (ensureSourceNode tn st).2.edges = st.edges := by
  unfold ensureSourceNode
  dsimp only
  split <;> simp

theorem addEdgeB_BInv (st : BState) (s t : Str) (u : Bool) (lb : Str)
    (h : BInv st) : BInv (addEdgeB st s t u lb) := by
  unfold addEdgeB
  split
  · exact h
  · rename_i hc
    obtain ⟨h1, h2⟩ := h
    constructor
    · simp [edgePairs, h1]
    · simp only [List.contains, List.elem_eq_mem, decide_eq_true_eq] at hc
      simp [List.nodup_append, h2, hc]
  done

theorem addEdgeB_extends (st : BState) (s t : Str) (u : Bool) (lb : Str) :
    st.edges <+: (addEdgeB st s t u lb).edges := by
  unfold addEdgeB
  split
  · exact List.prefix_refl _
  · exact List.prefix_append _ _

theorem addEdgeB_pres (st : BState) (s t : Str) (u : Bool) (lb : Str) :
    (BInv st → BInv (addEdgeB st s t u lb)) ∧
    st.edges <+: (addEdgeB st s t u lb).edges :=
  ⟨addEdgeB_BInv st s t u lb, addEdgeB_extends st s t u lb⟩

theorem ensureSourceNode_pres (tn : Str) (st : BState) :
    (BInv st → BInv (ensureSourceNode tn st).2) ∧
    st.edges <+: (ensureSourceNode tn st).2.edges := by
  obtain ⟨h1, h2⟩ := ensureSourceNode_added tn st
  refine ⟨fun hb => ?_, by rw [h2]⟩
  unfold BInv at hb ⊢
  rw [h1, h2]
  exact hb

theorem determineFrom_state (map : List (Str × Str)) (jtn : List Str) :
    ∀ ts st, (determineFrom map jtn ts st).2.added = st.added ∧
      (determineFrom map jtn ts st).2.edges = st.edges := by
  intro ts
  induction ts with
  | nil => intro st; exact ⟨rfl, rfl⟩
  | cons t rest ih =>
    intro st
    unfold determineFrom
    dsimp only
    cases hl : lookupNode2 map (getMatchName t.name) (getMatchName t.tableName) with
    | some v =>
      by_cases hj : (jtn.any fun j => getMatchName j == getMatchName t.name) = true
      · simpa [hl, hj] using ih st
      · simp [hl, hj]
    | none =>
      by_cases hj : (jtn.any fun j => getMatchName j == getMatchName t.name) = true
      · simpa [hl, hj] using ih st
      · simp only [hl, hj]
        simp only [Bool.false_eq_true, if_false]
        exact ensureSourceNode_added t.name st

theorem pres_trans {st1 st2 st3 : BState}
    (h12 : (BInv st1 → BInv st2) ∧ st1.edges <+: st2.edges)
    (h23 : (BInv st2 → BInv st3) ∧ st2.edges <+: st3.edges) :
    (BInv st1 → BInv st3) ∧ st1.edges <+: st3.edges :=
  ⟨fun h => h23.1 (h12.1 h), h12.2.trans h23.2⟩

theorem pres_refl (st : BState) :
    (BInv st → BInv st) ∧ st.edges <+: st.edges :=
  ⟨id, List.prefix_refl _⟩

theorem nodesCounter_pres (st : BState) (ns : List FNode) (k : Nat) :
    (BInv st → BInv { st with nodes := ns, joinCounter := k }) ∧
    st.edges <+: ({ st with nodes := ns, joinCounter := k } : BState).edges :=
  ⟨fun h => h, List.prefix_refl _⟩

theorem joinPass_pres (map : List (Str × Str)) (jtn : List Str)
    (f : Option Str) (sq : SubQuery) : ∀ joins handled st,
    (BInv st → BInv (joinPass map jtn f sq joins handled st).2) ∧
    st.edges <+: (joinPass map jtn f sq joins handled st).2.edges := by
  intro joins
  induction joins with
  | nil => intro handled st; exact pres_refl st
  | cons j rest ih =>
    intro handled st
    unfold joinPass
    dsimp only
    cases hl : lookupNode2 map (getMatchName j.table.name)
        (getMatchName j.table.tableName) with
    | some v =>
      simp only [hl]
      cases f with
      | none =>
        exact pres_trans (pres_trans (nodesCounter_pres st _ _)
          (pres_trans (addEdgeB_pres _ _ _ _ _) (addEdgeB_pres _ _ _ _ _)))
          (ih _ _)
      | some fv =>
        exact pres_trans (pres_trans (nodesCounter_pres st _ _)
          (pres_trans (addEdgeB_pres _ _ _ _ _)
            (pres_trans (addEdgeB_pres _ _ _ _ _) (addEdgeB_pres _ _ _ _ _))))
          (ih _ _)
    | none =>
      simp only [hl]
      cases f with
      | none =>
        exact pres_trans (pres_trans (ensureSourceNode_pres _ st)
          (pres_trans (nodesCounter_pres _ _ _)
            (pres_trans (addEdgeB_pres _ _ _ _ _) (addEdgeB_pres _ _ _ _ _))))
          (ih _ _)
      | some fv =>
        exact pres_trans (pres_trans (ensureSourceNode_pres _ st)
          (pres_trans (nodesCounter_pres _ _ _)
            (pres_trans (addEdgeB_pres _ _ _ _ _)
              (pres_trans (addEdgeB_pres _ _ _ _ _)
                (addEdgeB_pres _ _ _ _ _)))))
          (ih _ _)

theorem unionPass_pres (sq : SubQuery) : ∀ phys handled st,
    (BInv st → BInv (unionPass sq phys handled st).2) ∧
    st.edges <+: (unionPass sq phys handled st).2.edges := by
  intro phys
  induction phys with
  | nil => intro handled st; exact pres_refl st
  | cons tn rest ih =>
    intro handled st
    unfold unionPass
    dsimp only
    exact pres_trans (pres_trans (ensureSourceNode_pres _ st)
      (addEdgeB_pres _ _ _ _ _)) (ih _ _)

theorem depsPass_pres (map : List (Str × Str)) (ud : List Str)
    (sq : SubQuery) : ∀ deps handled st,
    (BInv st → BInv (depsPass map ud sq deps handled st).2) ∧
    st.edges <+: (depsPass map ud sq deps handled st).2.edges := by
  intro deps
  induction deps with
  | nil => intro handled st; exact pres_refl st
  | cons dep rest ih =>
    intro handled st
    unfold depsPass
    dsimp only
    split
    · exact ih _ _
    · cases hl : lookupNode1 map (getMatchName dep) with
      | none => simpa [hl] using ih _ _
      | some v =>
        simp only [hl]
        split
        · exact ih _ _
        · split
          · exact ih _ _
          · exact pres_trans (addEdgeB_pres _ _ _ _ _) (ih _ _)

theorem tablesPass_pres (map : List (Str × Str)) (sq : SubQuery) :
    ∀ ts handled st,
    (BInv st → BInv (tablesPass map sq ts handled st).2) ∧
    st.edges <+: (tablesPass map sq ts handled st).2.edges := by
  intro ts
  induction ts with
  | nil => intro handled st; exact pres_refl st
  | cons t rest ih =>
    intro handled st
    unfold tablesPass
    dsimp only
    split
    · exact ih _ _
    · cases hl : lookupNode2 map (getMatchName t.name)
          (getMatchName t.tableName) with
      | some v =>
        simp only [hl]
        split
        · exact ih _ _
        · split
          · exact ih _ _
          · exact pres_trans (addEdgeB_pres _ _ _ _ _) (ih _ _)
      | none =>
        simp only [hl]
        exact pres_trans (pres_trans (ensureSourceNode_pres _ st)
          (addEdgeB_pres _ _ _ _ _)) (ih _ _)

theorem rescuePass_pres (map : List (Str × Str)) (inc : List FEdge)
    (sq : SubQuery) : ∀ ts st,
    (BInv st → BInv (rescuePass map inc sq ts st)) ∧
    st.edges <+: (rescuePass map inc sq ts st).edges := by
  intro ts
  induction ts with
  | nil => intro st; exact pres_refl st
  | cons t rest ih =>
    intro st
    unfold rescuePass
    dsimp only
    split
    · exact ih _
    · cases hl : lookupNode2 map (getMatchName t.name)
          (getMatchName t.tableName) with
      | some v =>
        simp only [hl]
        exact pres_trans (addEdgeB_pres _ _ _ _ _) (ih _)
      | none =>
        simp only [hl]
        exact pres_trans (pres_trans (ensureSourceNode_pres _ st)
          (addEdgeB_pres _ _ _ _ _)) (ih _)

theorem processUnit_pres (map : List (Str × Str)) (ud : List Str)
    (up : List (Str × List Str)) (st : BState) (sq : SubQuery) :
    (BInv st → BInv (processUnit map ud up st sq)) ∧
    st.edges <+: (processUnit map ud up st sq).edges := by
  unfold processUnit
  dsimp only
  have hdf := determineFrom_state map
    (sq.joins.map (fun j => lcStr j.table.name)) sq.tables st
  have hdf2 : (BInv st →
      BInv (determineFrom map (sq.joins.map (fun j => lcStr j.table.name))
        sq.tables st).2) ∧
      st.edges <+: (determineFrom map
        (sq.joins.map (fun j => lcStr j.table.name)) sq.tables st).2.edges := by
    refine ⟨fun hb => ?_, by rw [hdf.2]⟩
    unfold BInv at hb ⊢
    rw [hdf.1, hdf.2]
    exact hb
  have h2 := pres_trans hdf2 (joinPass_pres map
    (sq.joins.map (fun j => lcStr j.table.name))
    (determineFrom map (sq.joins.map (fun j => lcStr j.table.name))
      sq.tables st).1 sq sq.joins []
    (determineFrom map (sq.joins.map (fun j => lcStr j.table.name))
      sq.tables st).2)
  cases hu : mapGet up sq.id with
  | some phys =>
    simp only [hu]
    split
    · exact pres_trans (pres_trans (pres_trans (pres_trans h2
        (unionPass_pres _ _ _ _)) (depsPass_pres _ _ _ _ _ _))
        (tablesPass_pres _ _ _ _ _)) (rescuePass_pres _ _ _ _ _)
    · exact pres_trans (pres_trans (pres_trans h2 (unionPass_pres _ _ _ _))
        (depsPass_pres _ _ _ _ _ _)) (tablesPass_pres _ _ _ _ _)
  | none =>
    simp only [hu]
    split
    · exact pres_trans (pres_trans (pres_trans h2
        (depsPass_pres _ _ _ _ _ _)) (tablesPass_pres _ _ _ _ _))
        (rescuePass_pres _ _ _ _ _)
    · exact pres_trans (pres_trans h2 (depsPass_pres _ _ _ _ _ _))
        (tablesPass_pres _ _ _ _ _)

theorem foldUnits_pres (map : List (Str × Str)) (ud : List Str)
    (up : List (Str × List Str)) : ∀ (qs : List SubQuery) (st : BState),
    (BInv st → BInv (qs.foldl (processUnit map ud up) st)) ∧
    st.edges <+: (qs.foldl (processUnit map ud up) st).edges := by
  intro qs
  induction qs with
  | nil => intro st; exact pres_refl st
  | cons q rest ih =>
    intro st
    exact pres_trans (processUnit_pres map ud up st q) (ih _)

theorem emphasizeFirst_pairs (s t : Str) : ∀ es,
    edgePairs (emphasizeFirst s t es) = edgePairs es := by
  intro es
  induction es with
  | nil => rfl
  | cons e rest ih =>
    unfold emphasizeFirst
    split
    · simp [edgePairs]
    · simp only [edgePairs, List.map_cons]
      exact congrArg (fun l => (e.source, e.target) :: l) ih

theorem BInv_pairs {st : BState} (h : BInv st) : (edgePairs st.edges).Nodup :=
  h.1 ▸ h.2

/-- C4: the assembled edge list never contains two edges with the same
ordered (source, target) pair — every insertion checks the pair against the
added-edge set, and the assembler is a pure function of the `ParsedSQL`, so
re-running it yields the same duplicate-free result. -/
theorem claim_C4 : ∀ parsed : ParsedSQL,
    (edgePairs (buildFlowElements parsed).2).Nodup := by
  intro parsed
  unfold buildFlowElements
  dsimp only
  rw [emphasizeFirst_pairs]
  apply BInv_pairs
  apply addEdgeB_BInv
  apply (foldUnits_pres _ _ _ _ _).1
  exact ⟨rfl, List.nodup_nil⟩

theorem natToStrGo_acc : ∀ (fuel n : Nat) (acc : Str),
    natToStrGo fuel n acc = natToStrGo fuel n [] ++ acc := by
  intro fuel
  induction fuel with
  | zero => intro n acc; rfl
  | succ fuel ih =>
    intro n acc
    unfold natToStrGo
    split
    · rfl
    · rw [ih (n / 10), ih (n / 10) (digitChar (n % 10) :: [])]
      simp

theorem decodeRev_digitChar (k : Nat) (hk : k < 10) :
    (digitChar k).toNat - 48 = k := by
  interval_cases k <;> decide

theorem natToStrGo_decode : ∀ (fuel n : Nat), n < 10 ^ (fuel + 1) →
    decodeRev (natToStrGo fuel n []).reverse = n := by
  intro fuel
  induction fuel with
  | zero =>
    intro n hn
    have hn10 : n < 10 := by simpa using hn
    simp [natToStrGo, decodeRev, decodeRev_digitChar n hn10]
  | succ fuel ih =>
    intro n hn
    unfold natToStrGo
    split
    · rename_i h10
      simp [decodeRev, decodeRev_digitChar n h10]
    · rename_i h10
      rw [natToStrGo_acc]
      have hdiv : n / 10 < 10 ^ (fuel + 1) := by
        rw [Nat.div_lt_iff_lt_mul (by omega)]
        calc n < 10 ^ (fuel + 1 + 1) := hn
        _ = 10 ^ (fuel + 1) * 10 := by ring
      simp only [List.reverse_append, List.reverse_cons, List.reverse_nil,
        List.nil_append, List.cons_append, decodeRev]
      rw [ih (n / 10) hdiv, decodeRev_digitChar (n % 10) (Nat.mod_lt n (by omega))]
      omega

theorem natToStr_inj : ∀ m n : Nat, natToStr m = natToStr n → m = n := by
  intro m n h
  have hm : m < 10 ^ (m + 1) :=
    lt_of_lt_of_le (Nat.lt_pow_self (by omega) m) (Nat.pow_le_pow_right (by omega) (by omega))
  have hn : n < 10 ^ (n + 1) :=
    lt_of_lt_of_le (Nat.lt_pow_self (by omega) n) (Nat.pow_le_pow_right (by omega) (by omega))
  have h1 := natToStrGo_decode m m hm
  have h2 := natToStrGo_decode n n hn
  unfold natToStr at h
  rw [← h1, ← h2, h]

theorem natToStrGo_digits : ∀ (fuel n : Nat), n < 10 ^ (fuel + 1) →
    ∀ c ∈ natToStrGo fuel n [], ∃ k < 10, c = digitChar k := by
  intro fuel
  induction fuel with
  | zero =>
    intro n hn c hc
    have hn10 : n < 10 := by simpa using hn
    simp only [natToStrGo, List.mem_singleton] at hc
    exact ⟨n, hn10, hc⟩
  | succ fuel ih =>
    intro n hn c hc
    unfold natToStrGo at hc
    split at hc
    · rename_i h10
      simp only [List.mem_singleton] at hc
      exact ⟨n, h10, hc⟩
    · rename_i h10
      rw [natToStrGo_acc] at hc
      have hdiv : n / 10 < 10 ^ (fuel + 1) := by
        rw [Nat.div_lt_iff_lt_mul (by omega)]
        calc n < 10 ^ (fuel + 1 + 1) := hn
        _ = 10 ^ (fuel + 1) * 10 := by ring
      rcases List.mem_append.mp hc with h | h
      · exact ih (n / 10) hdiv c h
      · simp only [List.mem_singleton] at h
        exact ⟨n % 10, Nat.mod_lt n (by omega), h⟩

theorem natToStr_no_underscore (n : Nat) : (natToStr n).count '_' = 0 := by
  have hn : n < 10 ^ (n + 1) :=
    lt_of_lt_of_le (Nat.lt_pow_self (by omega) n) (Nat.pow_le_pow_right (by omega) (by omega))
  rw [List.count_eq_zero]
  intro h
  obtain ⟨k, hk, he⟩ := natToStrGo_digits n n hn '_' h
  interval_cases k <;> simp_all [digitChar]

theorem subqId_count (j : Nat) : (subqId j).count '_' = 1 := by
  unfold subqId strSubqueryId
  rw [List.count_append]
  rw [natToStr_no_underscore]
  decide

theorem subqId_inj {j k : Nat} (h : subqId j = subqId k) : j = k := by
  unfold subqId strSubqueryId at h
  have h2 := List.append_cancel_left h
  exact natToStr_inj j k h2

theorem twoUnderscores_ne_subqId {s : Str} (h : twoUnderscores s) (j : Nat) :
    ¬(s = subqId j) := by
  intro he
  rw [he] at h
  unfold twoUnderscores at h
  rw [subqId_count] at h
  omega

theorem mapGet_mapSet {α : Type} : ∀ (m : List (Str × α)) (k k2 : Str) (v : α),
    mapGet (mapSet m k v) k2 = if k = k2 then some v else mapGet m k2 := by
  intro m
  induction m with
  | nil => intro k k2 v; simp [mapSet, mapGet, eq_comm]
  | cons hd rest ih =>
    intro k k2 v
    obtain ⟨k0, v0⟩ := hd
    unfold mapSet
    split
    · rename_i he
      subst he
      simp only [mapGet]
      split
      · rename_i h2; simp [h2]
      · rename_i h2; simp [mapGet, h2]
    · rename_i he
      simp only [mapGet, ih]
      split
      · rename_i h2
        have : ¬(k = k2) := fun hh => he (by rw [h2, hh])
        simp [this]
      · rfl

theorem mem_mapSet {α : Type} : ∀ {m : List (Str × α)} {k : Str} {v : α}
    {kv : Str × α}, kv ∈ mapSet m k v → kv = (k, v) ∨ kv ∈ m := by
  intro m
  induction m with
  | nil => intro k v kv h; simp [mapSet] at h; simp [h]
  | cons hd rest ih =>
    intro k v kv h
    obtain ⟨k0, v0⟩ := hd
    unfold mapSet at h
    split at h
    · rcases List.mem_cons.mp h with h | h
      · exact Or.inl h
      · exact Or.inr (List.mem_cons_of_mem _ h)
    · rcases List.mem_cons.mp h with h | h
      · exact Or.inr (h ▸ List.mem_cons_self _ _)
      · rcases ih h with h | h
        · exact Or.inl h
        · exact Or.inr (List.mem_cons_of_mem _ h)

theorem keys_mapSet {α : Type} : ∀ (m : List (Str × α)) (k : Str) (v : α),
    (mapSet m k v).map (fun kv => kv.1) =
      if (mapGet m k).isNone then m.map (fun kv => kv.1) ++ [k]
      else m.map (fun kv => kv.1) := by
  intro m
  induction m with
  | nil => intro k v; simp [mapSet, mapGet]
  | cons hd rest ih =>
    intro k v
    obtain ⟨k0, v0⟩ := hd
    unfold mapSet mapGet
    split
    · rename_i he
      simp [he]
    · rename_i he
      simp only [List.map_cons, ih, he, if_false]
      split <;> simp

theorem mapGet_isNone_not_mem {α : Type} : ∀ (m : List (Str × α)) (k : Str),
    (mapGet m k).isNone = true → k ∉ m.map (fun kv => kv.1) := by
  intro m
  induction m with
  | nil => intro k _; simp
  | cons hd rest ih =>
    intro k hg
    obtain ⟨k0, v0⟩ := hd
    unfold mapGet at hg
    split at hg
    · simp at hg
    · rename_i hne
      simp only [List.map_cons, List.mem_cons]
      push_neg
      exact ⟨fun he => hne he.symm, ih k hg⟩

theorem nodup_keys_mapSet {α : Type} {m : List (Str × α)} {k : Str} {v : α}
    (h : (m.map (fun kv => kv.1)).Nodup) :
    ((mapSet m k v).map (fun kv => kv.1)).Nodup := by
  rw [keys_mapSet]
  split
  · rename_i hg
    simp [List.nodup_append, h, mapGet_isNone_not_mem m k hg]
  · exact h

theorem PExt_refl (st : PState) : PExt st st := by
  refine ⟨List.prefix_refl _, le_refl _, fun k v h => h, fun kv h => Or.inl h,
    fun u h => Or.inl h⟩

theorem PExt_trans {a b c : PState} (h1 : PExt a b) (h2 : PExt b c) :
    PExt a c := by
  obtain ⟨p1, c1, s1, b1, u1⟩ := h1
  obtain ⟨p2, c2, s2, b2, u2⟩ := h2
  refine ⟨p1.trans p2, le_trans c1 c2, fun k v h => s2 k v (s1 k v h), ?_, ?_⟩
  · intro kv hkv
    rcases b2 kv hkv with h | ⟨j, hj1, hj2, hj3⟩
    · rcases b1 kv h with h | ⟨j, hj1, hj2, hj3⟩
      · exact Or.inl h
      · exact Or.inr ⟨j, hj1, lt_of_lt_of_le hj2 c2, hj3⟩
    · exact Or.inr ⟨j, le_trans c1 hj1, hj2, hj3⟩
  · intro u hu
    rcases u2 u hu with h | ⟨j, hj1, hj2, hj3⟩ | h
    · rcases u1 u h with h | ⟨j, hj1, hj2, hj3⟩ | h
      · exact Or.inl h
      · exact Or.inr (Or.inl ⟨j, hj1, lt_of_lt_of_le hj2 c2, hj3⟩)
      · exact Or.inr (Or.inr h)
    · exact Or.inr (Or.inl ⟨j, le_trans c1 hj1, hj2, hj3⟩)
    · exact Or.inr (Or.inr h)

theorem PsiInv_counter_mono {st : PState} {n : Nat} (h : PsiInv st)
    (hn : st.counter ≤ n) :
    PsiInv { collector := st.collector, counter := n, bodies := st.bodies } := by
  obtain ⟨h1, h2, h3, h4, h5⟩ := h
  refine ⟨h1, ?_, h3, ?_, h5⟩
  · intro kv hkv
    obtain ⟨j, hj, he⟩ := h2 kv hkv
    exact ⟨j, lt_of_lt_of_le hj hn, he⟩
  · intro u hu
    rcases h4 u hu with ⟨j, hj, he⟩ | h
    · exact Or.inl ⟨j, lt_of_lt_of_le hj hn, he⟩
    · exact Or.inr h

theorem fixupOne_flags (bodies : List (Str × Str)) (kn : List Str)
    (fq : SubQuery) (ph : Str) (info : SubInfo) :
    (fixupOne bodies kn fq ph info).id = fq.id ∧
    (fixupOne bodies kn fq ph info).isCTE = fq.isCTE ∧
    (fixupOne bodies kn fq ph info).isSubQuery = fq.isSubQuery ∧
    (fixupOne bodies kn fq ph info).isTempTable = fq.isTempTable := by
  unfold fixupOne
  dsimp only
  split
  · exact ⟨rfl, rfl, rfl, rfl⟩
  · split
    · exact ⟨rfl, rfl, rfl, rfl⟩
    · exact ⟨rfl, rfl, rfl, rfl⟩

theorem fixupFold_flags (bodies : List (Str × Str)) (kn : List Str) :
    ∀ (subs : List (Str × SubInfo)) (fq : SubQuery),
    (subs.foldl (fun fq e => fixupOne bodies kn fq e.1 e.2) fq).id = fq.id ∧
    (subs.foldl (fun fq e => fixupOne bodies kn fq e.1 e.2) fq).isCTE = fq.isCTE ∧
    (subs.foldl (fun fq e => fixupOne bodies kn fq e.1 e.2) fq).isSubQuery = fq.isSubQuery ∧
    (subs.foldl (fun fq e => fixupOne bodies kn fq e.1 e.2) fq).isTempTable = fq.isTempTable := by
  intro subs
  induction subs with
  | nil => intro fq; exact ⟨rfl, rfl, rfl, rfl⟩
  | cons hd rest ih =>
    intro fq
    simp only [List.foldl_cons]
    obtain ⟨i1, i2, i3, i4⟩ := ih (fixupOne bodies kn fq hd.1 hd.2)
    obtain ⟨f1, f2, f3, f4⟩ := fixupOne_flags bodies kn fq hd.1 hd.2
    exact ⟨i1.trans f1, i2.trans f2, i3.trans f3, i4.trans f4⟩

theorem parseFlatSelect_flags (sql id name : Str) (c b : Bool) (kn : List Str) :
    (parseFlatSelect sql id name c b kn).id = id ∧
    (parseFlatSelect sql id name c b kn).isCTE = c ∧
    (parseFlatSelect sql id name c b kn).isSubQuery = b ∧
    (parseFlatSelect sql id name c b kn).isTempTable = false :=
  ⟨rfl, rfl, rfl, rfl⟩

theorem unionMid_two (pid : Str) (i : Nat) :
    twoUnderscores (pid ++ strUnionMid ++ natToStr i) := by
  unfold twoUnderscores
  rw [List.count_append, List.count_append, natToStr_no_underscore]
  have : strUnionMid.count '_' = 2 := by decide
  omega

theorem subsLoopG_ok (rec : RecFn) (hrec : RecOk rec) :
    ∀ (entries : List (Str × SubInfo)) (kn : List Str) (st : PState)
      (kn2 : List Str) (st2 : PState),
    subsLoopG rec entries kn st = some (kn2, st2) →
    PExt st st2 ∧ (PsiInv st → PsiInv st2) := by
  intro entries
  induction entries with
  | nil =>
    intro kn st kn2 st2 h
    simp only [subsLoopG, Option.some.injEq, Prod.mk.injEq] at h
    obtain ⟨h1, h2⟩ := h
    subst h2
    exact ⟨PExt_refl st, fun p => p⟩
  | cons hd rest ih =>
    intro kn st kn2 st2 h
    obtain ⟨ph, info⟩ := hd
    unfold subsLoopG at h
    dsimp only at h
    split at h
    · exact ih _ _ _ _ h
    · rename_i hg
      split at h
      · exact Option.noConfusion h
      · rename_i subQuery st2' hr
        obtain ⟨⟨hext, hpsi⟩, hid, _, hsubq, _⟩ :=
          hrec _ _ _ _ _ _ _ _ _ hr
        obtain ⟨hpre, hcnt, hsome, hbod, hcol⟩ := hext
        have hcnt1 : st.counter + 1 ≤ st2'.counter := hcnt
        have hbod1 : ∀ kv ∈ st2'.bodies, kv ∈ st.bodies ∨
            ∃ j, st.counter + 1 ≤ j ∧ j < st2'.counter ∧ kv.2 = subqId j :=
          hbod
        have hcol1 : ∀ u ∈ st2'.collector, u ∈ st.collector ∨
            (∃ j, st.counter + 1 ≤ j ∧ j < st2'.counter ∧ u.id = subqId j) ∨
            (twoUnderscores u.id ∧ u.isSubQuery = true) := hcol
        have hext3 : PExt st
            { collector := st2'.collector ++ [subQuery],
              counter := st2'.counter,
              bodies := mapSet st2'.bodies
                (normalizeWhitespace info.body)
                (strSubqueryId ++ natToStr st.counter) } := by
          refine ⟨hpre.trans ⟨[subQuery], rfl⟩,
            Nat.le_trans (Nat.le_succ st.counter) hcnt1, ?_, ?_, ?_⟩
          · intro k v hk
            have h2 := hsome k v hk
            show mapGet (mapSet st2'.bodies _ _) k = some v
            rw [mapGet_mapSet]
            split
            · rename_i he
              rw [← he] at hk
              rw [hg] at hk
              exact Option.noConfusion hk
            · exact h2
          · intro kv hkv
            rcases mem_mapSet hkv with he | hm
            · refine Or.inr ⟨st.counter, le_refl _,
                Nat.lt_of_lt_of_le (Nat.lt_succ_self st.counter) hcnt1, ?_⟩
              rw [he]
              rfl
            · rcases hbod1 kv hm with hin | ⟨j, hj1, hj2, hj3⟩
              · exact Or.inl hin
              · exact Or.inr ⟨j, Nat.le_of_succ_le hj1, hj2, hj3⟩
          · intro u hu
            rcases List.mem_append.mp hu with hm | hm
            · rcases hcol1 u hm with hin | ⟨j, hj1, hj2, hj3⟩ | ht
              · exact Or.inl hin
              · exact Or.inr (Or.inl ⟨j, Nat.le_of_succ_le hj1, hj2, hj3⟩)
              · exact Or.inr (Or.inr ht)
            · rw [List.mem_singleton] at hm
              subst hm
              exact Or.inr (Or.inl ⟨st.counter, le_refl _,
                Nat.lt_of_lt_of_le (Nat.lt_succ_self st.counter) hcnt1, hid⟩)
        have hpsi3 : PsiInv st → PsiInv
            { collector := st2'.collector ++ [subQuery],
              counter := st2'.counter,
              bodies := mapSet st2'.bodies
                (normalizeWhitespace info.body)
                (strSubqueryId ++ natToStr st.counter) } := by
          intro hP
          have hP2 : PsiInv st2' := hpsi (PsiInv_counter_mono hP (Nat.le_succ _))
          obtain ⟨q1, q2, q3, q4, q5⟩ := hP2
          have hfresh : ∀ u ∈ st2'.collector,
              ¬(u.id = strSubqueryId ++ natToStr st.counter) := by
            intro u hu he
            have he' : u.id = subqId st.counter := he
            rcases hcol1 u hu with hin | ⟨j, hj1, hj2, hj3⟩ | ht
            · rcases hP.2.2.2.1 u hin with ⟨j, hj, hje⟩ | ht
              · have := subqId_inj (hje ▸ he')
                omega
              · exact twoUnderscores_ne_subqId ht st.counter he'
            · have := subqId_inj (hj3 ▸ he')
              omega
            · exact twoUnderscores_ne_subqId ht.1 st.counter he'
          refine ⟨nodup_keys_mapSet q1, ?_, ?_, ?_, ?_⟩
          · intro kv hkv
            rcases mem_mapSet hkv with he | hm
            · exact ⟨st.counter,
                Nat.lt_of_lt_of_le (Nat.lt_succ_self st.counter) hcnt1,
                by rw [he]; rfl⟩
            · obtain ⟨j, hj, hje⟩ := q2 kv hm
              exact ⟨j, hj, hje⟩
          · intro kv hkv
            rcases mem_mapSet hkv with he | hm
            · subst he
              dsimp only
              rw [List.filter_append]
              have hz : st2'.collector.filter
                  (fun u => u.id = strSubqueryId ++ natToStr st.counter) = [] := by
                rw [List.filter_eq_nil]
                intro u hu
                simp only [decide_eq_true_eq]
                exact hfresh u hu
              rw [hz]
              simp [hid]
            · have hne : ¬(kv.2 = strSubqueryId ++ natToStr st.counter) := by
                rcases hbod1 kv hm with hin | ⟨j, hj1, hj2, hj3⟩
                · obtain ⟨j, hj, hje⟩ := hP.2.1 kv hin
                  intro he
                  have := subqId_inj (hje ▸ (he : kv.2 = subqId st.counter))
                  omega
                · intro he
                  have := subqId_inj (hj3 ▸ (he : kv.2 = subqId st.counter))
                  omega
              show (List.filter _ (st2'.collector ++ [subQuery])).length = 1
              rw [List.filter_append]
              have h1 := q3 kv hm
              have hz : [subQuery].filter (fun u => u.id = kv.2) = [] := by
                rw [List.filter_eq_nil]
                intro u hu
                rw [List.mem_singleton] at hu
                subst hu
                simp only [decide_eq_true_eq]
                rw [hid]
                intro he
                exact hne he.symm
              rw [hz, List.append_nil, h1]
          · intro u hu
            rcases List.mem_append.mp hu with hm | hm
            · rcases q4 u hm with ⟨j, hj, hje⟩ | ht
              · exact Or.inl ⟨j, hj, hje⟩
              · exact Or.inr ht
            · rw [List.mem_singleton] at hm
              subst hm
              exact Or.inl ⟨st.counter,
                Nat.lt_of_lt_of_le (Nat.lt_succ_self st.counter) hcnt1, hid⟩
          · intro u hu
            rcases List.mem_append.mp hu with hm | hm
            · exact q5 u hm
            · rw [List.mem_singleton] at hm
              subst hm
              exact hsubq
        have htail := ih _ _ _ _ h
        exact ⟨PExt_trans hext3 htail.1, fun hP => htail.2 (hpsi3 hP)⟩

theorem branchLoopG_ok (rec : RecFn) (hrec : RecOk rec) :
    ∀ (parts : List Str) (i : Nat) (pid pname : Str) (kn : List Str)
      (st : PState) (ids : List Str) (st2 : PState),
    branchLoopG rec parts i pid pname kn st = some (ids, st2) →
    PExt st st2 ∧ (PsiInv st → PsiInv st2) := by
  intro parts
  induction parts with
  | nil =>
    intro i pid pname kn st ids st2 h
    simp only [branchLoopG, Option.some.injEq, Prod.mk.injEq] at h
    obtain ⟨h1, h2⟩ := h
    subst h2
    exact ⟨PExt_refl st, fun p => p⟩
  | cons part rest ih =>
    intro i pid pname kn st ids st2 h
    unfold branchLoopG at h
    dsimp only at h
    split at h
    · exact Option.noConfusion h
    · rename_i branchQuery st2' hr
      obtain ⟨⟨hext, hpsi⟩, hid, _, hsubq, _⟩ :=
        hrec _ _ _ _ _ _ _ _ _ hr
      split at h
      · exact Option.noConfusion h
      · rename_i ids4 st4 hb
        simp only [Option.some.injEq, Prod.mk.injEq] at h
        obtain ⟨h1, h2⟩ := h
        subst h2
        have hid2 : twoUnderscores branchQuery.id := by
          rw [hid]
          exact unionMid_two pid i
        have hextP : PExt st2'
            { collector := st2'.collector ++ [branchQuery],
              counter := st2'.counter, bodies := st2'.bodies } := by
          refine ⟨⟨[branchQuery], rfl⟩, le_refl _, fun k v hk => hk,
            fun kv hkv => Or.inl hkv, ?_⟩
          intro u hu
          rcases List.mem_append.mp hu with hm | hm
          · exact Or.inl hm
          · rw [List.mem_singleton] at hm
            subst hm
            exact Or.inr (Or.inr ⟨hid2, hsubq⟩)
        have hpsiP : PsiInv st2' → PsiInv
            { collector := st2'.collector ++ [branchQuery],
              counter := st2'.counter, bodies := st2'.bodies } := by
          intro hP
          obtain ⟨q1, q2, q3, q4, q5⟩ := hP
          refine ⟨q1, q2, ?_, ?_, ?_⟩
          · intro kv hkv
            show (List.filter _ (st2'.collector ++ [branchQuery])).length = 1
            rw [List.filter_append]
            have hz : [branchQuery].filter (fun u => u.id = kv.2) = [] := by
              rw [List.filter_eq_nil]
              intro u hu
              rw [List.mem_singleton] at hu
              subst hu
              simp only [decide_eq_true_eq]
              obtain ⟨j, hj, hje⟩ := q2 kv hkv
              rw [hje]
              exact twoUnderscores_ne_subqId hid2 j
            rw [hz, List.append_nil, q3 kv hkv]
          · intro u hu
            rcases List.mem_append.mp hu with hm | hm
            · exact q4 u hm
            · rw [List.mem_singleton] at hm
              subst hm
              exact Or.inr hid2
          · intro u hu
            rcases List.mem_append.mp hu with hm | hm
            · exact q5 u hm
            · rw [List.mem_singleton] at hm
              subst hm
              exact hsubq
        have htail := ih _ _ _ _ _ _ _ hb
        exact ⟨PExt_trans hext (PExt_trans hextP htail.1),
          fun hP => htail.2 (hpsiP (hpsi hP))⟩

theorem processSQLF_ok : ∀ fuel : Nat,
    RecOk (fun a b c d e f g => processSQLF fuel a b c d e f g) := by
  intro fuel
  induction fuel with
  | zero =>
    intro sql id name c b kn st r st2 h
    exact Option.noConfusion h
  | succ fuel ih =>
    intro sql id name c b kn st r st2 h
    unfold processSQLF at h
    dsimp only at h
    split at h
    · exact Option.noConfusion h
    · rename_i kn2 st2' hs
      have hsub := subsLoopG_ok _ ih _ _ _ _ _ hs
      split at h
      · split at h
        · split at h
          · exact Option.noConfusion h
          · rename_i ids st3 hb
            have hbr := branchLoopG_ok _ ih _ _ _ _ _ _ _ _ hb
            simp only [Option.some.injEq, Prod.mk.injEq] at h
            obtain ⟨h1, h2⟩ := h
            subst h2
            subst h1
            exact ⟨⟨PExt_trans hsub.1 hbr.1,
              fun hp => hbr.2 (hsub.2 hp)⟩, rfl, rfl, rfl, rfl⟩
        · simp only [Option.some.injEq] at h
          unfold processFlat at h
          dsimp only at h
          simp only [Prod.mk.injEq] at h
          obtain ⟨h1, h2⟩ := h
          subst h2
          subst h1
          obtain ⟨f1, f2, f3, f4⟩ := fixupFold_flags st2'.bodies kn2
            (replaceSubqueries (normalizeWhitespace sql)).2
            (parseFlatSelect (replaceSubqueries (normalizeWhitespace sql)).1
              id name c b kn2)
          exact ⟨hsub, f1, f2, f3, f4⟩
      · simp only [Option.some.injEq] at h
        unfold processFlat at h
        dsimp only at h
        simp only [Prod.mk.injEq] at h
        obtain ⟨h1, h2⟩ := h
        subst h2
        subst h1
        obtain ⟨f1, f2, f3, f4⟩ := fixupFold_flags st2'.bodies kn2
          (replaceSubqueries (normalizeWhitespace sql)).2
          (parseFlatSelect (replaceSubqueries (normalizeWhitespace sql)).1
            id name c b kn2)
        exact ⟨hsub, f1, f2, f3, f4⟩

theorem sbu_parts_bound : ∀ (l : Str) (skip : Nat) (depth : Int) (cur : Str)
    (parts : List Str) (det : Option Str),
    ((splitByUnionGo l skip depth cur parts det).2).isSome = true ∨
    (splitByUnionGo l skip depth cur parts det).1.length ≤ parts.length + 1 := by
  intro l skip depth cur parts det
  induction l, skip, depth, cur, parts, det using splitByUnionGo.induct with
  | case1 =>
    refine Or.inr ?_
    rw [splitByUnionGo]
    split <;> simp
  | case2 head rest skip depth cur parts det ih =>
    rw [splitByUnionGo]
    exact ih
  | case3 c rest depth cur parts det hd2 n hua ih =>
    refine Or.inl ?_
    rw [splitByUnionGo]
    simp only [hd2, if_pos, hua]
    rw [sbu_detected]
    cases hX : (specUnionOpsGo rest (n - 1) 0).getLast? <;> simp
  | case4 c rest depth cur parts det hd2 hua n hu ih =>
    refine Or.inl ?_
    rw [splitByUnionGo]
    simp only [hd2, if_pos, hua, hu]
    rw [sbu_detected]
    cases hX : (specUnionOpsGo rest (n - 1) 0).getLast? <;> simp
  | case5 c rest depth cur parts det hd2 hua hu ih =>
    rw [splitByUnionGo]
    simp only [hd2, if_pos, hua, hu]
    rw [hd2] at ih
    exact ih
  | case6 c rest depth cur parts det hd2 ih =>
    rw [splitByUnionGo]
    simp only [if_neg hd2]
    exact ih

theorem sbu_unionType_isSome (sql : Str)
    (h : 1 < (splitByUnion sql).parts.length) :
    ((splitByUnion sql).unionType).isSome = true := by
  unfold splitByUnion at h ⊢
  dsimp only at h ⊢
  rw [if_pos h]
  rcases sbu_parts_bound sql 0 0 [] [] none with hs | hb
  · exact hs
  · simp only [List.length_nil] at hb
    omega

theorem branchLoopG_ids (rec : RecFn) (hrec : RecOk rec) :
    ∀ (parts : List Str) (i : Nat) (pid pname : Str) (kn : List Str)
      (st : PState) (ids : List Str) (st2 : PState),
    branchLoopG rec parts i pid pname kn st = some (ids, st2) →
    ids = (List.range' i parts.length).map
        (fun k => pid ++ strUnionMid ++ natToStr k) ∧
    ∀ id2 ∈ ids, ∃ u ∈ st2.collector, u.id = id2 ∧ u.isSubQuery = true ∧
      ∃ part ∈ parts, ∃ (nm : Str) (stA stB : PState),
        rec part id2 nm false true kn stA = some (u, stB) := by
  intro parts
  induction parts with
  | nil =>
    intro i pid pname kn st ids st2 h
    simp only [branchLoopG, Option.some.injEq, Prod.mk.injEq] at h
    obtain ⟨h1, h2⟩ := h
    subst h1
    exact ⟨by simp [List.range'], by simp⟩
  | cons part rest ih =>
    intro i pid pname kn st ids st2 h
    unfold branchLoopG at h
    dsimp only at h
    split at h
    · exact Option.noConfusion h
    · rename_i branchQuery st2' hr
      split at h
      · exact Option.noConfusion h
      · rename_i ids4 st4 hb
        simp only [Option.some.injEq, Prod.mk.injEq] at h
        obtain ⟨h1, h2⟩ := h
        subst h2
        subst h1
        obtain ⟨⟨hext, _⟩, hid, _, hsubq, _⟩ := hrec _ _ _ _ _ _ _ _ _ hr
        obtain ⟨hi1, hi2⟩ := ih _ _ _ _ _ _ _ hb
        have hpush := (branchLoopG_ok rec hrec _ _ _ _ _ _ _ _ hb).1
        constructor
        · rw [hi1]
          rfl
        · intro id2 hmem
          rcases List.mem_cons.mp hmem with he | hm
          · subst he
            refine ⟨branchQuery, ?_, hid, hsubq, part,
              List.mem_cons_self _ _, _, st, st2', hr⟩
            have hin : branchQuery ∈ st2'.collector ++ [branchQuery] := by
              simp
            exact hpush.1.subset hin
          · obtain ⟨u, hu, hue, hus, p2, hp2, nm, stA, stB, hrec2⟩ :=
              hi2 id2 hm
            exact ⟨u, hu, hue, hus, p2, List.mem_cons_of_mem _ hp2,
              nm, stA, stB, hrec2⟩

/-- C8: when a body splits into more than one top-level union branch and at
least one branch is complex (GROUP BY, JOIN, WHERE, HAVING, or a nested
`(SELECT`), `processSQL` promotes every branch to its own recursively
processed unit in the collector, and the unit it returns carries exactly
the ordered branch ids as `dependsOn` and `unionInfo.sources`, with empty
tables, fields, joins and filters. -/
theorem claim_C8 : ∀ (fuel : Nat) (sql id name : Str) (c b : Bool)
    (kn : List Str) (st : PState) (r : SubQuery) (st2 : PState),
    processSQLF (fuel + 1) sql id name c b kn st = some (r, st2) →
    1 < (splitByUnion (normalizeWhitespace sql)).parts.length →
    (splitByUnion (normalizeWhitespace sql)).parts.any partComplexTest = true →
    ∃ ut, (splitByUnion (normalizeWhitespace sql)).unionType = some ut ∧
      r.dependsOn =
        (List.range' 0 (splitByUnion (normalizeWhitespace sql)).parts.length).map
          (fun k => id ++ strUnionMid ++ natToStr k) ∧
      r.unionInfo = some { type := ut, sources := r.dependsOn } ∧
      r.tables = [] ∧ r.fields = [] ∧ r.joins = [] ∧ r.filters = [] ∧
      ∀ id2 ∈ r.dependsOn, ∃ u ∈ st2.collector, u.id = id2 ∧
        u.isSubQuery = true ∧
        ∃ part ∈ (splitByUnion (normalizeWhitespace sql)).parts,
          ∃ (nm : Str) (kn2 : List Str) (stA stB : PState),
            processSQLF fuel part id2 nm false true kn2 stA =
              some (u, stB) := by
  intro fuel sql id name c b kn st r st2 h hlen hcomplex
  have hsome := sbu_unionType_isSome (normalizeWhitespace sql) hlen
  unfold processSQLF at h
  dsimp only at h
  split at h
  · exact Option.noConfusion h
  · rename_i kn2 st2' hs
    split at h
    · rename_i hcond
      split at h
      · rename_i ut hut
        split at h
        · exact Option.noConfusion h
        · rename_i ids st3 hb
          simp only [Option.some.injEq, Prod.mk.injEq] at h
          obtain ⟨h1, h2⟩ := h
          subst h2
          subst h1
          obtain ⟨hids, hmem⟩ :=
            branchLoopG_ids _ (processSQLF_ok fuel) _ _ _ _ _ _ _ _ hb
          refine ⟨ut, hut, hids, rfl, rfl, rfl, rfl, rfl, ?_⟩
          intro id2 hid2
          obtain ⟨u, hu, hue, hus, part, hpart, nm, stA, stB, hrec⟩ :=
            hmem id2 hid2
          exact ⟨u, hu, hue, hus, part, hpart, nm, kn2, stA, stB, hrec⟩
      · rename_i hut
        rw [hut] at hsome
        exact absurd hsome (by simp)
    · rename_i hcond
      exfalso
      apply hcond
      simp only [Bool.and_eq_true, decide_eq_true_eq]
      exact ⟨hlen, hcomplex⟩

theorem claim_C8_witness :
    processSQLF 10 c8input strMainId strMainName false false []
      { collector := [], counter := 0, bodies := [] } =
        some (c8res.1, c8res.2) ∧
    1 < (splitByUnion (normalizeWhitespace c8input)).parts.length ∧
    (splitByUnion (normalizeWhitespace c8input)).parts.any partComplexTest
      = true ∧
    (∃ ut, (splitByUnion (normalizeWhitespace c8input)).unionType = some ut ∧
      c8res.1.dependsOn =
        (List.range' 0
            (splitByUnion (normalizeWhitespace c8input)).parts.length).map
          (fun k => strMainId ++ strUnionMid ++ natToStr k) ∧
      c8res.1.unionInfo = some { type := ut, sources := c8res.1.dependsOn } ∧
      c8res.1.tables = [] ∧ c8res.1.fields = [] ∧ c8res.1.joins = [] ∧
      c8res.1.filters = [] ∧
      ∀ id2 ∈ c8res.1.dependsOn, ∃ u ∈ c8res.2.collector, u.id = id2 ∧
        u.isSubQuery = true ∧
        ∃ part ∈ (splitByUnion (normalizeWhitespace c8input)).parts,
          ∃ (nm : Str) (kn2 : List Str) (stA stB : PState),
            processSQLF 9 part id2 nm false true kn2 stA =
              some (u, stB)) :=
  ⟨by decide, by decide, by decide,
    claim_C8 9 c8input strMainId strMainName false false []
      { collector := [], counter := 0, bodies := [] } c8res.1 c8res.2
      (by decide) (by decide) (by decide)⟩

theorem mapGet_some_mem {α : Type} : ∀ {m : List (Str × α)} {k : Str} {v : α},
    mapGet m k = some v → (k, v) ∈ m := by
  intro m
  induction m with
  | nil => intro k v h; exact Option.noConfusion h
  | cons hd rest ih =>
    intro k v h
    obtain ⟨k0, v0⟩ := hd
    unfold mapGet at h
    split at h
    · rename_i he
      subst he
      rw [Option.some.injEq] at h
      subst h
      exact List.mem_cons_self _ _
    · exact List.mem_cons_of_mem _ (ih h)

theorem PsiInv_init : PsiInv { collector := [], counter := 0, bodies := [] } := by
  refine ⟨List.nodup_nil, ?_, ?_, ?_, ?_⟩ <;> intro kv h <;> simp at h

theorem tempLoopF_ok (fuel : Nat) :
    ∀ (entries : List (Str × Str)) (tempNames : List Str) (i : Nat)
      (acc : List SubQuery) (st : PState) (acc2 : List SubQuery) (st2 : PState),
    tempLoopF fuel entries tempNames i acc st = some (acc2, st2) →
    PExt st st2 ∧ (PsiInv st → PsiInv st2) := by
  intro entries
  induction entries with
  | nil =>
    intro tempNames i acc st acc2 st2 h
    simp only [tempLoopF, Option.some.injEq, Prod.mk.injEq] at h
    obtain ⟨h1, h2⟩ := h
    subst h2
    exact ⟨PExt_refl st, fun p => p⟩
  | cons hd rest ih =>
    intro tempNames i acc st acc2 st2 h
    obtain ⟨nm, body⟩ := hd
    unfold tempLoopF at h
    split at h
    · exact Option.noConfusion h
    · rename_i parsed st2' hp
      have h1 := processSQLF_ok fuel _ _ _ _ _ _ _ _ _ hp
      have h2 := ih _ _ _ _ _ _ h
      exact ⟨PExt_trans h1.1.1 h2.1, fun hP => h2.2 (h1.1.2 hP)⟩

theorem cteLoopF_ok (fuel : Nat) :
    ∀ (entries : List (Str × Str)) (tempNames cteNames : List Str) (i : Nat)
      (acc : List SubQuery) (st : PState) (acc2 : List SubQuery) (st2 : PState),
    cteLoopF fuel entries tempNames cteNames i acc st = some (acc2, st2) →
    PExt st st2 ∧ (PsiInv st → PsiInv st2) := by
  intro entries
  induction entries with
  | nil =>
    intro tempNames cteNames i acc st acc2 st2 h
    simp only [cteLoopF, Option.some.injEq, Prod.mk.injEq] at h
    obtain ⟨h1, h2⟩ := h
    subst h2
    exact ⟨PExt_refl st, fun p => p⟩
  | cons hd rest ih =>
    intro tempNames cteNames i acc st acc2 st2 h
    obtain ⟨nm, body⟩ := hd
    unfold cteLoopF at h
    split at h
    · exact Option.noConfusion h
    · rename_i parsed st2' hp
      have h1 := processSQLF_ok fuel _ _ _ _ _ _ _ _ _ hp
      have h2 := ih _ _ _ _ _ _ _ h
      exact ⟨PExt_trans h1.1.1 h2.1, fun hP => h2.2 (h1.1.2 hP)⟩

theorem parseSQLAuxF_state : ∀ (fuel : Nat) (sql : Str) (p : ParsedSQL)
    (st : PState), parseSQLAuxF fuel sql = some (p, st) →
    PsiInv st ∧ p.subQueries = st.collector := by
  intro fuel sql p st h
  unfold parseSQLAuxF at h
  dsimp only at h
  split at h
  · exact Option.noConfusion h
  · rename_i tempQs st1 ht
    split at h
    · exact Option.noConfusion h
    · rename_i cteQs st2 hc
      split at h
      · exact Option.noConfusion h
      · rename_i mainQuery st3 hm
        simp only [Option.some.injEq, Prod.mk.injEq] at h
        obtain ⟨h1, h2⟩ := h
        subst h2
        subst h1
        have p1 := (tempLoopF_ok fuel _ _ _ _ _ _ _ ht).2 PsiInv_init
        have p2 := (cteLoopF_ok fuel _ _ _ _ _ _ _ _ hc).2 p1
        have p3 := ((processSQLF_ok fuel _ _ _ _ _ _ _ _ _ hm).1).2 p2
        exact ⟨p3, rfl⟩

theorem fixupOne_ref (bodies : List (Str × Str)) (kn : List Str)
    (fq : SubQuery) (ph : Str) (info : SubInfo) (id1 : Str)
    (h : mapGet bodies (normalizeWhitespace info.body) = some id1) :
    (fixupOne bodies kn fq ph info).dependsOn.contains id1 = true := by
  unfold fixupOne
  dsimp only
  rw [h]
  simp only [Option.getD_some]
  have hkey : ∀ deps1 : List Str,
      (if deps1.contains id1 then deps1 else deps1 ++ [id1]).contains id1
        = true := by
    intro deps1
    split
    · rename_i hc; exact hc
    · simp
  split
  · exact hkey _
  · split
    · exact hkey _
    · exact hkey _

/-- C2: the subquery cache is keyed by normalized body text with distinct
keys; each cached body owns exactly one `subQueries` unit (parsed at most
once), and every enclosing unit fixed up for any occurrence of that body
references the single cached id in its `dependsOn`. -/
theorem claim_C2 : ∀ (fuel : Nat) (sql : Str) (p : ParsedSQL) (st : PState),
    parseSQLAuxF fuel sql = some (p, st) →
    (st.bodies.map (fun kv => kv.1)).Nodup ∧
    ∀ k id1, mapGet st.bodies k = some id1 →
      (p.subQueries.filter (fun u => u.id = id1)).length = 1 ∧
      ∀ (kn : List Str) (fq : SubQuery) (ph : Str) (info : SubInfo),
        normalizeWhitespace info.body = k →
        (fixupOne st.bodies kn fq ph info).dependsOn.contains id1 = true := by
  intro fuel sql p st h
  obtain ⟨hpsi, hsubs⟩ := parseSQLAuxF_state fuel sql p st h
  refine ⟨hpsi.1, ?_⟩
  intro k id1 hget
  have hmem := mapGet_some_mem hget
  constructor
  · rw [hsubs]
    exact hpsi.2.2.1 (k, id1) hmem
  · intro kn fq ph info he
    apply fixupOne_ref
    rw [he]
    exact hget

set_option maxRecDepth 100000 in
theorem claim_C2_witness :
    parseSQLAuxF 20 c2input = some (c2res.1, c2res.2) ∧
    ((c2res.2.bodies.map (fun kv => kv.1)).Nodup ∧
     ∀ k id1, mapGet c2res.2.bodies k = some id1 →
       (c2res.1.subQueries.filter (fun u => u.id = id1)).length = 1 ∧
       ∀ (kn : List Str) (fq : SubQuery) (ph : Str) (info : SubInfo),
         normalizeWhitespace info.body = k →
         (fixupOne c2res.2.bodies kn fq ph info).dependsOn.contains id1
           = true) :=
  ⟨by decide, claim_C2 20 c2input c2res.1 c2res.2 (by decide)⟩

theorem hasIncoming_mono {sqid : Str} {st st2 : BState}
    (hp : st.edges <+: st2.edges) (h : hasIncoming sqid st) :
    hasIncoming sqid st2 := by
  obtain ⟨e, he, ht⟩ := h
  exact ⟨e, hp.subset he, ht⟩

theorem addEdgeB_inc (st : BState) (s t : Str) (u : Bool) (lb : Str)
    (hb : BInv st) : hasIncoming t (addEdgeB st s t u lb) := by
  unfold addEdgeB
  split
  · rename_i hc
    simp only [List.contains, List.elem_eq_mem, decide_eq_true_eq] at hc
    rw [hb.1] at hc
    unfold edgePairs at hc
    obtain ⟨e, he, hpr⟩ := List.mem_map.mp hc
    refine ⟨e, he, ?_⟩
    have := congrArg Prod.snd hpr
    exact this
  · exact ⟨_, List.mem_append_right _ (List.mem_singleton_self _), rfl⟩

theorem contains_hasIncoming {st : BState} {s t : Str} (hb : BInv st)
    (hc : st.added.contains (s, t) = true) : hasIncoming t st := by
  simp only [List.contains, List.elem_eq_mem, decide_eq_true_eq] at hc
  rw [hb.1] at hc
  obtain ⟨e, he, hpr⟩ := List.mem_map.mp hc
  exact ⟨e, he, congrArg Prod.snd hpr⟩

theorem lookupNode2_mem {map : List (Str × Str)} {m1 m2 v : Str}
    (h : lookupNode2 map m1 m2 = some v) : ∃ kv ∈ map, kv.2 = v := by
  unfold lookupNode2 at h
  rw [Option.map_eq_some'] at h
  obtain ⟨kv, hf, he⟩ := h
  exact ⟨kv, List.mem_of_find?_eq_some hf, he⟩

theorem joinPass_inc (map : List (Str × Str)) (jtn : List Str)
    (f : Option Str) (sq : SubQuery) : ∀ joins handled st, BInv st →
    (handled ≠ [] → hasIncoming sq.id st) →
    ((joinPass map jtn f sq joins handled st).1 ≠ [] →
      hasIncoming sq.id (joinPass map jtn f sq joins handled st).2) := by
  intro joins
  induction joins with
  | nil => intro handled st _ hinv; exact hinv
  | cons j rest ih =>
    intro handled st hb hinv
    unfold joinPass
    dsimp only
    cases hl : lookupNode2 map (getMatchName j.table.name)
        (getMatchName j.table.tableName) with
    | some v =>
      simp only [hl]
      cases f with
      | none =>
        exact ih _ _
          (addEdgeB_BInv _ _ _ _ _ (addEdgeB_BInv _ _ _ _ _
            ((nodesCounter_pres st _ _).1 hb)))
          (fun _ => addEdgeB_inc _ _ _ _ _ (addEdgeB_BInv _ _ _ _ _
            ((nodesCounter_pres st _ _).1 hb)))
      | some fv =>
        exact ih _ _
          (addEdgeB_BInv _ _ _ _ _ (addEdgeB_BInv _ _ _ _ _
            (addEdgeB_BInv _ _ _ _ _ ((nodesCounter_pres st _ _).1 hb))))
          (fun _ => addEdgeB_inc _ _ _ _ _ (addEdgeB_BInv _ _ _ _ _
            (addEdgeB_BInv _ _ _ _ _ ((nodesCounter_pres st _ _).1 hb))))
    | none =>
      simp only [hl]
      cases f with
      | none =>
        exact ih _ _
          (addEdgeB_BInv _ _ _ _ _ (addEdgeB_BInv _ _ _ _ _
            ((nodesCounter_pres _ _ _).1 ((ensureSourceNode_pres _ st).1 hb))))
          (fun _ => addEdgeB_inc _ _ _ _ _ (addEdgeB_BInv _ _ _ _ _
            ((nodesCounter_pres _ _ _).1 ((ensureSourceNode_pres _ st).1 hb))))
      | some fv =>
        exact ih _ _
          (addEdgeB_BInv _ _ _ _ _ (addEdgeB_BInv _ _ _ _ _
            (addEdgeB_BInv _ _ _ _ _ ((nodesCounter_pres _ _ _).1
              ((ensureSourceNode_pres _ st).1 hb)))))
          (fun _ => addEdgeB_inc _ _ _ _ _ (addEdgeB_BInv _ _ _ _ _
            (addEdgeB_BInv _ _ _ _ _ ((nodesCounter_pres _ _ _).1
              ((ensureSourceNode_pres _ st).1 hb)))))

theorem unionPass_inc (sq : SubQuery) : ∀ phys handled st, BInv st →
    (handled ≠ [] → hasIncoming sq.id st) →
    ((unionPass sq phys handled st).1 ≠ [] →
      hasIncoming sq.id (unionPass sq phys handled st).2) := by
  intro phys
  induction phys with
  | nil => intro handled st _ hinv; exact hinv
  | cons tn rest ih =>
    intro handled st hb hinv
    unfold unionPass
    dsimp only
    exact ih _ _
      (addEdgeB_BInv _ _ _ _ _ ((ensureSourceNode_pres _ st).1 hb))
      (fun _ => addEdgeB_inc _ _ _ _ _ ((ensureSourceNode_pres _ st).1 hb))

theorem depsPass_inc (map : List (Str × Str)) (ud : List Str)
    (sq : SubQuery) : ∀ deps handled st, BInv st →
    (handled ≠ [] → hasIncoming sq.id st) →
    ((depsPass map ud sq deps handled st).1 ≠ [] →
      hasIncoming sq.id (depsPass map ud sq deps handled st).2) := by
  intro deps
  induction deps with
  | nil => intro handled st _ hinv; exact hinv
  | cons dep rest ih =>
    intro handled st hb hinv
    unfold depsPass
    dsimp only
    split
    · exact ih _ _ hb hinv
    · cases hl : lookupNode1 map (getMatchName dep) with
      | none =>
        simp only [hl]
        exact ih _ _ hb hinv
      | some v =>
        simp only [hl]
        split
        · exact ih _ _ hb hinv
        · split
          · exact ih _ _ hb hinv
          · exact ih _ _ (addEdgeB_BInv _ _ _ _ _ hb)
              (fun _ => addEdgeB_inc _ _ _ _ _ hb)

theorem tablesPass_inc (map : List (Str × Str)) (sq : SubQuery) :
    ∀ ts handled st, BInv st →
    (∀ kv ∈ map, ¬(kv.2 = sq.id)) →
    (handled ≠ [] → hasIncoming sq.id st) → ts ≠ [] →
    hasIncoming sq.id (tablesPass map sq ts handled st).2 := by
  intro ts handled st hb hmap hinv hts
  cases ts with
  | nil => exact absurd rfl hts
  | cons t rest =>
    unfold tablesPass
    dsimp only
    split
    · rename_i hany
      have hne : handled ≠ [] := by
        intro he
        subst he
        simp at hany
      exact hasIncoming_mono (tablesPass_pres map sq rest handled st).2
        (hinv hne)
    · cases hl : lookupNode2 map (getMatchName t.name)
          (getMatchName t.tableName) with
      | some v =>
        simp only [hl]
        have hv : ¬(v = sq.id) := by
          obtain ⟨kv, hkv, he⟩ := lookupNode2_mem hl
          rw [← he]
          exact hmap kv hkv
        rw [if_neg hv]
        split
        · rename_i hcont
          exact hasIncoming_mono (tablesPass_pres _ _ _ _ _).2
            (contains_hasIncoming hb hcont)
        · exact hasIncoming_mono (tablesPass_pres _ _ _ _ _).2
            (addEdgeB_inc _ _ _ _ _ hb)
      | none =>
        simp only [hl]
        exact hasIncoming_mono (tablesPass_pres _ _ _ _ _).2
          (addEdgeB_inc _ _ _ _ _ ((ensureSourceNode_pres _ st).1 hb))

theorem rescuePass_inc (map : List (Str × Str)) (sq : SubQuery) :
    ∀ (ts : List TableRef) (st : BState), BInv st → ts ≠ [] →
    hasIncoming sq.id (rescuePass map [] sq ts st) := by
  intro ts st hb hts
  obtain ⟨t, rest, hcons⟩ : ∃ t rest, ts = t :: rest := by
    cases h : ts with
    | nil => exact absurd h hts
    | cons a b => exact ⟨a, b, rfl⟩
  subst hcons
  unfold rescuePass
  dsimp only
  rw [if_neg (by simp)]
  cases hl : lookupNode2 map (getMatchName t.name)
      (getMatchName t.tableName) with
  | some v =>
    simp only [hl]
    exact hasIncoming_mono (rescuePass_pres _ _ _ _ _).2
      (addEdgeB_inc _ _ _ _ _ hb)
  | none =>
    simp only [hl]
    exact hasIncoming_mono (rescuePass_pres _ _ _ _ _).2
      (addEdgeB_inc _ _ _ _ _ ((ensureSourceNode_pres _ st).1 hb))


theorem processUnit_inc (map : List (Str × Str)) (ud : List Str)
    (up : List (Str × List Str)) (st : BState) (sq : SubQuery)
    (hb : BInv st) (hts : sq.tables ≠ [])
    (hcase : (sq.isCTE || sq.isTempTable || sq.isSubQuery) = true ∨
      (∀ kv ∈ map, ¬(kv.2 = sq.id))) :
    hasIncoming sq.id (processUnit map ud up st sq) := by
  unfold processUnit
  dsimp only
  set jtn := sq.joins.map (fun j => lcStr j.table.name) with hjtn
  set df := determineFrom map jtn sq.tables st with hdfd
  have hbdf : BInv df.2 := by
    unfold BInv at hb ⊢
    rw [(determineFrom_state map jtn sq.tables st).1,
      (determineFrom_state map jtn sq.tables st).2]
    exact hb
  set r2 := joinPass map jtn df.1 sq sq.joins [] df.2 with hr2
  have hb2 : BInv r2.2 :=
    (joinPass_pres map jtn df.1 sq sq.joins [] df.2).1 hbdf
  have hj2 : r2.1 ≠ [] → hasIncoming sq.id r2.2 :=
    joinPass_inc map jtn df.1 sq sq.joins [] df.2 hbdf
      (fun h => absurd rfl h)
  cases hu : mapGet up sq.id with
  | some phys =>
    simp only [hu]
    set r3 := unionPass sq phys r2.1 r2.2 with hr3
    have hb3 : BInv r3.2 := (unionPass_pres sq phys r2.1 r2.2).1 hb2
    have hj3 : r3.1 ≠ [] → hasIncoming sq.id r3.2 :=
      unionPass_inc sq phys r2.1 r2.2 hb2 hj2
    set r4 := depsPass map ud sq sq.dependsOn r3.1 r3.2 with hr4
    have hb4 : BInv r4.2 :=
      (depsPass_pres map ud sq sq.dependsOn r3.1 r3.2).1 hb3
    have hj4 : r4.1 ≠ [] → hasIncoming sq.id r4.2 :=
      depsPass_inc map ud sq sq.dependsOn r3.1 r3.2 hb3 hj3
    set r5 := tablesPass map sq sq.tables r4.1 r4.2 with hr5
    have hb5 : BInv r5.2 := (tablesPass_pres map sq sq.tables r4.1 r4.2).1 hb4
    rcases hcase with hflag | hmap
    · split
      · rename_i hcond
        rw [Bool.and_eq_true] at hcond
        have hX : r5.2.edges.filter (fun e => e.target = sq.id) = [] :=
          List.isEmpty_iff.mp hcond.1
        rw [hX]
        exact rescuePass_inc map sq sq.tables r5.2 hb5 hts
      · rename_i hcond
        rw [hflag, Bool.and_true] at hcond
        have hXne : r5.2.edges.filter (fun e => e.target = sq.id) ≠ [] :=
          fun hnil => hcond (by rw [hnil]; rfl)
        obtain ⟨e, he⟩ := List.exists_mem_of_ne_nil _ hXne
        rw [List.mem_filter] at he
        exact ⟨e, he.1, of_decide_eq_true he.2⟩
    · have hj5 : hasIncoming sq.id r5.2 :=
        tablesPass_inc map sq sq.tables r4.1 r4.2 hb4 hmap hj4 hts
      split
      · exact hasIncoming_mono (rescuePass_pres _ _ _ _ _).2 hj5
      · exact hj5
  | none =>
    simp only [hu]
    set r4 := depsPass map ud sq sq.dependsOn r2.1 r2.2 with hr4
    have hb4 : BInv r4.2 :=
      (depsPass_pres map ud sq sq.dependsOn r2.1 r2.2).1 hb2
    have hj4 : r4.1 ≠ [] → hasIncoming sq.id r4.2 :=
      depsPass_inc map ud sq sq.dependsOn r2.1 r2.2 hb2 hj2
    set r5 := tablesPass map sq sq.tables r4.1 r4.2 with hr5
    have hb5 : BInv r5.2 := (tablesPass_pres map sq sq.tables r4.1 r4.2).1 hb4
    rcases hcase with hflag | hmap
    · split
      · rename_i hcond
        rw [Bool.and_eq_true] at hcond
        have hX : r5.2.edges.filter (fun e => e.target = sq.id) = [] :=
          List.isEmpty_iff.mp hcond.1
        rw [hX]
        exact rescuePass_inc map sq sq.tables r5.2 hb5 hts
      · rename_i hcond
        rw [hflag, Bool.and_true] at hcond
        have hXne : r5.2.edges.filter (fun e => e.target = sq.id) ≠ [] :=
          fun hnil => hcond (by rw [hnil]; rfl)
        obtain ⟨e, he⟩ := List.exists_mem_of_ne_nil _ hXne
        rw [List.mem_filter] at he
        exact ⟨e, he.1, of_decide_eq_true he.2⟩
    · have hj5 : hasIncoming sq.id r5.2 :=
        tablesPass_inc map sq sq.tables r4.1 r4.2 hb4 hmap hj4 hts
      split
      · exact hasIncoming_mono (rescuePass_pres _ _ _ _ _).2 hj5
      · exact hj5

theorem tempLoopF_ids (fuel : Nat) :
    ∀ (entries : List (Str × Str)) (tempNames : List Str) (i : Nat)
      (acc : List SubQuery) (st : PState) (acc2 : List SubQuery) (st2 : PState),
    tempLoopF fuel entries tempNames i acc st = some (acc2, st2) →
    ∀ q ∈ acc2, q ∈ acc ∨
      ((q.isTempTable = true ∨ q.isCTE = true) ∧ 1 ≤ q.id.count '_') := by
  intro entries
  induction entries with
  | nil =>
    intro tempNames i acc st acc2 st2 h q hq
    simp only [tempLoopF, Option.some.injEq, Prod.mk.injEq] at h
    obtain ⟨h1, h2⟩ := h
    subst h1
    exact Or.inl hq
  | cons hd rest ih =>
    intro tempNames i acc st acc2 st2 h q hq
    obtain ⟨nm, body⟩ := hd
    unfold tempLoopF at h
    split at h
    · exact Option.noConfusion h
    · rename_i parsed st2' hp
      rcases ih _ _ _ _ _ _ h q hq with hin | hshape
      · rcases List.mem_append.mp hin with hin | hin
        · exact Or.inl hin
        · rw [List.mem_singleton] at hin
          subst hin
          refine Or.inr ⟨Or.inl rfl, ?_⟩
          show 1 ≤ (strTempNodePrefix ++ nm).count '_'
          rw [List.count_append]
          have : strTempNodePrefix.count '_' = 2 := by decide
          omega
      · exact Or.inr hshape

theorem cteLoopF_ids (fuel : Nat) :
    ∀ (entries : List (Str × Str)) (tempNames cteNames : List Str) (i : Nat)
      (acc : List SubQuery) (st : PState) (acc2 : List SubQuery) (st2 : PState),
    cteLoopF fuel entries tempNames cteNames i acc st = some (acc2, st2) →
    ∀ q ∈ acc2, q ∈ acc ∨
      ((q.isTempTable = true ∨ q.isCTE = true) ∧ 1 ≤ q.id.count '_') := by
  intro entries
  induction entries with
  | nil =>
    intro tempNames cteNames i acc st acc2 st2 h q hq
    simp only [cteLoopF, Option.some.injEq, Prod.mk.injEq] at h
    obtain ⟨h1, h2⟩ := h
    subst h1
    exact Or.inl hq
  | cons hd rest ih =>
    intro tempNames cteNames i acc st acc2 st2 h q hq
    obtain ⟨nm, body⟩ := hd
    unfold cteLoopF at h
    split at h
    · exact Option.noConfusion h
    · rename_i parsed st2' hp
      rcases ih _ _ _ _ _ _ _ h q hq with hin | hshape
      · rcases List.mem_append.mp hin with hin | hin
        · exact Or.inl hin
        · rw [List.mem_singleton] at hin
          subst hin
          obtain ⟨_, hid, hcte, _, _⟩ := processSQLF_ok fuel _ _ _ _ _ _ _ _ _ hp
          refine Or.inr ⟨Or.inr hcte, ?_⟩
          rw [hid]
          show 1 ≤ (strCtePrefix ++ natToStr i).count '_'
          rw [List.count_append, natToStr_no_underscore]
          have : strCtePrefix.count '_' = 1 := by decide
          omega
      · exact Or.inr hshape

theorem parseSQLAuxF_shape : ∀ (fuel : Nat) (sql : Str) (p : ParsedSQL)
    (st : PState), parseSQLAuxF fuel sql = some (p, st) →
    p.allQueries = p.ctes ++ p.subQueries ++ [p.mainQuery] ∧
    (∀ q ∈ p.ctes, (q.isTempTable = true ∨ q.isCTE = true) ∧
      1 ≤ q.id.count '_') ∧
    (∀ q ∈ p.subQueries, q.isSubQuery = true ∧ 1 ≤ q.id.count '_') ∧
    p.mainQuery.id = strMainId ∧ p.mainQuery.isCTE = false ∧
    p.mainQuery.isSubQuery = false ∧ p.mainQuery.isTempTable = false := by
  intro fuel sql p st h
  unfold parseSQLAuxF at h
  dsimp only at h
  split at h
  · exact Option.noConfusion h
  · rename_i tempQs st1 ht
    split at h
    · exact Option.noConfusion h
    · rename_i cteQs st2 hc
      split at h
      · exact Option.noConfusion h
      · rename_i mainQuery st3 hm
        simp only [Option.some.injEq, Prod.mk.injEq] at h
        obtain ⟨h1, h2⟩ := h
        subst h2
        subst h1
        have p1 := (tempLoopF_ok fuel _ _ _ _ _ _ _ ht).2 PsiInv_init
        have p2 := (cteLoopF_ok fuel _ _ _ _ _ _ _ _ hc).2 p1
        have p3 := ((processSQLF_ok fuel _ _ _ _ _ _ _ _ _ hm).1).2 p2
        obtain ⟨_, hmid, hmc, hms, hmt⟩ :=
          processSQLF_ok fuel _ _ _ _ _ _ _ _ _ hm
        refine ⟨rfl, ?_, ?_, hmid, hmc, hms, hmt⟩
        · intro q hq
          rcases List.mem_append.mp hq with hq | hq
          · rcases tempLoopF_ids fuel _ _ _ _ _ _ _ ht q hq with hin | hs
            · simp at hin
            · exact hs
          · rcases cteLoopF_ids fuel _ _ _ _ _ _ _ _ hc q hq with hin | hs
            · simp at hin
            · exact hs
        · intro q hq
          refine ⟨p3.2.2.2.2 q hq, ?_⟩
          rcases p3.2.2.2.1 q hq with ⟨j, _, hje⟩ | ht2
          · rw [hje, subqId_count]
          · unfold twoUnderscores at ht2
            omega

theorem mapFoldCtes_vals (P : Str → Prop) :
    ∀ (ctes : List SubQuery) (m : List (Str × Str)),
    (∀ kv ∈ m, P kv.2) → (∀ c ∈ ctes, P c.id) →
    ∀ kv ∈ ctes.foldl (fun m cte =>
      mapSet (mapSet m (lcStr cte.name) cte.id) cte.id cte.id) m, P kv.2 := by
  intro ctes
  induction ctes with
  | nil => intro m hm _ kv hkv; exact hm kv hkv
  | cons c rest ih =>
    intro m hm hc kv hkv
    rw [List.foldl_cons] at hkv
    refine ih _ ?_ (fun x hx => hc x (List.mem_cons_of_mem _ hx)) kv hkv
    intro kv2 hkv2
    rcases mem_mapSet hkv2 with he | hkv3
    · rw [he]
      exact hc c (List.mem_cons_self _ _)
    · rcases mem_mapSet hkv3 with he | hkv4
      · rw [he]
        exact hc c (List.mem_cons_self _ _)
      · exact hm kv2 hkv4

theorem mapFoldSubs_vals (P : Str → Prop) :
    ∀ (subs : List SubQuery) (m : List (Str × Str)),
    (∀ kv ∈ m, P kv.2) → (∀ s ∈ subs, P s.id) →
    ∀ kv ∈ subs.foldl (fun m sq => mapSet m sq.id sq.id) m, P kv.2 := by
  intro subs
  induction subs with
  | nil => intro m hm _ kv hkv; exact hm kv hkv
  | cons s rest ih =>
    intro m hm hs kv hkv
    rw [List.foldl_cons] at hkv
    refine ih _ ?_ (fun x hx => hs x (List.mem_cons_of_mem _ hx)) kv hkv
    intro kv2 hkv2
    rcases mem_mapSet hkv2 with he | hkv3
    · rw [he]
      exact hs s (List.mem_cons_self _ _)
    · exact hm kv2 hkv3

theorem emphasizeFirst_target {es : List FEdge} {tgt : Str}
    (h : ∃ e ∈ es, e.target = tgt) (s t : Str) :
    ∃ e ∈ emphasizeFirst s t es, e.target = tgt := by
  obtain ⟨e, he, ht⟩ := h
  have hpr : (e.source, tgt) ∈ edgePairs es := by
    unfold edgePairs
    exact List.mem_map.mpr ⟨e, he, by rw [ht]⟩
  rw [← emphasizeFirst_pairs s t] at hpr
  unfold edgePairs at hpr
  obtain ⟨e2, he2, hpr2⟩ := List.mem_map.mp hpr
  exact ⟨e2, he2, congrArg Prod.snd hpr2⟩

/-- C3: in the assembled graph of a parsed script, every query unit with a
non-empty tables list has at least one edge targeting its node id (flagged
units are force-connected by the orphan rescue; the main unit gets its edge
from the table passes). -/
theorem claim_C3 : ∀ (fuel : Nat) (sql : Str) (p : ParsedSQL),
    parseSQLF fuel sql = some p →
    ∀ sq ∈ p.allQueries, sq.tables ≠ [] →
    ∃ e ∈ (buildFlowElements p).2, e.target = sq.id := by
  intro fuel sql p hp sq hsq hts
  unfold parseSQLF at hp
  rw [Option.map_eq_some'] at hp
  obtain ⟨⟨p', st⟩, haux, hpe⟩ := hp
  dsimp only at hpe
  subst hpe
  obtain ⟨hAll, hctes, hsubs, hmid, hmc, hms, hmt⟩ :=
    parseSQLAuxF_shape fuel sql p' st haux
  unfold buildFlowElements
  dsimp only
  set map0 := p'.ctes.foldl (fun m cte =>
    mapSet (mapSet m (lcStr cte.name) cte.id) cte.id cte.id)
    ([] : List (Str × Str)) with hmap0
  set map1 := p'.subQueries.foldl (fun m sq => mapSet m sq.id sq.id) map0
    with hmap1d
  set um := unionMaps map1 p'.allQueries with humd
  have hmap1 : ∀ kv ∈ map1, 1 ≤ kv.2.count '_' := by
    refine mapFoldSubs_vals (fun v => 1 ≤ v.count '_') p'.subQueries map0 ?_
      (fun s hs => (hsubs s hs).2)
    refine mapFoldCtes_vals (fun v => 1 ≤ v.count '_') p'.ctes []
      (by intro kv h; simp at h) (fun c hc => (hctes c hc).2)
  have hcase : (sq.isCTE || sq.isTempTable || sq.isSubQuery) = true ∨
      (∀ kv ∈ map1, ¬(kv.2 = sq.id)) := by
    rw [hAll] at hsq
    rcases List.mem_append.mp hsq with hin | hin
    · rcases List.mem_append.mp hin with hin | hin
      · rcases (hctes sq hin).1 with hf | hf <;> simp [hf]
      · simp [(hsubs sq hin).1]
    · rw [List.mem_singleton] at hin
      subst hin
      refine Or.inr ?_
      intro kv hkv he
      have h1 := hmap1 kv hkv
      rw [he, hmid] at h1
      have : strMainId.count '_' = 0 := by decide
      omega
  obtain ⟨pre, post, hsplit⟩ := List.append_of_mem hsq
  rw [hsplit, List.foldl_append, List.foldl_cons]
  have hbpre : BInv (pre.foldl (processUnit map1 um.1 um.2)
      { nodes := p'.ctes.map (fun cte =>
          { id := cte.id, label := cte.name,
            kind := if cte.isTempTable then kTemp else kCte }) ++
          p'.subQueries.map (fun sq =>
            { id := sq.id, label := sq.name, kind := kSubquery }) ++
          [{ id := p'.mainQuery.id, label := p'.mainQuery.name,
             kind := kMain },
           { id := strOutputId, label := strOutputName, kind := kOutput }],
        edges := [], added := [], joinCounter := 0 }) :=
    (foldUnits_pres _ _ _ _ _).1 ⟨rfl, List.nodup_nil⟩
  have hstep := processUnit_inc map1 um.1 um.2 _ sq hbpre hts hcase
  have hall : hasIncoming sq.id (addEdgeB (post.foldl
      (processUnit map1 um.1 um.2) _) p'.mainQuery.id strOutputId false []) :=
    hasIncoming_mono (addEdgeB_extends _ _ _ _ _)
      (hasIncoming_mono (foldUnits_pres _ _ _ _ _).2 hstep)
  exact emphasizeFirst_target hall p'.mainQuery.id strOutputId

set_option maxRecDepth 100000 in
theorem claim_C3_witness :
    parseSQLF 20 c3input = some c3p ∧
    c3p.mainQuery ∈ c3p.allQueries ∧
    c3p.mainQuery.tables ≠ [] ∧
    ∃ e ∈ (buildFlowElements c3p).2, e.target = c3p.mainQuery.id :=
  ⟨by decide, by decide, by decide,
    claim_C3 20 c3input c3p (by decide) c3p.mainQuery (by decide) (by decide)⟩

theorem subsLoopG_le (rec rec2 : RecFn)
    (hle : ∀ a b c d e f g x, rec a b c d e f g = some x →
      rec2 a b c d e f g = some x) :
    ∀ entries kn st x, subsLoopG rec entries kn st = some x →
      subsLoopG rec2 entries kn st = some x := by
  intro entries
  induction entries with
  | nil => intro kn st x h; exact h
  | cons hd rest ih =>
    intro kn st x h
    obtain ⟨ph, info⟩ := hd
    unfold subsLoopG at h ⊢
    dsimp only at h ⊢
    split at h
    · exact ih _ _ _ h
    · rename_i hg
      split at h
      · exact Option.noConfusion h
      · rename_i q st2 hr
        rw [hle _ _ _ _ _ _ _ _ hr]
        exact ih _ _ _ h

theorem branchLoopG_le (rec rec2 : RecFn)
    (hle : ∀ a b c d e f g x, rec a b c d e f g = some x →
      rec2 a b c d e f g = some x) :
    ∀ parts i pid pname kn st x,
      branchLoopG rec parts i pid pname kn st = some x →
      branchLoopG rec2 parts i pid pname kn st = some x := by
  intro parts
  induction parts with
  | nil => intro i pid pname kn st x h; exact h
  | cons part rest ih =>
    intro i pid pname kn st x h
    unfold branchLoopG at h ⊢
    dsimp only at h ⊢
    split at h
    · exact Option.noConfusion h
    · rename_i q st2 hr
      rw [hle _ _ _ _ _ _ _ _ hr]
      split at h
      · exact Option.noConfusion h
      · rename_i ids st4 hb
        have hgoal := ih _ _ _ _ _ _ hb
        show (match branchLoopG rec2 rest (i + 1) pid pname kn
            { collector := st2.collector ++ [q], counter := st2.counter,
              bodies := st2.bodies } with
          | none => none
          | some (ids, st4) =>
            some ((pid ++ strUnionMid ++ natToStr i) :: ids, st4)) = some x
        rw [hgoal]
        exact h

theorem processSQLF_mono : ∀ (fuel : Nat) (sql id name : Str) (c b : Bool)
    (kn : List Str) (st : PState) (x : SubQuery × PState),
    processSQLF fuel sql id name c b kn st = some x →
    processSQLF (fuel + 1) sql id name c b kn st = some x := by
  intro fuel
  induction fuel with
  | zero => intro sql id name c b kn st x h; exact Option.noConfusion h
  | succ fuel ih =>
    intro sql id name c b kn st x h
    unfold processSQLF at h ⊢
    dsimp only at h ⊢
    split at h
    · exact Option.noConfusion h
    · rename_i kn2 st2 hs
      rw [subsLoopG_le (fun a b c d e f g => processSQLF fuel a b c d e f g)
        (fun a b c d e f g => processSQLF (fuel + 1) a b c d e f g)
        (fun a b c d e f g x h => ih a b c d e f g x h) _ _ _ _ hs]
      dsimp only
      split at h
      · rename_i hcond
        rw [if_pos hcond]
        split at h
        · rename_i ut hut
          split at h
          · exact Option.noConfusion h
          · rename_i ids st3 hb
            rw [branchLoopG_le
              (fun a b c d e f g => processSQLF fuel a b c d e f g)
              (fun a b c d e f g => processSQLF (fuel + 1) a b c d e f g)
              (fun a b c d e f g x h => ih a b c d e f g x h) _ _ _ _ _ _ _ hb]
            exact h
        · exact h
      · rename_i hcond
        rw [if_neg hcond]
        exact h

theorem trimStr_sublist (l : Str) : List.Sublist (trimStr l) l := by
  unfold trimStr
  have h1 : List.Sublist (l.dropWhile isSpaceChar) l := List.dropWhile_sublist _
  have h2 : List.Sublist
      ((l.dropWhile isSpaceChar).reverse.dropWhile isSpaceChar)
      (l.dropWhile isSpaceChar).reverse := List.dropWhile_sublist _
  have h3 := h2.reverse
  rw [List.reverse_reverse] at h3
  exact h3.trans h1

theorem trimStr_count (l : Str) (c : Char) :
    (trimStr l).count c ≤ l.count c :=
  (trimStr_sublist l).count_le c

theorem trimStr_length (l : Str) : (trimStr l).length ≤ l.length :=
  (trimStr_sublist l).length_le

theorem takeWhile_count_eq_zero {p : Char → Bool} {c : Char}
    (hc : p c = false) (l : Str) : (l.takeWhile p).count c = 0 := by
  rw [List.count_eq_zero]
  intro hmem
  have := List.mem_takeWhile_imp hmem
  rw [hc] at this
  exact Bool.noConfusion this

theorem natToStr_count_paren (n : Nat) : (natToStr n).count '(' = 0 := by
  have hn : n < 10 ^ (n + 1) :=
    lt_of_lt_of_le (Nat.lt_pow_self (by omega) n)
      (Nat.pow_le_pow_right (by omega) (by omega))
  rw [List.count_eq_zero]
  intro h
  obtain ⟨k, hk, he⟩ := natToStrGo_digits n n hn '(' h
  interval_cases k <;> simp_all [digitChar]

theorem lazyUntil_append (p : Str → Bool) : ∀ l : Str,
    (lazyUntil p l).1 ++ (lazyUntil p l).2 = l := by
  intro l
  induction l with
  | nil => rfl
  | cons c rest ih =>
    unfold lazyUntil
    dsimp only
    split
    · rfl
    · dsimp only
      rw [List.cons_append, ih]

theorem findCloseAux_shape : ∀ (l : Str) (d : Int) (acc inner after : Str),
    findCloseAux l d acc = some (inner, after) →
    acc.reverse ++ l = inner ++ ')' :: after := by
  intro l
  induction l with
  | nil => intro d acc inner after h; exact Option.noConfusion h
  | cons c rest ih =>
    intro d acc inner after h
    unfold findCloseAux at h
    dsimp only at h
    by_cases hc : c = ')'
    · have hco : ¬(c = '(') := by rw [hc]; decide
      rw [if_neg hco, if_pos hc] at h
      split at h
      · simp only [Option.some.injEq, Prod.mk.injEq] at h
        obtain ⟨h1, h2⟩ := h
        subst h1
        subst h2
        rw [hc]
      · have := ih _ _ _ _ h
        rw [List.reverse_cons, List.append_assoc] at this
        simpa using this
    · rw [if_neg hc] at h
      have := ih _ _ _ _ h
      rw [List.reverse_cons, List.append_assoc] at this
      simpa using this

theorem findClose_shape {l inner after : Str}
    (h : findClose l = some (inner, after)) : l = inner ++ ')' :: after := by
  have := findCloseAux_shape l 1 [] inner after h
  simpa using this

theorem collapseWsGo_bounds : ∀ (fuel : Nat) (l : Str),
    (collapseWsGo fuel l).count '(' ≤ l.count '(' ∧
    (collapseWsGo fuel l).length ≤ l.length := by
  intro fuel
  induction fuel with
  | zero => intro l; simp [collapseWsGo]
  | succ fuel ih =>
    intro l
    cases l with
    | nil => simp [collapseWsGo]
    | cons c rest =>
      unfold collapseWsGo
      split
      · rename_i hsp
        have hd : List.Sublist (rest.dropWhile isSpaceChar) rest :=
          List.dropWhile_sublist _
        obtain ⟨ih1, ih2⟩ := ih (rest.dropWhile isSpaceChar)
        have hc1 := ih1.trans (hd.count_le '(')
        have hl1 := ih2.trans hd.length_le
        constructor
        · have e1 : (' ' :: collapseWsGo fuel
              (rest.dropWhile isSpaceChar)).count '(' =
              (collapseWsGo fuel (rest.dropWhile isSpaceChar)).count '(' := by
            simp [List.count_cons]
          rw [e1, List.count_cons]
          split <;> omega
        · simp only [List.length_cons]
          omega
      · obtain ⟨ih1, ih2⟩ := ih rest
        constructor
        · rw [List.count_cons, List.count_cons]
          split <;> omega
        · simp only [List.length_cons]
          omega

theorem normalizeWhitespace_bounds (l : Str) :
    (normalizeWhitespace l).count '(' ≤ l.count '(' ∧
    (normalizeWhitespace l).length ≤ l.length := by
  unfold normalizeWhitespace collapseWs
  obtain ⟨h1, h2⟩ := collapseWsGo_bounds (l.length + 1) l
  exact ⟨(trimStr_count _ _).trans h1, (trimStr_length _).trans h2⟩

theorem take_takeWhile (p : Char → Bool) : ∀ l : Str,
    l.take ((l.takeWhile p).length) = l.takeWhile p := by
  intro l
  induction l with
  | nil => rfl
  | cons c rest ih =>
    unfold List.takeWhile
    split
    · simp only [List.length_cons, List.take_succ_cons]
      rw [ih]
    · rfl

theorem startsWithCI_count : ∀ (kw l : Str), startsWithCI kw l = true →
    (∀ d ∈ kw, ¬(d.toLower = '(')) → (l.take kw.length).count '(' = 0 := by
  intro kw
  induction kw with
  | nil => intro l _ _; simp
  | cons p ps ih =>
    intro l h hkw
    cases l with
    | nil => exact Bool.noConfusion h
    | cons c cs =>
      simp only [startsWithCI, Bool.and_eq_true] at h
      obtain ⟨h1, h2⟩ := h
      have hc : ¬(c = '(') := by
        intro he
        subst he
        unfold eqCI at h1
        rw [decide_eq_true_eq] at h1
        exact hkw p (List.mem_cons_self _ _) (h1.trans (by decide))
      simp only [List.length_cons, List.take_succ_cons, List.count_cons]
      rw [ih cs h2 (fun d hd => hkw d (List.mem_cons_of_mem _ hd))]
      simp [hc]

theorem middle_paren {l : Str} {k : Nat} {afterOpen : Str}
    (h : l.drop k = '(' :: afterOpen) :
    l.count '(' = (l.take k).count '(' + (1 + afterOpen.count '(') ∧
    (l.take (k + 1)).count '(' = (l.take k).count '(' + 1 := by
  have hsplit : l = l.take k ++ '(' :: afterOpen := by
    conv_lhs => rw [← List.take_append_drop k l]
    rw [h]
  constructor
  · conv_lhs => rw [hsplit]
    rw [List.count_append, List.count_cons_self]
    omega
  · rw [List.take_add, h]
    rw [List.count_append]
    simp

theorem aliasMatchAfter_al {l al : Str} {n : Nat}
    (h : aliasMatchAfter l = some (al, n)) : al.count '(' = 0 := by
  unfold aliasMatchAfter at h
  dsimp only at h
  split at h
  · rename_i res hres
    simp only [Option.some.injEq] at h
    subst h
    split at hres
    · split at hres
      · exact Option.noConfusion hres
      · split at hres
        · exact Option.noConfusion hres
        · simp only [Option.some.injEq, Prod.mk.injEq] at hres
          rw [← hres.1]
          exact takeWhile_count_eq_zero (by decide) _
    · exact Option.noConfusion hres
  · split at h
    · exact Option.noConfusion h
    · simp only [Option.some.injEq, Prod.mk.injEq] at h
      rw [← h.1]
      exact takeWhile_count_eq_zero (by decide) _

theorem count_drop_le (n : Nat) (l : Str) (c : Char) :
    (l.drop n).count c ≤ l.count c :=
  (List.drop_sublist n l).count_le c

theorem aliasOnRequire_parts {al rest2 al2 cond restAfter : Str}
    (h : aliasOnRequire al rest2 = some (al2, cond, restAfter)) :
    al2 = al ∧ cond.count '(' + restAfter.count '(' ≤ rest2.count '(' := by
  unfold aliasOnRequire at h
  dsimp only at h
  split at h
  · exact Option.noConfusion h
  · split at h
    · split at h
      · exact Option.noConfusion h
      · simp only [Option.some.injEq, Prod.mk.injEq] at h
        obtain ⟨h1, h2, h3⟩ := h
        refine ⟨h1.symm, ?_⟩
        rw [← h2, ← h3]
        have hlz := lazyUntil_append clauseLookahead
          (((rest2.drop (wsRun rest2).length).drop 2).drop
            (wsRun ((rest2.drop (wsRun rest2).length).drop 2)).length)
        have hsum : (lazyUntil clauseLookahead
            (((rest2.drop (wsRun rest2).length).drop 2).drop
              (wsRun ((rest2.drop (wsRun rest2).length).drop 2)).length)).1.count '(' +
            (lazyUntil clauseLookahead
            (((rest2.drop (wsRun rest2).length).drop 2).drop
              (wsRun ((rest2.drop (wsRun rest2).length).drop 2)).length)).2.count '(' =
            ((((rest2.drop (wsRun rest2).length).drop 2).drop
              (wsRun ((rest2.drop (wsRun rest2).length).drop 2)).length)).count '(' := by
          conv_rhs => rw [← hlz]
          rw [List.count_append]
        have hc1 := trimStr_count (lazyUntil clauseLookahead
            (((rest2.drop (wsRun rest2).length).drop 2).drop
              (wsRun ((rest2.drop (wsRun rest2).length).drop 2)).length)).1 '('
        have hc2 := count_drop_le
          (wsRun ((rest2.drop (wsRun rest2).length).drop 2)).length
          ((rest2.drop (wsRun rest2).length).drop 2) '('
        have hc3 := count_drop_le 2 (rest2.drop (wsRun rest2).length) '('
        have hc4 := count_drop_le (wsRun rest2).length rest2 '('
        omega
    · exact Option.noConfusion h

theorem aliasOnMatch_parts {l al cond restAfter : Str}
    (h : aliasOnMatch l = some (al, cond, restAfter)) :
    al.count '(' = 0 ∧
    cond.count '(' + restAfter.count '(' ≤ l.count '(' := by
  unfold aliasOnMatch at h
  dsimp only at h
  split at h
  · rename_i res hres
    simp only [Option.some.injEq] at h
    subst h
    split at hres
    · split at hres
      · exact Option.noConfusion hres
      · split at hres
        · exact Option.noConfusion hres
        · obtain ⟨h1, h2⟩ := aliasOnRequire_parts hres
          constructor
          · rw [h1]
            exact takeWhile_count_eq_zero (by decide) _
          · refine h2.trans ?_
            have hc1 := count_drop_le
              (wordRun ((((l.drop (wsRun l).length)).drop 2).drop
                (wsRun ((l.drop (wsRun l).length).drop 2)).length)).length
              (((l.drop (wsRun l).length).drop 2).drop
                (wsRun ((l.drop (wsRun l).length).drop 2)).length) '('
            have hc2 := count_drop_le
              (wsRun ((l.drop (wsRun l).length).drop 2)).length
              ((l.drop (wsRun l).length).drop 2) '('
            have hc3 := count_drop_le 2 (l.drop (wsRun l).length) '('
            have hc4 := count_drop_le (wsRun l).length l '('
            omega
    · exact Option.noConfusion hres
  · split at h
    · exact Option.noConfusion h
    · obtain ⟨h1, h2⟩ := aliasOnRequire_parts h
      constructor
      · rw [h1]
        exact takeWhile_count_eq_zero (by decide) _
      · refine h2.trans ?_
        have hc1 := count_drop_le (wordRun (l.drop (wsRun l).length)).length
          (l.drop (wsRun l).length) '('
        have hc2 := count_drop_le (wsRun l).length l '('
        omega

theorem cons_count_split (c : Char) (l : Str) (a : Char) :
    (c :: l).count a = ([c] : Str).count a + l.count a := by
  rw [← List.singleton_append, List.count_append]

theorem fromStepGo_dec : ∀ (fuel : Nat) (pre l : Str) (counter : Nat)
    (s2 ph : Str) (info : SubInfo),
    fromStepGo fuel pre l counter = some (s2, ph, info) →
    s2.count '(' < pre.count '(' + l.count '(' ∧
    info.body.count '(' < pre.count '(' + l.count '(' := by
  intro fuel
  induction fuel with
  | zero => intro pre l counter s2 ph info h; exact Option.noConfusion h
  | succ fuel ih =>
    intro pre l counter s2 ph info h
    cases l with
    | nil => exact Option.noConfusion h
    | cons c rest =>
      unfold fromStepGo at h
      dsimp only at h
      split at h
      · split at h
        · rename_i afterOpen hmatch
          rw [List.drop_drop] at hmatch
          obtain ⟨hcnt, htake⟩ := middle_paren hmatch
          split at h
          · rename_i inner after hfc
            have hshape := findClose_shape hfc
            have hao : afterOpen.count '(' =
                inner.count '(' + after.count '(' := by
              rw [hshape, List.count_append, List.count_cons]
              simp
            split at h
            · simp only [Option.some.injEq, Prod.mk.injEq] at h
              obtain ⟨h1, h2, h3⟩ := h
              subst h1
              subst h3
              have hfs : strFromSpace.count '(' = 0 := by decide
              have hsp : strSubqPrefix.count '(' = 0 := by decide
              have hss : strSubqSuffix.count '(' = 0 := by decide
              have hnp := natToStr_count_paren counter
              have hspc : ([' '] : Str).count '(' = 0 := by decide
              have ham : ((aliasMatchAfter after).getD ([], 0)).1.count '('
                  = 0 := by
                cases haM : aliasMatchAfter after with
                | none => decide
                | some v =>
                  obtain ⟨a, n⟩ := v
                  exact aliasMatchAfter_al haM
              have hdr := count_drop_le
                ((aliasMatchAfter after).getD ([], 0)).2 after '('
              constructor
              · simp only [List.count_append]
                omega
              · dsimp only
                have hti := trimStr_count inner '('
                omega
            · obtain ⟨ih1, ih2⟩ := ih _ _ _ _ _ _ h
              rw [List.count_append] at ih1 ih2
              constructor <;> omega
          · obtain ⟨ih1, ih2⟩ := ih _ _ _ _ _ _ h
            rw [List.count_append] at ih1 ih2
            constructor <;> omega
        · obtain ⟨ih1, ih2⟩ := ih _ _ _ _ _ _ h
          rw [List.count_append] at ih1 ih2
          rw [cons_count_split c rest '(']
          constructor <;> omega
      · obtain ⟨ih1, ih2⟩ := ih _ _ _ _ _ _ h
        rw [List.count_append] at ih1 ih2
        rw [cons_count_split c rest '(']
        constructor <;> omega

theorem take_wsRun (l : Str) : l.take ((wsRun l).length) = wsRun l :=
  take_takeWhile isSpaceChar l

theorem wsRun_count (l : Str) : (wsRun l).count '(' = 0 :=
  takeWhile_count_eq_zero (by decide) l

theorem drop_add_eq (l : Str) (m n : Nat) :
    l.drop (m + n) = (l.drop m).drop n := by
  rw [List.drop_drop]

theorem startsWithJoinParen_facts : ∀ {l : Str} {j : Nat},
    startsWithJoinParen l = some j →
    l.drop (j - 1) = '(' :: l.drop j ∧
    (l.take (j - 1)).count '(' = 0 ∧ 5 ≤ j := by
  intro l j h
  unfold startsWithJoinParen at h
  dsimp only at h
  split at h
  · rename_i hci
    split at h
    · rename_i tail hmatch
      simp only [Option.some.injEq] at h
      subst h
      rw [List.drop_drop] at hmatch
      have hj : 4 + (wsRun (l.drop 4)).length + 1 - 1 =
          4 + (wsRun (l.drop 4)).length := by omega
      rw [hj]
      refine ⟨?_, ?_, by omega⟩
      · have hd : l.drop (4 + (wsRun (l.drop 4)).length + 1) = tail := by
          rw [drop_add_eq l (4 + (wsRun (l.drop 4)).length) 1, hmatch]
          rfl
        rw [hmatch, hd]
      · rw [List.take_add]
        rw [List.count_append]
        have h1 : (l.take 4).count '(' = 0 :=
          startsWithCI_count kwJOIN l hci (by decide)
        have h2 : ((l.drop 4).take (wsRun (l.drop 4)).length).count '(' = 0 := by
          have he : (l.drop 4).take ((wsRun (l.drop 4)).length) =
              wsRun (l.drop 4) := take_wsRun (l.drop 4)
          rw [he]
          exact wsRun_count _
        omega
    · exact Option.noConfusion h
  · exact Option.noConfusion h

theorem take_count_le_take {l : Str} {m n : Nat} (h : m ≤ n) (c : Char) :
    (l.take m).count c ≤ (l.take n).count c := by
  have he : (l.take n).take m = l.take m := by
    rw [List.take_take, min_eq_left h]
  rw [← he]
  exact (List.take_sublist m _).count_le c

theorem joinMatchAt_facts : ∀ {l : Str} {plen t : Nat},
    joinMatchAt l = some (plen, t) →
    l.drop t = '(' :: l.drop (t + 1) ∧
    (l.take plen).count '(' = 0 ∧
    ((l.drop plen).take 4).count '(' = 0 := by
  intro l plen t h
  unfold joinMatchAt at h
  dsimp only at h
  split at h
  · rename_i r hfs
    simp only [Option.some.injEq] at h
    subst h
    obtain ⟨kw, hkw, hf⟩ := List.exists_of_findSome?_eq_some hfs
    split at hf
    · rename_i hci
      split at hf
      · exact Option.noConfusion hf
      · split at hf
        · rename_i jlen hjp
          simp only [Option.some.injEq, Prod.mk.injEq] at hf
          obtain ⟨hf1, hf2⟩ := hf
          subst hf1
          subst hf2
          rw [List.drop_drop] at hjp
          obtain ⟨hd, hcnt, hjl⟩ := startsWithJoinParen_facts hjp
          refine ⟨?_, ?_, ?_⟩
          · have e1 : kw.length + (wsRun (l.drop kw.length)).length + jlen
                - 1 = kw.length + (wsRun (l.drop kw.length)).length +
                (jlen - 1) := by omega
            have e2 : kw.length + (wsRun (l.drop kw.length)).length + jlen
                - 1 + 1 = kw.length + (wsRun (l.drop kw.length)).length +
                jlen := by omega
            rw [e2, e1,
              drop_add_eq l (kw.length + (wsRun (l.drop kw.length)).length)
                (jlen - 1),
              drop_add_eq l (kw.length + (wsRun (l.drop kw.length)).length)
                jlen]
            exact hd
          · rw [List.take_add, List.count_append]
            have hk1 : (l.take kw.length).count '(' = 0 := by
              refine startsWithCI_count kw l hci ?_
              have hall : ∀ kw2 ∈ [kwINNER, kwLEFT, kwRIGHT, kwFULL, kwCROSS],
                  ∀ d ∈ kw2, ¬(d.toLower = '(') := by decide
              exact hall kw hkw
            have hk2 : ((l.drop kw.length).take
                (wsRun (l.drop kw.length)).length).count '(' = 0 := by
              have he : (l.drop kw.length).take
                  ((wsRun (l.drop kw.length)).length) =
                  wsRun (l.drop kw.length) := take_wsRun (l.drop kw.length)
              rw [he]
              exact wsRun_count _
            omega
          · have h4 := take_count_le_take
              (l := l.drop (kw.length + (wsRun (l.drop kw.length)).length))
              (show 4 ≤ jlen - 1 by omega) '('
            omega
        · exact Option.noConfusion hf
    · exact Option.noConfusion hf
  · rename_i hfs
    rw [Option.map_eq_some'] at h
    obtain ⟨jlen, hjp, he⟩ := h
    simp only [Prod.mk.injEq] at he
    obtain ⟨he1, he2⟩ := he
    subst he1
    subst he2
    obtain ⟨hd, hcnt, hjl⟩ := startsWithJoinParen_facts hjp
    refine ⟨?_, by simp, ?_⟩
    · have he2 : jlen - 1 + 1 = jlen := by omega
      rw [he2]
      exact hd
    · have h4 := take_count_le_take (l := l)
        (show 4 ≤ jlen - 1 by omega) '('
      simp only [List.drop_zero]
      omega

theorem joinStepGo_dec : ∀ (fuel : Nat) (pre l : Str) (counter : Nat)
    (s2 ph : Str) (info : SubInfo),
    joinStepGo fuel pre l counter = some (s2, ph, info) →
    s2.count '(' < pre.count '(' + l.count '(' ∧
    info.body.count '(' < pre.count '(' + l.count '(' := by
  intro fuel
  induction fuel with
  | zero => intro pre l counter s2 ph info h; exact Option.noConfusion h
  | succ fuel ih =>
    intro pre l counter s2 ph info h
    cases l with
    | nil => exact Option.noConfusion h
    | cons c rest =>
      unfold joinStepGo at h
      dsimp only at h
      split at h
      · rename_i plen t hjm
        obtain ⟨hd, hp1, hp2⟩ := joinMatchAt_facts hjm
        have hd2 : (c :: rest).drop t = '(' :: rest.drop t := hd
        obtain ⟨hcnt, htake⟩ := middle_paren hd2
        have hjk : ((c :: rest).take plen ++
            ((c :: rest).drop plen).take 4).count '(' = 0 := by
          rw [List.count_append]
          omega
        split at h
        · rename_i inner after hfc
          have hshape := findClose_shape hfc
          have hao : (rest.drop t).count '(' =
              inner.count '(' + after.count '(' := by
            rw [hshape, List.count_append, List.count_cons]
            simp
          split at h
          · rename_i hsel
            have hsp : strSubqPrefix.count '(' = 0 := by decide
            have hss : strSubqSuffix.count '(' = 0 := by decide
            have hnp := natToStr_count_paren counter
            have hspc : ([' '] : Str).count '(' = 0 := by decide
            split at h
            · rename_i al cond restAfter haM
              obtain ⟨hal, hcr⟩ := aliasOnMatch_parts haM
              simp only [Option.some.injEq, Prod.mk.injEq] at h
              obtain ⟨h1, h2, h3⟩ := h
              subst h1
              subst h3
              have hsos : strSpaceOnSpace.count '(' = 0 := by decide
              constructor
              · simp only [List.count_append]
                omega
              · dsimp only
                have hti := trimStr_count inner '('
                omega
            · rename_i haM
              simp only [Option.some.injEq, Prod.mk.injEq] at h
              obtain ⟨h1, h2, h3⟩ := h
              subst h1
              subst h3
              constructor
              · simp only [List.count_append]
                omega
              · dsimp only
                have hti := trimStr_count inner '('
                omega
          · obtain ⟨ih1, ih2⟩ := ih _ _ _ _ _ _ h
            rw [List.count_append] at ih1 ih2
            constructor <;> omega
        · obtain ⟨ih1, ih2⟩ := ih _ _ _ _ _ _ h
          rw [List.count_append] at ih1 ih2
          constructor <;> omega
      · obtain ⟨ih1, ih2⟩ := ih _ _ _ _ _ _ h
        rw [List.count_append] at ih1 ih2
        rw [cons_count_split c rest '(']
        constructor <;> omega

theorem replaceFromLoop_dec : ∀ (fuel : Nat) (s : Str) (counter : Nat)
    (subs : List (Str × SubInfo)),
    (replaceFromLoop fuel s counter subs).1.count '(' ≤ s.count '(' ∧
    ∀ e ∈ (replaceFromLoop fuel s counter subs).2.2,
      e ∈ subs ∨ e.2.body.count '(' < s.count '(' := by
  intro fuel
  induction fuel with
  | zero => intro s counter subs; exact ⟨le_refl _, fun e he => Or.inl he⟩
  | succ fuel ih =>
    intro s counter subs
    unfold replaceFromLoop
    split
    · exact ⟨le_refl _, fun e he => Or.inl he⟩
    · rename_i s2 ph info hstep
      obtain ⟨hs2, hbody⟩ := fromStepGo_dec _ _ _ _ _ _ _ hstep
      simp only [List.count_nil, Nat.zero_add] at hs2 hbody
      obtain ⟨ih1, ih2⟩ := ih s2 (counter + 1) (subs ++ [(ph, info)])
      constructor
      · exact ih1.trans (le_of_lt hs2)
      · intro e he
        rcases ih2 e he with hin | hlt
        · rcases List.mem_append.mp hin with hin | hin
          · exact Or.inl hin
          · rw [List.mem_singleton] at hin
            subst hin
            exact Or.inr hbody
        · exact Or.inr (lt_of_lt_of_le hlt (le_of_lt hs2))

theorem replaceJoinLoop_dec : ∀ (fuel : Nat) (s : Str) (counter : Nat)
    (subs : List (Str × SubInfo)),
    (replaceJoinLoop fuel s counter subs).1.count '(' ≤ s.count '(' ∧
    ∀ e ∈ (replaceJoinLoop fuel s counter subs).2.2,
      e ∈ subs ∨ e.2.body.count '(' < s.count '(' := by
  intro fuel
  induction fuel with
  | zero => intro s counter subs; exact ⟨le_refl _, fun e he => Or.inl he⟩
  | succ fuel ih =>
    intro s counter subs
    unfold replaceJoinLoop
    split
    · exact ⟨le_refl _, fun e he => Or.inl he⟩
    · rename_i s2 ph info hstep
      obtain ⟨hs2, hbody⟩ := joinStepGo_dec _ _ _ _ _ _ _ hstep
      simp only [List.count_nil, Nat.zero_add] at hs2 hbody
      obtain ⟨ih1, ih2⟩ := ih s2 (counter + 1) (subs ++ [(ph, info)])
      constructor
      · exact ih1.trans (le_of_lt hs2)
      · intro e he
        rcases ih2 e he with hin | hlt
        · rcases List.mem_append.mp hin with hin | hin
          · exact Or.inl hin
          · rw [List.mem_singleton] at hin
            subst hin
            exact Or.inr hbody
        · exact Or.inr (lt_of_lt_of_le hlt (le_of_lt hs2))

theorem replaceSubqueries_dec (sql : Str) :
    (replaceSubqueries sql).1.count '(' ≤ sql.count '(' ∧
    ∀ e ∈ (replaceSubqueries sql).2,
      e.2.body.count '(' < sql.count '(' := by
  unfold replaceSubqueries
  dsimp only
  obtain ⟨h1, h2⟩ := replaceFromLoop_dec (sql.length + 1) sql 0 []
  obtain ⟨h3, h4⟩ := replaceJoinLoop_dec
    ((replaceFromLoop (sql.length + 1) sql 0 []).1.length + 1)
    (replaceFromLoop (sql.length + 1) sql 0 []).1
    (replaceFromLoop (sql.length + 1) sql 0 []).2.1
    (replaceFromLoop (sql.length + 1) sql 0 []).2.2
  constructor
  · exact h3.trans h1
  · intro e he
    rcases h4 e he with hin | hlt
    · rcases h2 e hin with hin2 | hlt2
      · simp at hin2
      · exact hlt2
    · exact lt_of_lt_of_le hlt h1

theorem uaMatchLen_le {l : Str} {n : Nat} (h : uaMatchLen l = some n) :
    5 ≤ n ∧ n ≤ l.length := by
  unfold uaMatchLen at h
  dsimp only at h
  split at h
  · split at h
    · exact Option.noConfusion h
    · split at h
      · split at h
        · rename_i ctail hm
          split at h
          · simp only [Option.some.injEq] at h
            subst h
            refine ⟨by omega, ?_⟩
            have hl : (((l.drop 5).drop
                (wsRun (l.drop 5)).length).drop 3).length ≥ 1 := by
              rw [hm]
              simp
            simp only [List.length_drop] at hl
            omega
          · exact Option.noConfusion h
        · exact Option.noConfusion h
      · exact Option.noConfusion h
  · exact Option.noConfusion h

theorem uMatchLen_le {l : Str} {n : Nat} (h : uMatchLen l = some n) :
    5 ≤ n ∧ n ≤ l.length := by
  unfold uMatchLen at h
  split at h
  · split at h
    · rename_i ctail rest2 hm
      split at h
      · simp only [Option.some.injEq] at h
        subst h
        refine ⟨by omega, ?_⟩
        have hl : (l.drop 5).length ≥ 1 := by
          rw [hm]
          simp
        simp only [List.length_drop] at hl
        omega
      · exact Option.noConfusion h
    · exact Option.noConfusion h
  · exact Option.noConfusion h

theorem sbuGo_bounds : ∀ (l : Str) (skip : Nat) (depth : Int) (cur : Str)
    (parts : List Str) (det : Option Str),
    (∀ p ∈ (splitByUnionGo l skip depth cur parts det).1,
      p ∈ parts ∨ (p.count '(' ≤ cur.count '(' + l.count '(' ∧
        p.length ≤ cur.length + (l.length - skip))) ∧
    ((splitByUnionGo l skip depth cur parts det).1.length ≥ parts.length + 2 →
      ∀ p ∈ (splitByUnionGo l skip depth cur parts det).1,
        p ∈ parts ∨ p.length + 5 ≤ cur.length + l.length) := by
  intro l skip depth cur parts det
  induction l, skip, depth, cur, parts, det using splitByUnionGo.induct with
  | case1 skip depth cur parts det =>
    rw [splitByUnionGo]
    constructor
    · intro p hp
      split at hp
      · exact Or.inl hp
      · rcases List.mem_append.mp hp with hin | hin
        · exact Or.inl hin
        · rw [List.mem_singleton] at hin
          subst hin
          refine Or.inr ⟨?_, ?_⟩
          · have := trimStr_count cur '('
            simp only [List.count_nil]
            omega
          · have := trimStr_length cur
            simp only [List.length_nil]
            omega
    · intro hlen
      exfalso
      split at hlen <;> simp at hlen <;> omega
  | case2 head rest skip depth cur parts det ih =>
    rw [splitByUnionGo]
    obtain ⟨ih1, ih2⟩ := ih
    constructor
    · intro p hp
      rcases ih1 p hp with hin | ⟨hc, hl⟩
      · exact Or.inl hin
      · refine Or.inr ⟨?_, ?_⟩
        · rw [cons_count_split head rest '(']
          omega
        · simp only [List.length_cons]
          omega
    · intro hlen p hp
      rcases ih2 hlen p hp with hin | hl
      · exact Or.inl hin
      · refine Or.inr ?_
        simp only [List.length_cons]
        omega
  | case3 c rest depth cur parts det hd2 n hua ih =>
    rw [splitByUnionGo]
    simp only [hd2, if_pos, hua]
    rw [hd2] at ih
    obtain ⟨ih1, ih2⟩ := ih
    obtain ⟨hn5, hnl⟩ := uaMatchLen_le hua
    simp only [List.length_cons] at hnl
    have hmem : ∀ p ∈ (splitByUnionGo rest (n - 1) 0 []
        (parts ++ [trimStr cur]) (some kwUNIONALL)).1,
        p ∈ parts ∨ (p.count '(' ≤ cur.count '(' + (c :: rest).count '(' ∧
          p.length + 5 ≤ cur.length + (c :: rest).length) := by
      intro p hp
      rcases ih1 p hp with hin | ⟨hc, hl⟩
      · rcases List.mem_append.mp hin with hin | hin
        · exact Or.inl hin
        · rw [List.mem_singleton] at hin
          subst hin
          refine Or.inr ⟨?_, ?_⟩
          · have := trimStr_count cur '('
            rw [cons_count_split c rest '(']
            omega
          · have := trimStr_length cur
            simp only [List.length_cons]
            omega
      · refine Or.inr ⟨?_, ?_⟩
        · rw [cons_count_split c rest '(']
          simp only [List.count_nil] at hc
          omega
        · simp only [List.length_nil, List.length_cons] at hl ⊢
          omega
    constructor
    · intro p hp
      rcases hmem p hp with hin | ⟨hc, hl⟩
      · exact Or.inl hin
      · exact Or.inr ⟨hc, by omega⟩
    · intro _ p hp
      rcases hmem p hp with hin | ⟨hc, hl⟩
      · exact Or.inl hin
      · exact Or.inr hl
  | case4 c rest depth cur parts det hd2 hua n hu ih =>
    rw [splitByUnionGo]
    simp only [hd2, if_pos, hua, hu]
    rw [hd2] at ih
    obtain ⟨ih1, ih2⟩ := ih
    obtain ⟨hn5, hnl⟩ := uMatchLen_le hu
    simp only [List.length_cons] at hnl
    have hmem : ∀ p ∈ (splitByUnionGo rest (n - 1) 0 []
        (parts ++ [trimStr cur]) (some kwUNION)).1,
        p ∈ parts ∨ (p.count '(' ≤ cur.count '(' + (c :: rest).count '(' ∧
          p.length + 5 ≤ cur.length + (c :: rest).length) := by
      intro p hp
      rcases ih1 p hp with hin | ⟨hc, hl⟩
      · rcases List.mem_append.mp hin with hin | hin
        · exact Or.inl hin
        · rw [List.mem_singleton] at hin
          subst hin
          refine Or.inr ⟨?_, ?_⟩
          · have := trimStr_count cur '('
            rw [cons_count_split c rest '(']
            omega
          · have := trimStr_length cur
            simp only [List.length_cons]
            omega
      · refine Or.inr ⟨?_, ?_⟩
        · rw [cons_count_split c rest '(']
          simp only [List.count_nil] at hc
          omega
        · simp only [List.length_nil, List.length_cons] at hl ⊢
          omega
    constructor
    · intro p hp
      rcases hmem p hp with hin | ⟨hc, hl⟩
      · exact Or.inl hin
      · exact Or.inr ⟨hc, by omega⟩
    · intro _ p hp
      rcases hmem p hp with hin | ⟨hc, hl⟩
      · exact Or.inl hin
      · exact Or.inr hl
  | case5 c rest depth cur parts det hd2 hua hu ih =>
    rw [splitByUnionGo]
    simp only [hd2, if_pos, hua, hu]
    rw [hd2] at ih
    obtain ⟨ih1, ih2⟩ := ih
    constructor
    · intro p hp
      rcases ih1 p hp with hin | ⟨hc, hl⟩
      · exact Or.inl hin
      · refine Or.inr ⟨?_, ?_⟩
        · rw [cons_count_split c rest '(']
          rw [List.count_append] at hc
          have hc1 : ([c] : Str).count '(' ≤ ([c] : Str).count '(' :=
            le_refl _
          omega
        · simp only [List.length_append, List.length_singleton,
            List.length_cons, List.length_nil] at hl ⊢
          omega
    · intro hlen p hp
      rcases ih2 hlen p hp with hin | hl
      · exact Or.inl hin
      · refine Or.inr ?_
        simp only [List.length_append, List.length_singleton,
          List.length_cons, List.length_nil] at hl ⊢
        omega
  | case6 c rest depth cur parts det hd2 ih =>
    rw [splitByUnionGo]
    simp only [if_neg hd2]
    obtain ⟨ih1, ih2⟩ := ih
    constructor
    · intro p hp
      rcases ih1 p hp with hin | ⟨hc, hl⟩
      · exact Or.inl hin
      · refine Or.inr ⟨?_, ?_⟩
        · rw [cons_count_split c rest '(']
          rw [List.count_append] at hc
          omega
        · simp only [List.length_append, List.length_singleton,
            List.length_cons, List.length_nil] at hl ⊢
          omega
    · intro hlen p hp
      rcases ih2 hlen p hp with hin | hl
      · exact Or.inl hin
      · refine Or.inr ?_
        simp only [List.length_append, List.length_singleton,
          List.length_cons, List.length_nil] at hl ⊢
        omega

theorem splitByUnion_bounds (sql : Str) :
    ∀ p ∈ (splitByUnion sql).parts,
      p.count '(' ≤ sql.count '(' ∧
      (1 < (splitByUnion sql).parts.length → p.length + 5 ≤ sql.length) := by
  intro p hp
  unfold splitByUnion at hp ⊢
  dsimp only at hp ⊢
  obtain ⟨h1, h2⟩ := sbuGo_bounds sql 0 0 [] [] none
  constructor
  · rcases h1 p hp with hin | ⟨hc, _⟩
    · simp at hin
    · simpa using hc
  · intro hlen
    have hq := h2 (by simp only [List.length_nil]; omega) p hp
    rcases hq with hin | hl
    · simp at hin
    · simpa using hl

theorem processSQLF_le : ∀ {f F : Nat}, f ≤ F →
    ∀ (sql id name : Str) (c b : Bool) (kn : List Str) (st : PState)
      (x : SubQuery × PState),
    processSQLF f sql id name c b kn st = some x →
    processSQLF F sql id name c b kn st = some x := by
  intro f F h
  induction F with
  | zero =>
    intro sql id name c b kn st x hx
    have : f = 0 := by omega
    subst this
    exact hx
  | succ F ih =>
    intro sql id name c b kn st x hx
    rcases Nat.lt_or_ge f (F + 1) with hf | hf
    · have : f ≤ F := by omega
      exact processSQLF_mono _ _ _ _ _ _ _ _ _ (ih this _ _ _ _ _ _ _ _ hx)
    · have : f = F + 1 := by omega
      subst this
      exact hx

theorem subsLoopG_total :
    ∀ (entries : List (Str × SubInfo)),
    (∀ e ∈ entries, ∀ (id name : Str) (kn : List Str) (st : PState),
      ∃ fuel x, processSQLF fuel e.2.body id name false true kn st = some x) →
    ∀ (kn : List Str) (st : PState), ∃ F x,
      subsLoopG (fun a b c d e f g => processSQLF F a b c d e f g)
        entries kn st = some x := by
  intro entries
  induction entries with
  | nil => intro _ kn st; exact ⟨0, (kn, st), rfl⟩
  | cons hd rest ih =>
    intro hall kn st
    obtain ⟨ph, info⟩ := hd
    cases hg : mapGet st.bodies (normalizeWhitespace info.body) with
    | some existingId =>
      obtain ⟨F, x, hF⟩ := ih
        (fun e he => hall e (List.mem_cons_of_mem _ he))
        (if kn.contains existingId then kn else kn ++ [existingId]) st
      refine ⟨F, x, ?_⟩
      unfold subsLoopG
      dsimp only
      rw [hg]
      exact hF
    | none =>
      obtain ⟨f1, ⟨r, st2'⟩, h1⟩ := hall (ph, info) (List.mem_cons_self _ _)
        (strSubqueryId ++ natToStr st.counter)
        (if !info.aliasName.isEmpty then
          strSubqNameAlias1 ++ info.aliasName ++ strSubqNameAlias2
         else strSubqNameNum ++ natToStr (st.counter + 1))
        kn
        { collector := st.collector, counter := st.counter + 1,
          bodies := st.bodies }
      obtain ⟨F2, x, h2⟩ := ih
        (fun e he => hall e (List.mem_cons_of_mem _ he))
        (if kn.contains (strSubqueryId ++ natToStr st.counter) then kn
         else kn ++ [strSubqueryId ++ natToStr st.counter])
        { collector := st2'.collector ++ [r], counter := st2'.counter,
          bodies := mapSet st2'.bodies (normalizeWhitespace info.body)
            (strSubqueryId ++ natToStr st.counter) }
      refine ⟨max f1 F2, x, ?_⟩
      unfold subsLoopG
      dsimp only
      rw [hg]
      rw [processSQLF_le (le_max_left f1 F2) _ _ _ _ _ _ _ _ h1]
      exact subsLoopG_le _ _
        (fun a b c d e f g x hx =>
          processSQLF_le (le_max_right f1 F2) _ _ _ _ _ _ _ _ hx)
        _ _ _ _ h2

theorem branchLoopG_total :
    ∀ (parts : List Str),
    (∀ part ∈ parts, ∀ (id name : Str) (kn : List Str) (st : PState),
      ∃ fuel x, processSQLF fuel part id name false true kn st = some x) →
    ∀ (i : Nat) (pid pname : Str) (kn : List Str) (st : PState), ∃ F x,
      branchLoopG (fun a b c d e f g => processSQLF F a b c d e f g)
        parts i pid pname kn st = some x := by
  intro parts
  induction parts with
  | nil => intro _ i pid pname kn st; exact ⟨0, ([], st), rfl⟩
  | cons part rest ih =>
    intro hall i pid pname kn st
    obtain ⟨f1, ⟨r, st2'⟩, h1⟩ := hall part (List.mem_cons_self _ _)
      (pid ++ strUnionMid ++ natToStr i)
      (pname ++ strBranchName1 ++ natToStr (i + 1) ++ strBranchName2)
      kn st
    obtain ⟨F2, ⟨ids, st4⟩, h2⟩ := ih
      (fun e he => hall e (List.mem_cons_of_mem _ he))
      (i + 1) pid pname kn
      { collector := st2'.collector ++ [r], counter := st2'.counter,
        bodies := st2'.bodies }
    refine ⟨max f1 F2, ((pid ++ strUnionMid ++ natToStr i) :: ids, st4), ?_⟩
    unfold branchLoopG
    dsimp only
    rw [processSQLF_le (le_max_left f1 F2) _ _ _ _ _ _ _ _ h1]
    dsimp only
    rw [branchLoopG_le _ _
      (fun a b c d e f g x hx =>
        processSQLF_le (le_max_right f1 F2) _ _ _ _ _ _ _ _ hx)
      _ _ _ _ _ _ _ h2]

theorem processSQLF_total : ∀ (o : Nat) (sql : Str), sql.count '(' < o →
    ∀ (id name : Str) (c b : Bool) (kn : List Str) (st : PState),
    ∃ fuel x, processSQLF fuel sql id name c b kn st = some x := by
  intro o
  induction o with
  | zero => intro sql h; omega
  | succ o iho =>
    have inner : ∀ (L : Nat) (sql : Str), sql.length < L →
        sql.count '(' < o + 1 →
        ∀ (id name : Str) (c b : Bool) (kn : List Str) (st : PState),
        ∃ fuel x, processSQLF fuel sql id name c b kn st = some x := by
      intro L
      induction L with
      | zero => intro sql h; omega
      | succ L ihL =>
        intro sql hlen hop id name c b kn st
        have hbodies : ∀ e ∈ (replaceSubqueries (normalizeWhitespace sql)).2,
            ∀ (id2 name2 : Str) (kn2 : List Str) (st2 : PState),
            ∃ fuel x,
            processSQLF fuel e.2.body id2 name2 false true kn2 st2 =
              some x := by
          intro e he id2 name2 kn2 st2
          have hlt := (replaceSubqueries_dec (normalizeWhitespace sql)).2 e he
          have hno := (normalizeWhitespace_bounds sql).1
          exact iho e.2.body (by omega) id2 name2 false true kn2 st2
        obtain ⟨F1, ⟨kn2, st2⟩, hs⟩ := subsLoopG_total _ hbodies kn st
        by_cases hcomplex :
            (decide (1 <
              (splitByUnion (normalizeWhitespace sql)).parts.length) &&
              (splitByUnion (normalizeWhitespace sql)).parts.any
                partComplexTest) = true
        · have h2p :
              1 < (splitByUnion (normalizeWhitespace sql)).parts.length := by
            rw [Bool.and_eq_true] at hcomplex
            exact of_decide_eq_true hcomplex.1
          have hsome := sbu_unionType_isSome _ h2p
          rw [Option.isSome_iff_exists] at hsome
          obtain ⟨ut, hut⟩ := hsome
          have hparts : ∀ part ∈
              (splitByUnion (normalizeWhitespace sql)).parts,
              ∀ (id2 name2 : Str) (kn3 : List Str) (st3 : PState),
              ∃ fuel x,
              processSQLF fuel part id2 name2 false true kn3 st3 = some x := by
            intro part hpart id2 name2 kn3 st3
            obtain ⟨hc2, hl2⟩ := splitByUnion_bounds _ part hpart
            have hl3 := hl2 h2p
            have hno1 := (normalizeWhitespace_bounds sql).1
            have hno2 := (normalizeWhitespace_bounds sql).2
            exact ihL part (by omega) (by omega) id2 name2 false true kn3 st3
          obtain ⟨F2, ⟨ids, st3⟩, hb⟩ :=
            branchLoopG_total _ hparts 0 id name kn2 st2
          refine ⟨max F1 F2 + 1,
            ({ id := id, name := name, isCTE := c, isSubQuery := b,
               tables := [], fields := [], joins := [], filters := [],
               groupBy := [], orderBy := [], dependsOn := ids,
               unionInfo := some { type := ut, sources := ids } }, st3), ?_⟩
          unfold processSQLF
          dsimp only
          rw [subsLoopG_le _ _
            (fun a b c d e f g x hx =>
              processSQLF_le (le_max_left F1 F2) _ _ _ _ _ _ _ _ hx)
            _ _ _ _ hs]
          dsimp only
          rw [if_pos hcomplex, hut]
          dsimp only
          rw [branchLoopG_le _ _
            (fun a b c d e f g x hx =>
              processSQLF_le (le_max_right F1 F2) _ _ _ _ _ _ _ _ hx)
            _ _ _ _ _ _ _ hb]
        · refine ⟨F1 + 1,
            (processFlat (replaceSubqueries (normalizeWhitespace sql)).1
              (replaceSubqueries (normalizeWhitespace sql)).2
              id name c b kn2 st2), ?_⟩
          unfold processSQLF
          dsimp only
          rw [hs]
          dsimp only
          rw [if_neg hcomplex]
    intro sql hop id name c b kn st
    exact inner (sql.length + 1) sql (by omega) hop id name c b kn st

theorem processSQLF_total2 : ∀ (sql id name : Str) (c b : Bool)
    (kn : List Str) (st : PState),
    ∃ fuel x, processSQLF fuel sql id name c b kn st = some x :=
  fun sql id name c b kn st =>
    processSQLF_total (sql.count '(' + 1) sql (by omega) id name c b kn st

theorem tempLoopF_le {f F : Nat} (h : f ≤ F) :
    ∀ (entries : List (Str × Str)) (tempNames : List Str) (i : Nat)
      (acc : List SubQuery) (st : PState) (x : List SubQuery × PState),
    tempLoopF f entries tempNames i acc st = some x →
    tempLoopF F entries tempNames i acc st = some x := by
  intro entries
  induction entries with
  | nil => intro tempNames i acc st x hx; exact hx
  | cons hd rest ih =>
    intro tempNames i acc st x hx
    obtain ⟨nm, body⟩ := hd
    unfold tempLoopF at hx ⊢
    split at hx
    · exact Option.noConfusion hx
    · rename_i parsed st2 hp
      rw [processSQLF_le h _ _ _ _ _ _ _ _ hp]
      exact ih _ _ _ _ _ hx

theorem cteLoopF_le {f F : Nat} (h : f ≤ F) :
    ∀ (entries : List (Str × Str)) (tempNames cteNames : List Str) (i : Nat)
      (acc : List SubQuery) (st : PState) (x : List SubQuery × PState),
    cteLoopF f entries tempNames cteNames i acc st = some x →
    cteLoopF F entries tempNames cteNames i acc st = some x := by
  intro entries
  induction entries with
  | nil => intro tempNames cteNames i acc st x hx; exact hx
  | cons hd rest ih =>
    intro tempNames cteNames i acc st x hx
    obtain ⟨nm, body⟩ := hd
    unfold cteLoopF at hx ⊢
    split at hx
    · exact Option.noConfusion hx
    · rename_i parsed st2 hp
      rw [processSQLF_le h _ _ _ _ _ _ _ _ hp]
      exact ih _ _ _ _ _ _ hx

theorem tempLoopF_total :
    ∀ (entries : List (Str × Str)) (tempNames : List Str) (i : Nat)
      (acc : List SubQuery) (st : PState),
    ∃ F x, tempLoopF F entries tempNames i acc st = some x := by
  intro entries
  induction entries with
  | nil => intro tempNames i acc st; exact ⟨0, (acc, st), rfl⟩
  | cons hd rest ih =>
    intro tempNames i acc st
    obtain ⟨nm, body⟩ := hd
    obtain ⟨f1, ⟨parsed, st2⟩, h1⟩ := processSQLF_total2 body
      (strTempPrefix ++ nm) nm false false (tempNames.take i) st
    obtain ⟨F2, x, h2⟩ := ih tempNames (i + 1)
      (acc ++ [{ parsed with
        isTempTable := true, id := strTempNodePrefix ++ nm }]) st2
    refine ⟨max f1 F2, x, ?_⟩
    unfold tempLoopF
    rw [processSQLF_le (le_max_left f1 F2) _ _ _ _ _ _ _ _ h1]
    exact tempLoopF_le (le_max_right f1 F2) _ _ _ _ _ _ h2

theorem cteLoopF_total :
    ∀ (entries : List (Str × Str)) (tempNames cteNames : List Str) (i : Nat)
      (acc : List SubQuery) (st : PState),
    ∃ F x, cteLoopF F entries tempNames cteNames i acc st = some x := by
  intro entries
  induction entries with
  | nil => intro tempNames cteNames i acc st; exact ⟨0, (acc, st), rfl⟩
  | cons hd rest ih =>
    intro tempNames cteNames i acc st
    obtain ⟨nm, body⟩ := hd
    obtain ⟨f1, ⟨parsed, st2⟩, h1⟩ := processSQLF_total2 body
      (strCtePrefix ++ natToStr i) nm true false
      (tempNames ++ cteNames.take i) st
    obtain ⟨F2, x, h2⟩ := ih tempNames cteNames (i + 1)
      (acc ++ [parsed]) st2
    refine ⟨max f1 F2, x, ?_⟩
    unfold cteLoopF
    rw [processSQLF_le (le_max_left f1 F2) _ _ _ _ _ _ _ _ h1]
    exact cteLoopF_le (le_max_right f1 F2) _ _ _ _ _ _ _ h2

theorem parseSQLAuxF_total : ∀ sql : Str,
    ∃ fuel x, parseSQLAuxF fuel sql = some x := by
  intro sql
  obtain ⟨F1, ⟨tempQs, st1⟩, h1⟩ := tempLoopF_total
    (preprocessTempTables (removeComments sql)).1
    ((preprocessTempTables (removeComments sql)).1.map (fun t => lcStr t.1))
    0 [] { collector := [], counter := 0, bodies := [] }
  obtain ⟨F2, ⟨cteQs, st2⟩, h2⟩ := cteLoopF_total
    (extractCTEs (normalizeWhitespace
      (preprocessTempTables (removeComments sql)).2)).1
    ((preprocessTempTables (removeComments sql)).1.map (fun t => lcStr t.1))
    ((extractCTEs (normalizeWhitespace
      (preprocessTempTables (removeComments sql)).2)).1.map
        (fun c => lcStr c.1))
    0 [] st1
  obtain ⟨F3, ⟨mainQuery, st3⟩, h3⟩ := processSQLF_total2
    (if (trimStr (extractCTEs (normalizeWhitespace
        (preprocessTempTables (removeComments sql)).2)).2).isEmpty then
      strSelectStarFrom ++
        (if ((((preprocessTempTables (removeComments sql)).1.map
            (fun t => lcStr t.1)).getLast?).getD []).isEmpty then strDual
         else (((preprocessTempTables (removeComments sql)).1.map
            (fun t => lcStr t.1)).getLast?).getD [])
     else (extractCTEs (normalizeWhitespace
        (preprocessTempTables (removeComments sql)).2)).2)
    strMainId strMainName false false
    (((preprocessTempTables (removeComments sql)).1.map
        (fun t => lcStr t.1)) ++
      ((extractCTEs (normalizeWhitespace
        (preprocessTempTables (removeComments sql)).2)).1.map
          (fun c => lcStr c.1)) ++
      st2.collector.map (fun sq => lcStr sq.id))
    st2
  refine ⟨max (max F1 F2) F3,
    ({ ctes := tempQs ++ cteQs, mainQuery := mainQuery,
       subQueries := st3.collector,
       allQueries := (tempQs ++ cteQs) ++ st3.collector ++ [mainQuery] },
      st3), ?_⟩
  unfold parseSQLAuxF
  dsimp only
  rw [tempLoopF_le (le_trans (le_max_left F1 F2)
    (le_max_left (max F1 F2) F3)) _ _ _ _ _ _ h1]
  dsimp only
  rw [cteLoopF_le (le_trans (le_max_right F1 F2)
    (le_max_left (max F1 F2) F3)) _ _ _ _ _ _ _ h2]
  dsimp only
  rw [processSQLF_le (le_max_right (max F1 F2) F3) _ _ _ _ _ _ _ _ h3]

theorem parseSQLAuxF_le {f F : Nat} (h : f ≤ F) :
    ∀ (sql : Str) (x : ParsedSQL × PState),
    parseSQLAuxF f sql = some x → parseSQLAuxF F sql = some x := by
  intro sql x hx
  unfold parseSQLAuxF at hx ⊢
  dsimp only at hx ⊢
  split at hx
  · exact Option.noConfusion hx
  · rename_i tempQs st1 h1
    rw [tempLoopF_le h _ _ _ _ _ _ h1]
    dsimp only
    split at hx
    · exact Option.noConfusion hx
    · rename_i cteQs st2 h2
      rw [cteLoopF_le h _ _ _ _ _ _ _ h2]
      dsimp only
      split at hx
      · exact Option.noConfusion hx
      · rename_i mainQuery st3 h3
        rw [processSQLF_le h _ _ _ _ _ _ _ _ h3]
        exact hx

/-- C1: parsing is total. For every input text there is a fuel bound at
which the fueled parser returns a structurally complete `ParsedSQL`:
a main query is present and `allQueries` is exactly the CTE/temp units
followed by the promoted subqueries followed by the main query; every
field of every unit is a defined (possibly empty) list by construction. -/
theorem claim_C1 : ∀ sql : Str, ∃ (fuel : Nat) (p : ParsedSQL),
    parseSQLF fuel sql = some p ∧
    p.allQueries = p.ctes ++ p.subQueries ++ [p.mainQuery] := by
  intro sql
  obtain ⟨fuel, ⟨p, st⟩, h⟩ := parseSQLAuxF_total sql
  refine ⟨fuel, p, ?_, (parseSQLAuxF_shape fuel sql p st h).1⟩
  unfold parseSQLF
  rw [h]
  rfl

/-- C10: parsing terminates on every finite input: some fuel makes the
fueled parser succeed, and the result is stable under any larger fuel, so
the parse defines a total function of the input text. -/
theorem claim_C10 : ∀ sql : Str, ∃ n : Nat,
    (parseSQLF n sql).isSome = true ∧
    ∀ m, n ≤ m → parseSQLF m sql = parseSQLF n sql := by
  intro sql
  obtain ⟨fuel, ⟨p, st⟩, h⟩ := parseSQLAuxF_total sql
  have hn : parseSQLF fuel sql = some p := by
    unfold parseSQLF
    rw [h]
    rfl
  refine ⟨fuel, by rw [hn]; rfl, ?_⟩
  intro m hm
  have hm2 := parseSQLAuxF_le hm sql (p, st) h
  unfold parseSQLF
  rw [h, hm2]
